import Mathlib

/-!
# bencomp: benchmark statistics and random JSON generation

A shallow embedding of the Go sources `benchmark.go`, `bench.go`, `bench-flags.go`
and `json-gen.go`, followed by theorems about the embedded functions.

Conventions of the embedding.

* Go `int`, `int64` and `time.Duration` values are Lean integers; every Go arithmetic
  operation that can overflow is followed by `wrap64` (two's complement, 64-bit `int`).
  `uint64` values are natural numbers reduced modulo `2 ^ 64`.
* Go `float64` values are the type `F64`: a finite value is kept as an exact fraction,
  and every arithmetic operation rounds its exact result to the nearest binary64 value
  (ties to even).
* Go strings are lists of bytes (`GoString`).
* A Go panic is the outcome `Res.panic`; a returned `error` is `Res.error`.
* The process-wide random source is an explicit stream of raw outcomes (`Rand`).
* Slices are lists.  Where it matters which memory a function writes, the function is
  given a second time with the memory explicit (`Heap`, names ending in `Mem`): a slice is
  then the address of its backing array, and sorting a slice overwrites that array.
  Theorem `aggregateResultsMem_refines` relates the two forms of `aggregateResults`.
* The recursion of `jsonGenerateRec` carries a bound on the number of nested calls, the
  loop of `formatBytes` a bound on the number of rounds; neither bound is ever reached.
-/

namespace Bencomp

/-! ## Machine integers -/

/-- Two's-complement reduction of an integer to the range of a 64-bit Go `int`. -/
def wrap64 (x : Int) : Int := (x + 2 ^ 63) % 2 ^ 64 - 2 ^ 63

/-- Membership in the range of a 64-bit Go `int`. -/
def IsInt64 (x : Int) : Prop := -2 ^ 63 ≤ x ∧ x < 2 ^ 63

instance (x : Int) : Decidable (IsInt64 x) := by unfold IsInt64; infer_instance

/-! ## binary64 floating point -/

/-- A Go `float64`: a finite value `(-1)^neg * num / den` (with `den > 0`), an infinity,
or a NaN.  Finite values are kept as exact fractions; `F64.round` is the only place where
precision is lost. -/
inductive F64 where
  | fin (neg : Bool) (num den : Nat) : F64
  | inf (neg : Bool) : F64
  | nan : F64
deriving DecidableEq, Repr

/-- Auxiliary loop of `log2Floor`. -/
def log2Aux : Nat → Nat → Nat
  | 0, _ => 0
  | fuel + 1, n => if n < 2 then 0 else 1 + log2Aux fuel (n / 2)

/-- The position of the highest set bit: `⌊log₂ n⌋` for `n > 0`. -/
def log2Floor (n : Nat) : Nat := log2Aux n n

/-- The binary exponent `⌊log₂ (num / den)⌋` of a positive fraction. -/
def ratLog2 (num den : Nat) : Int :=
  if den ≤ num then (log2Floor (num / den) : Int)
  else -((log2Floor ((den - 1) / num) : Int) + 1)

/-- The fraction `num / den` rounded to the nearest integer, ties to even. -/
def divRoundEven (num den : Nat) : Nat :=
  let q := num / den
  let r := num % den
  if 2 * r < den then q
  else if den < 2 * r then q + 1
  else if q % 2 = 0 then q else q + 1

/-- Rounding of the exact value `(-1)^neg * num / den` to binary64, round-to-nearest-even:
a 53-bit significand at the binary exponent of the value, the subnormal spacing `2^-1074`
below the normal range, and overflow to infinity from `2^1024` on. -/
def F64.round (neg : Bool) (num den : Nat) : F64 :=
  if num = 0 then .fin neg 0 1
  else
    let e : Int := max (ratLog2 num den - 52) (-1074)
    if 0 ≤ e then
      let m := divRoundEven num (den * 2 ^ e.toNat)
      if 971 < e ∨ (e = 971 ∧ 2 ^ 53 ≤ m) then .inf neg else .fin neg (m * 2 ^ e.toNat) 1
    else
      .fin neg (divRoundEven (num * 2 ^ (-e).toNat) den) (2 ^ (-e).toNat)

/-- Conversion `float64(n)` of an unsigned integer. -/
def F64.ofNat (n : Nat) : F64 := F64.round false n 1

/-- Conversion `float64(x)` of a signed integer. -/
def F64.ofInt (x : Int) : F64 := F64.round (decide (x < 0)) x.natAbs 1

/-- Sign change. -/
def F64.neg : F64 → F64
  | .fin s n d => .fin (!s) n d
  | .inf s => .inf (!s)
  | .nan => .nan

/-- The value of a finite float as a signed numerator over its denominator. -/
def F64.signedNum (s : Bool) (n : Nat) : Int := if s then -(n : Int) else (n : Int)

/-- Addition `a + b` of IEEE 754. -/
def F64.add : F64 → F64 → F64
  | .nan, _ => .nan
  | _, .nan => .nan
  | .inf s, .inf t => if s = t then .inf s else .nan
  | .inf s, .fin _ _ _ => .inf s
  | .fin _ _ _, .inf t => .inf t
  | .fin s n d, .fin t m f =>
    let c : Int := F64.signedNum s (n * f) + F64.signedNum t (m * d)
    if c = 0 then .fin (s && t) 0 1 else F64.round (decide (c < 0)) c.natAbs (d * f)

/-- Subtraction `a - b` of IEEE 754. -/
def F64.sub (a b : F64) : F64 := F64.add a (F64.neg b)

/-- Division `a / b` of IEEE 754. -/
def F64.div : F64 → F64 → F64
  | .nan, _ => .nan
  | _, .nan => .nan
  | .inf _, .inf _ => .nan
  | .inf s, .fin t _ _ => .inf (xor s t)
  | .fin s _ _, .inf t => .fin (xor s t) 0 1
  | .fin s n d, .fin t m f =>
    if m = 0 then (if n = 0 then .nan else .inf (xor s t))
    else F64.round (xor s t) (n * f) (d * m)

/-- Conversion `int(x)` / `time.Duration(x)` of a float: truncation toward zero.  For a
value outside the 64-bit range (or a NaN) the Go specification leaves the result to the
implementation; the value `-2^63` that amd64 produces is used. -/
def F64.toInt64 : F64 → Int
  | .fin s n d =>
    let v : Int := F64.signedNum s (n / d)
    if -2 ^ 63 ≤ v ∧ v < 2 ^ 63 then v else -2 ^ 63
  | _ => -2 ^ 63

/-! ## benchmark.go -/

/-- A Go string: its sequence of bytes. -/
abbrev GoString := List Nat

/-- The bytes of an ASCII literal. -/
def str (s : String) : GoString := s.toList.map Char.toNat

/-- The record `BenchmarkResult`. -/
structure BenchmarkResult where
  Name : GoString
  CompressTime : Int
  DecompressTime : Int
  CompressedSize : Int
  Ratio : F64
deriving DecidableEq, Repr

/-- The method `GetTotalTime`. -/
def BenchmarkResult.GetTotalTime (br : BenchmarkResult) : Int :=
  wrap64 (br.CompressTime + br.DecompressTime)

/-- The stage durations `ops` of `GetBatchTime`: compress, network, decompress. -/
def BenchmarkResult.batchOps (br : BenchmarkResult) (speed : Nat) : List Int :=
  [br.CompressTime,
   (F64.div (F64.ofInt br.CompressedSize) (F64.ofNat speed)).toInt64,
   br.DecompressTime]

/-- The first loop of `GetBatchTime`: the index of the first largest entry of `ops`. -/
def slowestIndex (ops : List Int) : Nat :=
  (List.range' 1 (ops.length - 1)).foldl
    (fun slowest i => if ops.getD i 0 > ops.getD slowest 0 then i else slowest) 0

/-- The second loop of `GetBatchTime`: the entry at `slowest` counts `n` times. -/
def batchTotal (ops : List Int) (slowest : Nat) (n : Int) : Int :=
  (ops.enum.foldl
    (fun total p =>
      if p.1 = slowest then wrap64 (total + wrap64 (n * p.2)) else wrap64 (total + p.2)) 0)

/-- The method `GetBatchTime(n, speed)`; `n` is a Go `int`, `speed` a `uint64`. -/
def BenchmarkResult.GetBatchTime (br : BenchmarkResult) (n : Int) (speed : Nat) : Int :=
  if speed = 0 then 0
  else
    let ops := br.batchOps speed
    batchTotal ops (slowestIndex ops) n

/-- A float that is finite, non-negative and whose value is the natural number `v`. -/
def F64.IsNat (x : F64) (v : Nat) : Prop :=
  ∃ n d, x = F64.fin false n d ∧ 0 < d ∧ n = v * d

/-! ## Outcomes of a Go call -/

/-- The outcome of a Go call: a returned value, a returned `error`, or a panic. -/
inductive Res (α : Type) where
  | ok (a : α) : Res α
  | error : Res α
  | panic : Res α
deriving DecidableEq, Repr

/-- Sequencing of outcomes: the first failure ends the computation. -/
def Res.bind {α β : Type} (x : Res α) (f : α → Res β) : Res β :=
  match x with
  | .ok a => f a
  | .error => .error
  | .panic => .panic

instance : Monad Res where
  pure := Res.ok
  bind := Res.bind

/-- Indexing `xs[i]` of a slice: out of range is a panic. -/
def index {α : Type} (xs : List α) (i : Nat) : Res α :=
  match xs[i]? with
  | some x => .ok x
  | none => .panic

/-! ## bench.go: medians and aggregation -/

/-- The inner loop of `insertionSortCmpFunc` (package `slices`): the new element `x` moves
left past every element it compares below.  The already sorted prefix is given last
element first, and so is the result. -/
def sinkInto {α : Type} (cmp : α → α → Int) (x : α) : List α → List α
  | [] => [x]
  | y :: ys => if cmp x y < 0 then y :: sinkInto cmp x ys else x :: y :: ys

/-- The function `insertionSortCmpFunc` of package `slices`: the elements are taken from
left to right and each one is sunk into the prefix before it. -/
def insertionSortCmpFunc {α : Type} (cmp : α → α → Int) (data : List α) : List α :=
  (data.foldl (fun done x => sinkInto cmp x done) []).reverse

/-- The library function `slices.SortFunc`.  On at most 12 elements it runs exactly
`insertionSortCmpFunc`.  On longer slices it runs pattern-defeating quicksort, which is
not reproduced here: whenever `cmp` is the sign of a strict total order on the elements
the ascending arrangement is unique, so both algorithms return the same slice.  For a
comparator that is not such an order the two may differ on more than 12 elements; the
theorems below that depend on the sorted order assume values for which it is one, or use
at most 12 elements. -/
def SortFunc {α : Type} (x : List α) (cmp : α → α → Int) : List α :=
  insertionSortCmpFunc cmp x

/-- The function `findMedianTime`; the comparator is `int(a - b)` on durations. -/
def findMedianTime (times : List Int) : Res Int :=
  let times := SortFunc times (fun a b => wrap64 (a - b))
  let n := times.length
  if n % 2 = 0 then do
    let lo ← if n = 0 then Res.panic else index times (n / 2 - 1)
    let hi ← index times (n / 2)
    pure ((wrap64 (lo + hi)).tdiv 2)
  else index times (n / 2)

/-- The function `findMedianInt`; the comparator is `a - b`. -/
def findMedianInt (ints : List Int) : Res Int :=
  let ints := SortFunc ints (fun a b => wrap64 (a - b))
  let n := ints.length
  if n % 2 = 0 then do
    let lo ← if n = 0 then Res.panic else index ints (n / 2 - 1)
    let hi ← index ints (n / 2)
    pure ((wrap64 (lo + hi)).tdiv 2)
  else index ints (n / 2)

/-- The function `findMedianFloat64`; the comparator is `int(a - b)` on floats. -/
def findMedianFloat64 (floats : List F64) : Res F64 :=
  let floats := SortFunc floats (fun a b => (F64.sub a b).toInt64)
  let n := floats.length
  if n % 2 = 0 then do
    let lo ← if n = 0 then Res.panic else index floats (n / 2 - 1)
    let hi ← index floats (n / 2)
    pure (F64.div (F64.add lo hi) (F64.ofInt 2))
  else index floats (n / 2)

/-- The inner loop of `aggregateResults`: the results of library `libraryID`, one per
trial, in trial order. -/
def collectColumn (libraryID : Nat) : List (List BenchmarkResult) → Res (List BenchmarkResult)
  | [] => .ok []
  | results :: rest => do
    let result ← index results libraryID
    let others ← collectColumn libraryID rest
    pure (result :: others)

/-- The body of the outer loop of `aggregateResults` for one library. -/
def aggregateLibrary (nResults : List (List BenchmarkResult)) (first : List BenchmarkResult)
    (libraryID : Nat) : Res BenchmarkResult := do
  let named ← index first libraryID
  let column ← collectColumn libraryID nResults
  let medCompTime ← findMedianTime (column.map (·.CompressTime))
  let medDecompTime ← findMedianTime (column.map (·.DecompressTime))
  let medSize ← findMedianInt (column.map (·.CompressedSize))
  let medRatio ← findMedianFloat64 (column.map (·.Ratio))
  pure { Name := named.Name, CompressTime := medCompTime, DecompressTime := medDecompTime,
         CompressedSize := medSize, Ratio := medRatio }

/-- The outer loop of `aggregateResults` over the library indices still to do. -/
def aggregateLoop (nResults : List (List BenchmarkResult)) (first : List BenchmarkResult) :
    List Nat → Res (List BenchmarkResult)
  | [] => .ok []
  | libraryID :: rest => do
    let libraryAgg ← aggregateLibrary nResults first libraryID
    let final ← aggregateLoop nResults first rest
    pure (libraryAgg :: final)

/-- The function `aggregateResults`. -/
def aggregateResults (nResults : List (List BenchmarkResult)) : Res (List BenchmarkResult) :=
  match nResults with
  | [] => .ok []
  | first :: _ => aggregateLoop nResults first (List.range first.length)

/-- The middle of an ascending list: the middle element for odd length, the mean of the two
middle elements, rounded toward zero, for even length. -/
def middleOfSorted (s : List Int) : Int :=
  if s.length % 2 = 0 then (s.getD (s.length / 2 - 1) 0 + s.getD (s.length / 2) 0).tdiv 2
  else s.getD (s.length / 2) 0

/-- The median of a list of integers: the middle of the list sorted ascending. -/
def median (l : List Int) : Int := middleOfSorted (l.insertionSort (· ≤ ·))

/-- The values a 64-bit median computation handles without overflow. -/
def Moderate (v : Int) : Prop := -2 ^ 62 ≤ v ∧ v < 2 ^ 62

instance (v : Int) : Decidable (Moderate v) := by unfold Moderate; infer_instance

/-- The results measured for library `i`: the entry at index `i` of every trial that has
one, in trial order. -/
def column (i : Nat) (trials : List (List BenchmarkResult)) : List BenchmarkResult :=
  trials.filterMap (fun t => t[i]?)

/-! ## Example values -/

/-- A result with the given compress time, decompress time, size and ratio. -/
def sample (c d s : Int) (ratio : F64) : BenchmarkResult :=
  { Name := str "gzip", CompressTime := c, DecompressTime := d, CompressedSize := s,
    Ratio := ratio }

/-- The `float64` nearest to the decimal fraction `k / 10`. -/
def tenths (k : Nat) : F64 := F64.round false k 10

/-- Three trials of one library, as in the aggregation example of the specification. -/
def threeTrials : List (List BenchmarkResult) :=
  [[sample 10 20 5 (tenths 9)], [sample 30 0 6 (tenths 1)], [sample 20 10 7 (tenths 5)]]

/-- Two trials of one library whose compressed sizes are `2^62` bytes each. -/
def hugeTrials : List (List BenchmarkResult) :=
  [[sample 10 20 (2 ^ 62) (tenths 9)], [sample 30 0 (2 ^ 62) (tenths 1)]]

/-! ## The random source -/

/-- The process-wide random source of `math/rand`, as the stream of its raw outcomes:
`rng 0` decides the next draw. -/
abbrev Rand := Nat → Nat

/-- The library function `rand.Intn(n)`: a panic for `n ≤ 0`, otherwise a number in
`[0, n)`, namely the next raw outcome reduced modulo `n`; every number of `[0, n)` is the
result for some outcome. -/
def Intn (n : Int) (rng : Rand) : Res (Int × Rand) :=
  if n ≤ 0 then .panic else .ok (((rng 0 % n.toNat : Nat) : Int), fun i => rng (i + 1))

/-! ## json-gen.go -/

/-- The function `GetRandRange(min, max)`. -/
def GetRandRange (min max : Int) (rng : Rand) : Res (Int × Rand) :=
  if min = max then .ok (min, rng)
  else (Intn (wrap64 (max - min)) rng).bind fun p => .ok (wrap64 (p.1 + min), p.2)

/-- The function `GetRandLowercase`; `byte(...)` keeps the low eight bits. -/
def GetRandLowercase (rng : Rand) : Res (Nat × Rand) :=
  (GetRandRange 97 122 rng).bind fun p => .ok ((p.1 % 256).toNat, p.2)

/-- The loop of `RandNChars` over the `n` positions of the new byte slice. -/
def randCharsLoop : Nat → Rand → Res (GoString × Rand)
  | 0, rng => .ok ([], rng)
  | k + 1, rng =>
    (GetRandLowercase rng).bind fun p =>
      (randCharsLoop k p.2).bind fun q => .ok (p.1 :: q.1, q.2)

/-- The function `RandNChars(n)`; `make([]byte, n)` panics for negative `n`. -/
def RandNChars (n : Int) (rng : Rand) : Res (GoString × Rand) :=
  if n < 0 then .panic else randCharsLoop n.toNat rng

/-- The record `JsonGenConfig`. -/
structure JsonGenConfig where
  FieldsPerNodeMin : Int
  FieldsPerNodeMax : Int
  DegreeMin : Int
  DegreeMax : Int
  DepthMax : Int
  DictFile : GoString
  DictSize : Int
  StrLenMin : Int
  StrLenMax : Int
  NetworkSpeed : Nat
deriving DecidableEq, Repr

/-- The record `JsonElement`; the map `Fields` is kept as its list of entries, one per
key (a `nil` map is the empty list). -/
inductive JsonElement where
  | mk (Children : List JsonElement) (Fields : List (GoString × GoString)) : JsonElement

/-- The field `Children`. -/
def JsonElement.Children : JsonElement → List JsonElement
  | .mk cs _ => cs

/-- The field `Fields`. -/
def JsonElement.Fields : JsonElement → List (GoString × GoString)
  | .mk _ fs => fs

/-- The map assignment `m[k] = v`: the value of an existing key is overwritten, a new key
adds an entry. -/
def mapSet (m : List (GoString × GoString)) (k v : GoString) : List (GoString × GoString) :=
  match m with
  | [] => [(k, v)]
  | e :: rest => if e.1 = k then (k, v) :: rest else e :: mapSet rest k v

/-- A closure `func() string` that draws from the random source. -/
abbrev StrGetter := Rand → Res (GoString × Rand)

/-- The closure `numFieldsGetter()`. -/
def numFieldsGetter (conf : JsonGenConfig) (rng : Rand) : Res (Int × Rand) :=
  GetRandRange conf.FieldsPerNodeMin conf.FieldsPerNodeMax rng

/-- The closure `numChildrenGetter()`. -/
def numChildrenGetter (conf : JsonGenConfig) (depth : Int) (rng : Rand) : Res (Int × Rand) :=
  if depth ≥ conf.DepthMax then .ok (0, rng)
  else GetRandRange conf.DegreeMin conf.DegreeMax rng

/-- The closure returned by both dictionary branches of `strGetter`: a uniformly drawn
entry of `dict`. -/
def dictGetter (dict : List GoString) : StrGetter := fun rng =>
  (GetRandRange 0 (dict.length : Int) rng).bind fun p =>
    if p.1 < 0 then .panic else (index dict p.1.toNat).bind fun s => .ok (s, p.2)

/-- The closure returned by the last branch of `strGetter`: a fresh random string. -/
def randomGetter (conf : JsonGenConfig) : StrGetter := fun rng =>
  (GetRandRange conf.StrLenMin conf.StrLenMax rng).bind fun p => RandNChars p.1 p.2

/-- The loop of `strGetter` that fills the generated dictionary, `k` entries to go. -/
def genDictLoop (conf : JsonGenConfig) : Nat → Rand → Res (List GoString × Rand)
  | 0, rng => .ok ([], rng)
  | k + 1, rng =>
    (GetRandRange conf.StrLenMin conf.StrLenMax rng).bind fun p =>
      (RandNChars p.1 p.2).bind fun q =>
        (genDictLoop conf k q.2).bind fun r => .ok (q.1 :: r.1, r.2)

/-- The method `strGetter`.  The file system is the parameter `readLines`: the lines that
`bufio.Scanner` yields for the file of the given name, or `none` when the file cannot be
opened or scanned. -/
def strGetter (conf : JsonGenConfig) (readLines : GoString → Option (List GoString))
    (rng : Rand) : Res (StrGetter × Rand) :=
  if conf.DictFile ≠ [] then
    match readLines conf.DictFile with
    | none => .error
    | some dict => .ok (dictGetter dict, rng)
  else if conf.DictSize > 0 then
    (genDictLoop conf conf.DictSize.toNat rng).bind fun p => .ok (dictGetter p.1, p.2)
  else .ok (randomGetter conf, rng)

/-- The loop `for range nf` of `jsonGenerateRec`: each round draws a key, then a value, and
assigns `out.Fields[key] = value`. -/
def fieldsLoop (getStr : StrGetter) :
    Nat → List (GoString × GoString) → Rand → Res (List (GoString × GoString) × Rand)
  | 0, m, rng => .ok (m, rng)
  | k + 1, m, rng =>
    (getStr rng).bind fun key =>
      (getStr key.2).bind fun val => fieldsLoop getStr k (mapSet m key.1 val.1) val.2

/-- The loop `for range nc` of `jsonGenerateRec`: each round appends one child built by
`child`, the recursive call at `depth + 1`. -/
def childrenLoop (child : Rand → Res (JsonElement × Rand)) :
    Nat → Rand → Res (List JsonElement × Rand)
  | 0, rng => .ok ([], rng)
  | k + 1, rng =>
    (child rng).bind fun c =>
      (childrenLoop child k c.2).bind fun cs => .ok (c.1 :: cs.1, cs.2)

/-- The method `jsonGenerateRec(strGetter, depth)`.  The recursion descends one level per
call and stops at `DepthMax`; `fuel` bounds the number of nested calls.  The method has no
error result, so the outcome `error` is free to mark exhausted fuel: it never occurs when
the fuel exceeds `DepthMax - depth` (theorem `jsonGenerateRec_fuel`). -/
def jsonGenerateRec (conf : JsonGenConfig) (getStr : StrGetter) :
    Nat → Int → Rand → Res (JsonElement × Rand)
  | 0, _, _ => .error
  | fuel + 1, depth, rng =>
    (numFieldsGetter conf rng).bind fun nf =>
      (if nf.1 ≥ 1 then fieldsLoop getStr nf.1.toNat [] nf.2 else .ok ([], nf.2)).bind fun fs =>
        (numChildrenGetter conf depth fs.2).bind fun nc =>
          (if nc.1 ≥ 1 then
              childrenLoop (jsonGenerateRec conf getStr fuel (wrap64 (depth + 1))) nc.1.toNat nc.2
            else .ok ([], nc.2)).bind fun cs =>
            .ok (JsonElement.mk cs.1 fs.1, cs.2)

/-- The method `JsonGenerate`. -/
def JsonGenerate (conf : JsonGenConfig) (readLines : GoString → Option (List GoString))
    (rng : Rand) : Res (JsonElement × Rand) :=
  (strGetter conf readLines rng).bind fun g =>
    jsonGenerateRec conf g.1 (conf.DepthMax.toNat + 1) 0 g.2

mutual
/-- The nodes of a tree with their depths, the root being at depth `depth`; the
traversal of `checkConstraints` in `json-gen_test.go`. -/
def JsonElement.nodesFrom (depth : Nat) : JsonElement → List (Nat × JsonElement)
  | .mk cs fs => (depth, .mk cs fs) :: nodesOfList (depth + 1) cs
/-- The nodes of a list of sibling trees whose roots are at depth `depth`. -/
def nodesOfList (depth : Nat) : List JsonElement → List (Nat × JsonElement)
  | [] => []
  | c :: cs => c.nodesFrom depth ++ nodesOfList depth cs
end

/-- The nodes of a tree with their depths, the root being at depth 0. -/
def JsonElement.nodes (t : JsonElement) : List (Nat × JsonElement) := t.nodesFrom 0

/-- The configuration of `TestJsonGenerate`, the defaults of the command line. -/
def defaultConfig : JsonGenConfig :=
  { FieldsPerNodeMin := 3, FieldsPerNodeMax := 3, DegreeMin := 4, DegreeMax := 4,
    DepthMax := 5, DictFile := [], DictSize := 0, StrLenMin := 16, StrLenMax := 16,
    NetworkSpeed := 0 }

/-- The configuration built from `--json-num-fields 3 --json-max-depth 0 --json-str-len 1
--json-dict-size 1`: three fields per node drawn from a dictionary of one word. -/
def oneWordConfig : JsonGenConfig :=
  { FieldsPerNodeMin := 3, FieldsPerNodeMax := 3, DegreeMin := 4, DegreeMax := 4,
    DepthMax := 0, DictFile := [], DictSize := 1, StrLenMin := 1, StrLenMax := 1,
    NetworkSpeed := 0 }

/-- A file system without readable files. -/
def noFiles : GoString → Option (List GoString) := fun _ => none

/-- The random source whose raw outcomes are all zero. -/
def zeroRand : Rand := fun _ => 0

/-- The configuration built from `--json-num-fields-range 4-6 --json-degree-range 1-8
--json-str-len-range 4-12 --json-max-depth 2`, as `TestBenchCmd` expects the ranges. -/
def rangeConfig : JsonGenConfig :=
  { FieldsPerNodeMin := 4, FieldsPerNodeMax := 7, DegreeMin := 1, DegreeMax := 9,
    DepthMax := 2, DictFile := [], DictSize := 0, StrLenMin := 4, StrLenMax := 13,
    NetworkSpeed := 0 }

/-- A random source whose raw outcomes are `3, 10, 17, ...`. -/
def stepRand : Rand := fun i => 7 * i + 3

/-! ## bench-flags.go: parsing of ranges and speeds -/

/-- A decimal digit: one of the bytes `'0'` to `'9'`. -/
def isDigit (c : Nat) : Bool := decide (48 ≤ c) && decide (c ≤ 57)

/-- The accumulation `n = n*10 + digit` of package `strconv` over a string of digits. -/
def digitsValue (s : GoString) : Nat := s.foldl (fun n c => n * 10 + (c - 48)) 0

/-- The library function `strconv.ParseUint(s, 10, 64)`: a non-empty string of decimal
digits whose value fits 64 unsigned bits, anything else is an error. -/
def ParseUint (s : GoString) : Res Nat :=
  if s = [] then .error
  else if s.all isDigit then
    (if digitsValue s < 2 ^ 64 then .ok (digitsValue s) else .error)
  else .error

/-- The library function `strconv.Atoi` for a 64-bit `int`: an optional sign, then a
non-empty string of decimal digits whose signed value fits 64 bits, anything else is an
error. -/
def Atoi (s : GoString) : Res Int :=
  let signed := decide (s.head? = some 45) || decide (s.head? = some 43)
  let body := if signed then s.tail else s
  if body = [] then .error
  else if body.all isDigit then
    (if s.head? = some 45 then
      (if digitsValue body ≤ 2 ^ 63 then .ok (-(digitsValue body : Int)) else .error)
    else
      (if digitsValue body < 2 ^ 63 then .ok (digitsValue body : Int) else .error))
  else .error

/-- The library function `strings.Split(s, sep)` for a separator of one byte: the pieces
of `s` between the occurrences of `sep`. -/
def splitByte (sep : Nat) : GoString → List GoString
  | [] => [[]]
  | c :: cs =>
    if c = sep then [] :: splitByte sep cs
    else
      match splitByte sep cs with
      | [] => [[c]]
      | piece :: pieces => (c :: piece) :: pieces

/-- The function `parseRange`. -/
def parseRange (r : GoString) : Res (Int × Int) :=
  let split := splitByte 45 r
  if split.length ≠ 2 then .error
  else
    (Atoi (split.getD 0 [])).bind fun min =>
      (Atoi (split.getD 1 [])).bind fun max =>
        if min > wrap64 (max + 1) then .error else .ok (min, wrap64 (max + 1))

/-- The ASCII branch of `strings.ToUpper`: `'a'..'z'` move to `'A'..'Z'`. -/
def asciiUpper (c : Nat) : Nat := if 97 ≤ c ∧ c ≤ 122 then c - 32 else c

/-- The library function `strings.ToUpper`: a string of ASCII bytes is mapped byte by
byte; any other string goes through the Unicode case tables, which are the parameter
`unicodeUpper`. -/
def ToUpper (unicodeUpper : GoString → GoString) (s : GoString) : GoString :=
  if s.all (fun c => decide (c < 128)) then s.map asciiUpper else unicodeUpper s

/-- The unit suffix of `parseSpeed`: the multiplier and `numEndIndex`, or an error. -/
def speedUnit (upper : GoString) (last : Nat) : Res (Nat × Nat) :=
  if last = 66 then
    if upper.length ≤ 2 then .error
    else
      let char := upper.getD (upper.length - 2) 0
      if char = 75 then .ok (1000, upper.length - 1)
      else if char = 77 then .ok (1000000, upper.length - 1)
      else if char = 71 then .ok (1000000000, upper.length - 1)
      else if 48 ≤ char ∧ char ≤ 57 then .ok (1, upper.length)
      else .error
  else .ok (1, upper.length)

/-- The function `parseSpeed`; the result is a `uint64`.  A panic inside the function is
recovered by its deferred handler and returned as an error. -/
def parseSpeed (unicodeUpper : GoString → GoString) (speedStr : GoString) : Res Nat :=
  if speedStr = [] then .ok 0
  else
    let upper := ToUpper unicodeUpper speedStr
    match upper.getLast? with
    | none => .error
    | some last =>
      (speedUnit upper last).bind fun unit =>
        (ParseUint (upper.take (unit.2 - 1))).bind fun val =>
          .ok ((val * unit.1) % 2 ^ 64)

/-- A decimal numeral: a non-empty string of decimal digits. -/
def IsDecimal (d : GoString) : Prop := d ≠ [] ∧ ∀ c ∈ d, 48 ≤ c ∧ c ≤ 57

instance (d : GoString) : Decidable (IsDecimal d) := by unfold IsDecimal; infer_instance

/-- The number a decimal numeral denotes: its digits weighted by the powers of ten. -/
def decimalValue (d : GoString) : Nat := Nat.ofDigits 10 (d.reverse.map (fun c => c - 48))

/-! ## bench.go: the benchmark run -/

/-- The record `PrintOptions`. -/
structure PrintOptions where
  ShouldPrintInput : Bool
  ShouldPrintCTime : Bool
  ShouldPrintDTime : Bool
  NetworkSpeed : Nat
  NetworkPayloads : Int
deriving DecidableEq, Repr

/-- The values of the command-line flags that `runBenchmark` reads itself; the flags of
the input generation are read inside `getBenchmarkInput`. -/
structure BenchFlags where
  count : Int
  networkBandwidth : GoString
  networkPayloads : Int
  showInput : Bool
  showCompressTime : Bool
  showDecompressTime : Bool
deriving DecidableEq, Repr

/-- The function `getCountFlag`: the returned count and whether the returned error is
non-nil.  A count that is not positive is returned as `0` together with an error. -/
def getCountFlag (flags : BenchFlags) : Int × Bool :=
  if flags.count ≤ 0 then (0, true) else (flags.count, false)

/-- The function `getSpeedFlag`. -/
def getSpeedFlag (unicodeUpper : GoString → GoString) (flags : BenchFlags) : Res Nat :=
  parseSpeed unicodeUpper flags.networkBandwidth

/-- The function `getPrintOptions`. -/
def getPrintOptions (unicodeUpper : GoString → GoString) (flags : BenchFlags) :
    Res PrintOptions :=
  (getSpeedFlag unicodeUpper flags).bind fun speed =>
    .ok { NetworkSpeed := speed,
          ShouldPrintInput := flags.showInput,
          NetworkPayloads := if flags.networkPayloads ≠ 0 then flags.networkPayloads else 1,
          ShouldPrintCTime := flags.showCompressTime,
          ShouldPrintDTime := flags.showDecompressTime }

/-- What `runBenchmark` does to the outside: it acquires the input of a trial, runs one
benchmarker of a trial on it, or prints the result table. -/
inductive Event where
  | input (trial : Nat) : Event
  | benchmark (trial library : Nat) : Event
  | print (input : GoString) (opts : PrintOptions) (results : List BenchmarkResult) : Event
deriving DecidableEq, Repr

/-- The collaborators of `runBenchmark`: what the call of `getBenchmarkInput` in trial
`t` returns, and what `RunBenchmark` of the benchmarker number `j` of `getBenchmarkers()`
returns in trial `t` on a given input. -/
structure World where
  getBenchmarkInput : Nat → Res GoString
  RunBenchmark : Nat → Nat → GoString → Res BenchmarkResult

/-- The inner loop of `runBenchmark` over the benchmarkers still to run in trial `t`;
the events are appended to `log`. -/
def runBenchmarkers (w : World) (t : Nat) (input : GoString) :
    List Nat → List Event → List Event × Res (List BenchmarkResult)
  | [], log => (log, .ok [])
  | j :: rest, log =>
    match w.RunBenchmark t j input with
    | .ok result =>
      let done := runBenchmarkers w t input rest (log ++ [Event.benchmark t j])
      (done.1, done.2.bind fun results => .ok (result :: results))
    | .error => (log ++ [Event.benchmark t j], .error)
    | .panic => (log ++ [Event.benchmark t j], .panic)

/-- The loop `for _ = range count` of `runBenchmark`, `todo` rounds to go from trial `t`
on: the result is the log, and the trials collected with the input of the last trial. -/
def trialLoop (w : World) :
    Nat → Nat → List (List BenchmarkResult) → GoString → List Event →
      List Event × Res (List (List BenchmarkResult) × GoString)
  | 0, _, nResults, input, log => (log, .ok (nResults, input))
  | todo + 1, t, nResults, _, log =>
    match w.getBenchmarkInput t with
    | .ok input =>
      if input.length = 0 then (log ++ [Event.input t], .error)
      else
        match runBenchmarkers w t input (List.range 5) (log ++ [Event.input t]) with
        | (log, .ok results) => trialLoop w todo (t + 1) (nResults ++ [results]) input log
        | (log, .error) => (log, .error)
        | (log, .panic) => (log, .panic)
    | .error => (log ++ [Event.input t], .error)
    | .panic => (log ++ [Event.input t], .panic)

/-- The function `runBenchmark`: the events it causes and what it returns (`ok` is the
`nil` error).  The error of `getCountFlag` is assigned to the blank identifier. -/
def runBenchmark (unicodeUpper : GoString → GoString) (w : World) (flags : BenchFlags) :
    List Event × Res Unit :=
  let count := (getCountFlag flags).1
  match getPrintOptions unicodeUpper flags with
  | .ok printOptions =>
    match trialLoop w count.toNat 0 [] [] [] with
    | (log, .ok (nResults, input)) =>
      match aggregateResults nResults with
      | .ok aggResults => (log ++ [Event.print input printOptions aggResults], .ok ())
      | .error => (log, .error)
      | .panic => (log, .panic)
    | (log, .error) => (log, .error)
    | (log, .panic) => (log, .panic)
  | .error => ([], .error)
  | .panic => ([], .panic)

/-- The flags of `--rand-gen --count 0`: everything else at its default. -/
def zeroCountFlags : BenchFlags :=
  { count := 0, networkBandwidth := [], networkPayloads := 0, showInput := false,
    showCompressTime := false, showDecompressTime := false }

/-- The print options that the default flags give. -/
def defaultPrintOptions : PrintOptions :=
  { ShouldPrintInput := false, ShouldPrintCTime := false, ShouldPrintDTime := false,
    NetworkSpeed := 0, NetworkPayloads := 1 }

/-- The smallest element of a list of integers (0 for the empty list). -/
def listMin (l : List Int) : Int := l.foldl min (l.headD 0)

/-- The largest element of a list of integers (0 for the empty list). -/
def listMax (l : List Int) : Int := l.foldl max (l.headD 0)

/-- A result of the library called `name`. -/
def named (name : String) (c d s : Int) : BenchmarkResult :=
  { Name := str name, CompressTime := c, DecompressTime := d, CompressedSize := s,
    Ratio := tenths 5 }

/-- Two trials of two libraries; the second trial lists the libraries in the other order
and has a third result. -/
def mixedTrials : List (List BenchmarkResult) :=
  [[named "gzip" 10 20 5, named "zstd" 1 2 3],
   [named "zstd" 3 4 5, named "gzip" 30 40 7, named "zlib" 9 9 9]]

/-- The flags of `--rand-gen --count -3`. -/
def negativeCountFlags : BenchFlags :=
  { count := -3, networkBandwidth := [], networkPayloads := 0, showInput := false,
    showCompressTime := false, showDecompressTime := false }

/-! ## Example values of the generator -/

/-- The strings of a tree: the key and the value of every field of every node. -/
def JsonElement.strings (t : JsonElement) : List GoString :=
  t.nodes.flatMap fun p => p.2.Fields.flatMap fun e => [e.1, e.2]

/-- The configuration of the test case `json random dictionary` of `TestBenchCmd`:
`--json-dict-size 10`. -/
def tenWordConfig : JsonGenConfig :=
  { FieldsPerNodeMin := 3, FieldsPerNodeMax := 3, DegreeMin := 4, DegreeMax := 4,
    DepthMax := 5, DictFile := [], DictSize := 10, StrLenMin := 16, StrLenMax := 16,
    NetworkSpeed := 0 }

/-- The configuration built from `--json-dict-file words.txt --json-num-fields 1
--json-max-depth 0`: a root with one field drawn from the file dictionary. -/
def fileConfig : JsonGenConfig :=
  { FieldsPerNodeMin := 1, FieldsPerNodeMax := 1, DegreeMin := 4, DegreeMax := 4,
    DepthMax := 0, DictFile := str "words.txt", DictSize := 0, StrLenMin := 16,
    StrLenMax := 16, NetworkSpeed := 0 }

/-- A file system with one file, `words.txt`, of three lines: `ab`, an empty line and
`cd`.  The scanner yields one token per line, the empty line included. -/
def wordsFiles : GoString → Option (List GoString) := fun name =>
  if name = str "words.txt" then some [str "ab", [], str "cd"] else none

/-- The random source whose raw outcomes are all one. -/
def oneRand : Rand := fun _ => 1

/-- A configuration with a negative `DepthMax`. -/
def negativeDepthConfig : JsonGenConfig :=
  { FieldsPerNodeMin := 3, FieldsPerNodeMax := 3, DegreeMin := 4, DegreeMax := 4,
    DepthMax := -2, DictFile := [], DictSize := 0, StrLenMin := 16, StrLenMax := 16,
    NetworkSpeed := 0 }


/-- The local `networkTime` of `GetBatchTime`, the entry `ops[1]`. -/
def BenchmarkResult.networkTime (br : BenchmarkResult) (speed : Nat) : Int :=
  (F64.div (F64.ofInt br.CompressedSize) (F64.ofNat speed)).toInt64

/-! ## bench.go: the aggregation with its memory made explicit -/

/-- A memory cell: the backing array of a slice of durations or ints, of a slice of
floats, of a slice of pointers or of slices, or the record behind a `*BenchmarkResult`. -/
inductive Cell where
  | ints (a : List Int) : Cell
  | floats (a : List F64) : Cell
  | ptrs (a : List Nat) : Cell
  | result (r : BenchmarkResult) : Cell
deriving DecidableEq

/-- The memory: one cell per address.  A slice made by `make` or passed in whole is the
address of its backing array. -/
abbrev Heap := List Cell

/-- A fresh cell, as `make` or `&BenchmarkResult{...}` creates one: its address and the
memory after the allocation. -/
def Heap.alloc (h : Heap) (c : Cell) : Nat × Heap := (h.length, h ++ [c])

/-- The elements of the slice of durations or ints at address `a`. -/
def Heap.ints (h : Heap) (a : Nat) : Res (List Int) :=
  match h[a]? with
  | some (.ints xs) => .ok xs
  | _ => .panic

/-- The elements of the slice of floats at address `a`. -/
def Heap.floats (h : Heap) (a : Nat) : Res (List F64) :=
  match h[a]? with
  | some (.floats xs) => .ok xs
  | _ => .panic

/-- The elements of the slice of pointers, or of slices, at address `a`. -/
def Heap.ptrs (h : Heap) (a : Nat) : Res (List Nat) :=
  match h[a]? with
  | some (.ptrs xs) => .ok xs
  | _ => .panic

/-- The record the pointer `p` leads to. -/
def Heap.result (h : Heap) (p : Nat) : Res BenchmarkResult :=
  match h[p]? with
  | some (.result r) => .ok r
  | _ => .panic

/-- The assignment `xs[i] = v` to the slice of durations or ints at address `a`. -/
def Heap.setInt (h : Heap) (a i : Nat) (v : Int) : Res Heap :=
  (h.ints a).bind fun xs =>
    if i < xs.length then .ok (h.set a (.ints (xs.set i v))) else .panic

/-- The assignment `xs[i] = v` to the slice of floats at address `a`. -/
def Heap.setFloat (h : Heap) (a i : Nat) (v : F64) : Res Heap :=
  (h.floats a).bind fun xs =>
    if i < xs.length then .ok (h.set a (.floats (xs.set i v))) else .panic

/-- The function `findMedianTime` on the slice at address `times`: `slices.SortFunc` sorts
the backing array in place, the median is read from the sorted slice. -/
def findMedianTimeMem (h : Heap) (times : Nat) : Res (Int × Heap) :=
  (h.ints times).bind fun xs =>
    (findMedianTime xs).bind fun m =>
      .ok (m, h.set times (.ints (SortFunc xs (fun a b => wrap64 (a - b)))))

/-- The function `findMedianInt` on the slice at address `ints`, sorted in place. -/
def findMedianIntMem (h : Heap) (ints : Nat) : Res (Int × Heap) :=
  (h.ints ints).bind fun xs =>
    (findMedianInt xs).bind fun m =>
      .ok (m, h.set ints (.ints (SortFunc xs (fun a b => wrap64 (a - b)))))

/-- The function `findMedianFloat64` on the slice at address `floats`, sorted in place. -/
def findMedianFloat64Mem (h : Heap) (floats : Nat) : Res (F64 × Heap) :=
  (h.floats floats).bind fun xs =>
    (findMedianFloat64 xs).bind fun m =>
      .ok (m, h.set floats (.floats (SortFunc xs (fun a b => (F64.sub a b).toInt64))))

/-- The inner loop `for resultIndex, results := range nResults` of `aggregateResults`, with
`k` rounds to go: `results[libraryID]` is read through the memory and its four metrics are
stored at `resultIndex` in the four slices made for the library. -/
def fillLoop (nResults libraryID compTimes decompTimes sizes ratios : Nat) :
    Nat → Nat → Heap → Res Heap
  | 0, _, h => .ok h
  | k + 1, resultIndex, h =>
    (h.ptrs nResults).bind fun outer =>
      (index outer resultIndex).bind fun results =>
        (h.ptrs results).bind fun rs =>
          (index rs libraryID).bind fun p =>
            (h.result p).bind fun result =>
              (h.setInt compTimes resultIndex result.CompressTime).bind fun h1 =>
                (h1.setInt decompTimes resultIndex result.DecompressTime).bind fun h2 =>
                  (h2.setInt sizes resultIndex result.CompressedSize).bind fun h3 =>
                    (h3.setFloat ratios resultIndex result.Ratio).bind fun h4 =>
                      fillLoop nResults libraryID compTimes decompTimes sizes ratios k
                        (resultIndex + 1) h4

/-- The body of the outer loop of `aggregateResults` for one library, `n` being
`len(nResults)`: the name is read from `nResults[0][libraryID]`, four slices of length `n`
are made and filled, the four medians are taken, and a new record is allocated; the
result is its address. -/
def aggregateLibraryMem (nResults n libraryID : Nat) (h : Heap) : Res (Nat × Heap) :=
  (h.ptrs nResults).bind fun outer =>
    (index outer 0).bind fun first =>
      (h.ptrs first).bind fun fs =>
        (index fs libraryID).bind fun p =>
          (h.result p).bind fun named =>
            let compTimes := h.alloc (.ints (List.replicate n 0))
            let decompTimes := compTimes.2.alloc (.ints (List.replicate n 0))
            let sizes := decompTimes.2.alloc (.ints (List.replicate n 0))
            let ratios := sizes.2.alloc (.floats (List.replicate n (F64.fin false 0 1)))
            (fillLoop nResults libraryID compTimes.1 decompTimes.1 sizes.1 ratios.1 n 0
                ratios.2).bind fun h1 =>
              (findMedianTimeMem h1 compTimes.1).bind fun medCompTime =>
                (findMedianTimeMem medCompTime.2 decompTimes.1).bind fun medDecompTime =>
                  (findMedianIntMem medDecompTime.2 sizes.1).bind fun medSize =>
                    (findMedianFloat64Mem medSize.2 ratios.1).bind fun medRatio =>
                      .ok (medRatio.2.alloc (.result
                        { Name := named.Name, CompressTime := medCompTime.1,
                          DecompressTime := medDecompTime.1, CompressedSize := medSize.1,
                          Ratio := medRatio.1 }))

/-- The outer loop `for libraryID := range m` of `aggregateResults` over the library
indices still to do; `final` holds the pointers appended so far. -/
def aggregateLoopMem (nResults n : Nat) : List Nat → List Nat → Heap → Res (List Nat × Heap)
  | [], final, h => .ok (final, h)
  | libraryID :: rest, final, h =>
    (aggregateLibraryMem nResults n libraryID h).bind fun agg =>
      aggregateLoopMem nResults n rest (final ++ [agg.1]) agg.2

/-- The function `aggregateResults` on the slice of trials at address `nResults`: the
pointers to the aggregated records and the memory after the call. -/
def aggregateResultsMem (h : Heap) (nResults : Nat) : Res (List Nat × Heap) :=
  (h.ptrs nResults).bind fun outer =>
    if outer.length = 0 then .ok ([], h)
    else
      (index outer 0).bind fun first =>
        (h.ptrs first).bind fun fs =>
          aggregateLoopMem nResults outer.length (List.range fs.length) [] h

/-- The records behind a list of pointers. -/
def Heap.results (h : Heap) : List Nat → Res (List BenchmarkResult)
  | [] => .ok []
  | p :: ps => (h.result p).bind fun r => (h.results ps).bind fun rs => .ok (r :: rs)

/-- The trials behind a list of slices of pointers. -/
def Heap.trialList (h : Heap) : List Nat → Res (List (List BenchmarkResult))
  | [] => .ok []
  | a :: as =>
    (h.ptrs a).bind fun ps =>
      (h.results ps).bind fun t => (h.trialList as).bind fun ts => .ok (t :: ts)

/-- The value of the `[][]*BenchmarkResult` at address `nResults`: every trial with the
records its pointers lead to. -/
def Heap.trials (h : Heap) (nResults : Nat) : Res (List (List BenchmarkResult)) :=
  (h.ptrs nResults).bind fun outer => h.trialList outer

/-- The memory holds everything the memory `h0` held, unchanged at its address. -/
def Heap.Keeps (h0 h : Heap) : Prop :=
  h0.length ≤ h.length ∧ ∀ a, a < h0.length → h[a]? = h0[a]?

/-- A memory with the three trials of `threeTrials`: the records at addresses 0 to 2, the
three trials at 3 to 5 and the slice of the trials at 6. -/
def threeTrialsHeap : Heap :=
  [.result (sample 10 20 5 (tenths 9)), .result (sample 30 0 6 (tenths 1)),
   .result (sample 20 10 7 (tenths 5)), .ptrs [0], .ptrs [1], .ptrs [2], .ptrs [3, 4, 5]]

/-! ## bench.go: `formatBytes` -/

/-- The comparison `a >= b` of IEEE 754: false when an operand is a NaN. -/
def F64.ge : F64 → F64 → Bool
  | .nan, _ => false
  | _, .nan => false
  | .inf s, .inf t => !s || t
  | .inf s, .fin _ _ _ => !s
  | .fin _ _ _, .inf t => t
  | .fin s n d, .fin t m f => decide (F64.signedNum t (m * d) ≤ F64.signedNum s (n * f))

/-- The table `unitLadder` of `formatBytes`. -/
def unitLadder : List GoString := [str "B", str "KB", str "MB", str "GB"]

/-- The loop `for f >= 1000 { f /= 1000; unit++ }` of `formatBytes`: the values of `f` and
`unit` when the loop is left.  `fuel` bounds the number of tests of the loop condition;
`none` is exhausted fuel. -/
def formatBytesLoop : Nat → F64 → Int → Option (F64 × Int)
  | 0, _, _ => none
  | fuel + 1, f, unit =>
    if F64.ge f (F64.ofNat 1000) then
      formatBytesLoop fuel (F64.div f (F64.ofNat 1000)) (wrap64 (unit + 1))
    else some (f, unit)

/-- The function `formatBytes`.  The rendering `%.4f` of `fmt.Sprintf` is the parameter
`formatFloat`.  The loop divides a 64-bit size at most six times, so seven tests of its
condition are allowed for; the function has no error result, and the outcome `error` marks
exhausted fuel, which never occurs (theorem `formatBytesLoop_fuel`). -/
def formatBytes (formatFloat : F64 → GoString) (size : Int) : Res GoString :=
  match formatBytesLoop 7 (F64.ofInt size) 0 with
  | none => .error
  | some (f, unit) =>
    if unit < 0 then .panic
    else (index unitLadder unit.toNat).bind fun u => .ok (formatFloat f ++ str " " ++ u)

/-- A float that is finite and not negative, with a value between `lo` and `p / q`. -/
def F64.Within (x : F64) (lo p q : Nat) : Prop :=
  ∃ n d, x = F64.fin false n d ∧ 0 < d ∧ lo * d ≤ n ∧ n * q ≤ p * d

/-! ## Theorems: binary64 rounding -/

theorem log2Aux_eq (fuel : Nat) : ∀ n, n ≤ fuel → log2Aux fuel n = Nat.log 2 n := by
  induction fuel with
  | zero =>
    intro n hn
    have : n = 0 := by omega
    subst this
    simp [log2Aux]
  | succ k ih =>
    intro n hn
    unfold log2Aux
    by_cases h : n < 2
    · simp [h, Nat.log_of_lt h]
    · simp only [h, if_false]
      have h2 : 2 ≤ n := by omega
      rw [ih (n / 2) (by omega)]
      rw [Nat.log_of_one_lt_of_le (by norm_num) h2]
      omega

theorem log2Floor_eq (n : Nat) : log2Floor n = Nat.log 2 n :=
  log2Aux_eq n n (le_refl n)

theorem divRoundEven_scale (k n d : Nat) (hk : 0 < k) :
    divRoundEven (k * n) (k * d) = divRoundEven n d := by
  unfold divRoundEven
  simp only [Nat.mul_div_mul_left n d hk, Nat.mul_mod_mul_left]
  have e1 : (2 * (k * (n % d)) < k * d) ↔ (2 * (n % d) < d) := by
    rw [show 2 * (k * (n % d)) = k * (2 * (n % d)) by ring]
    exact Nat.mul_lt_mul_left hk
  have e2 : (k * d < 2 * (k * (n % d))) ↔ (d < 2 * (n % d)) := by
    rw [show 2 * (k * (n % d)) = k * (2 * (n % d)) by ring]
    exact Nat.mul_lt_mul_left hk
  simp only [e1, e2]


theorem pred_div_scale (k n d : Nat) (hk : 0 < k) (hn : 0 < n) (hd : 0 < d) :
    (k * d - 1) / (k * n) = (d - 1) / n := by
  have hkn : 0 < k * n := Nat.mul_pos hk hn
  have hdm := Nat.div_add_mod (d - 1) n
  have hr := Nat.mod_lt (d - 1) hn
  set q := (d - 1) / n with hq
  set r := (d - 1) % n with hr'
  have hd' : d = n * q + r + 1 := by omega
  apply Nat.div_eq_of_lt_le
  · -- q * (k * n) ≤ k * d - 1
    have : k * d = q * (k * n) + k * (r + 1) := by rw [hd']; ring
    have hk1 : 1 ≤ k * (r + 1) := Nat.mul_pos hk (by omega)
    omega
  · have : k * d = q * (k * n) + k * (r + 1) := by rw [hd']; ring
    have h3 : k * (r + 1) ≤ k * n := Nat.mul_le_mul_left k (by omega)
    have h4 : (q + 1) * (k * n) = q * (k * n) + k * n := by ring
    have hk1 : 1 ≤ k * (r + 1) := Nat.mul_pos hk (by omega)
    omega

theorem ratLog2_scale (k n d : Nat) (hk : 0 < k) (hn : 0 < n) (hd : 0 < d) :
    ratLog2 (k * n) (k * d) = ratLog2 n d := by
  unfold ratLog2
  have e1 : (k * d ≤ k * n) ↔ (d ≤ n) := mul_le_mul_left hk
  simp only [e1, Nat.mul_div_mul_left n d hk, pred_div_scale k n d hk hn hd]

theorem round_scale (s : Bool) (k n d : Nat) (hk : 0 < k) (hd : 0 < d) :
    F64.round s (k * n) (k * d) = F64.round s n d := by
  unfold F64.round
  by_cases hn : n = 0
  · subst hn; simp
  · have hn' : 0 < n := Nat.pos_of_ne_zero hn
    have hkn : k * n ≠ 0 := (Nat.mul_pos hk hn').ne'
    simp only [hkn, hn, if_false, ratLog2_scale k n d hk hn' hd]
    have a1 : ∀ j, divRoundEven (k * n) (k * d * j) = divRoundEven n (d * j) := by
      intro j; rw [Nat.mul_assoc]; exact divRoundEven_scale k n (d * j) hk
    have a2 : ∀ j, divRoundEven (k * n * j) (k * d) = divRoundEven (n * j) d := by
      intro j; rw [Nat.mul_assoc]; exact divRoundEven_scale k (n * j) d hk
    simp only [a1, a2]

theorem round_congr (s : Bool) (N D a b : Nat) (hD : 0 < D) (hb : 0 < b)
    (h : N * b = D * a) : F64.round s N D = F64.round s a b := by
  rw [← round_scale s b N D hb hD, ← round_scale s D a b hD hb]
  congr 1
  · rw [Nat.mul_comm, h]
  · exact Nat.mul_comm b D

/-- Key step: rounding `a * S / b` to the nearest integer and dividing by `S` again is the
floor of `a / b` as soon as `b < 2 * S`. -/
theorem divRoundEven_div (a b S : Nat) (hb : 0 < b) (hS : 0 < S) (hbS : b < 2 * S) :
    divRoundEven (a * S) b / S = a / b := by
  have hdm := Nat.div_add_mod (a * S) b
  have hr := Nat.mod_lt (a * S) hb
  have hdm2 := Nat.div_add_mod a b
  have hr2 := Nat.mod_lt a hb
  set q' := (a * S) / b with hq'
  set r' := (a * S) % b with hr'
  set Q := a / b with hQ
  set R := a % b with hR
  -- a * S = b * Q * S + R * S
  have haS : a * S = b * (Q * S) + R * S := by
    have : a = b * Q + R := hdm2.symm
    calc a * S = (b * Q + R) * S := by rw [← this]
      _ = b * (Q * S) + R * S := by ring
  have hlow : Q * S ≤ q' := by
    rw [hq', Nat.le_div_iff_mul_le hb]
    have : Q * S * b = b * (Q * S) := by ring
    omega
  have hRS : R * S + S ≤ b * S := by
    have : (R + 1) * S ≤ b * S := Nat.mul_le_mul_right S (by omega)
    have e : (R + 1) * S = R * S + S := by ring
    omega
  -- b * q' + r' + S ≤ b * ((Q+1) * S)
  have hup : b * q' + r' + S ≤ b * ((Q + 1) * S) := by
    have e : b * ((Q + 1) * S) = b * (Q * S) + b * S := by ring
    omega
  have hm : divRoundEven (a * S) b < (Q + 1) * S := by
    unfold divRoundEven
    simp only [← hq', ← hr']
    have hq1 : q' < (Q + 1) * S := by
      by_contra hc
      have : b * ((Q + 1) * S) ≤ b * q' := Nat.mul_le_mul_left b (by omega)
      omega
    have hq2 : b ≤ 2 * r' → q' + 1 < (Q + 1) * S := by
      intro h2
      by_contra hc
      have : b * ((Q + 1) * S) ≤ b * (q' + 1) := Nat.mul_le_mul_left b (by omega)
      have e : b * (q' + 1) = b * q' + b := by ring
      omega
    split_ifs <;> first | exact hq1 | (apply hq2; omega)
  have hm' : Q * S ≤ divRoundEven (a * S) b := by
    unfold divRoundEven
    simp only [← hq', ← hr']
    split_ifs <;> omega
  apply Nat.div_eq_of_lt_le
  · exact hm'
  · exact hm


theorem divRoundEven_one (n : Nat) : divRoundEven n 1 = n := by
  unfold divRoundEven
  simp [Nat.mod_one]

theorem divRoundEven_ge (n d : Nat) : n / d ≤ divRoundEven n d := by
  unfold divRoundEven
  simp only
  split_ifs <;> omega

theorem divRoundEven_le (n d : Nat) : divRoundEven n d ≤ n / d + 1 := by
  unfold divRoundEven
  simp only
  split_ifs <;> omega

theorem ratLog2_le (a b : Nat) (ha : 0 < a) (h : a < 2 ^ 53) : ratLog2 a b ≤ 52 := by
  unfold ratLog2
  split_ifs with hba
  · rw [log2Floor_eq]
    have h1 : Nat.log 2 (a / b) ≤ Nat.log 2 a := Nat.log_mono_right (Nat.div_le_self a b)
    have h2 : Nat.log 2 a < 53 := Nat.log_lt_of_lt_pow (by omega) h
    omega
  · omega

theorem ratLog2_ge (a b : Nat) (hb : b ≤ 2 ^ 64) : -65 ≤ ratLog2 a b := by
  unfold ratLog2
  split_ifs with hba
  · omega
  · rw [log2Floor_eq]
    have h1 : (b - 1) / a ≤ b - 1 := Nat.div_le_self _ _
    have h2 : Nat.log 2 ((b - 1) / a) < 64 := by
      by_cases h0 : (b - 1) / a = 0
      · rw [h0]; simp
      · exact Nat.log_lt_of_lt_pow h0 (by omega)
    omega

theorem ratLog2_spacing (a b : Nat) (ha : 0 < a) (hb : 0 < b) (h : a < 2 ^ 53) :
    b < 2 * 2 ^ (52 - ratLog2 a b).toNat := by
  unfold ratLog2
  split_ifs with hba
  · rw [log2Floor_eq]
    have hq : a / b ≠ 0 := by
      have : 0 < a / b := Nat.div_pos hba hb
      omega
    have h1 : 2 ^ Nat.log 2 (a / b) ≤ a / b := Nat.pow_log_le_self 2 hq
    have h2 : b * (a / b) ≤ a := Nat.mul_div_le a b
    have h3 : Nat.log 2 (a / b) ≤ 52 := by
      have h1 : Nat.log 2 (a / b) ≤ Nat.log 2 a := Nat.log_mono_right (Nat.div_le_self a b)
      have h2 : Nat.log 2 a < 53 := Nat.log_lt_of_lt_pow (by omega) h
      omega
    set L := Nat.log 2 (a / b) with hL
    have h4 : ((52 : Int) - (L : Int)).toNat = 52 - L := by omega
    rw [h4]
    have h5 : b * 2 ^ L ≤ a := le_trans (Nat.mul_le_mul_left b h1) h2
    have h6 : (2 : Nat) ^ 53 = 2 ^ L * (2 * 2 ^ (52 - L)) := by
      rw [← pow_succ', ← pow_add]; congr 1; omega
    have h7 : b * 2 ^ L < 2 ^ L * (2 * 2 ^ (52 - L)) := by omega
    rw [Nat.mul_comm b] at h7
    exact Nat.lt_of_mul_lt_mul_left h7
  · rw [log2Floor_eq]
    set j := Nat.log 2 ((b - 1) / a) with hj
    have h1 : (b - 1) / a < 2 ^ (j + 1) := Nat.lt_pow_succ_log_self (by norm_num) _
    have h2 : b - 1 < a * ((b - 1) / a + 1) := Nat.lt_mul_div_succ _ ha
    have h3 : a * ((b - 1) / a + 1) ≤ a * 2 ^ (j + 1) := Nat.mul_le_mul_left a h1
    have h4 : a * 2 ^ (j + 1) < 2 ^ 53 * 2 ^ (j + 1) :=
      Nat.mul_lt_mul_of_pos_right h (by positivity)
    have h5 : ((52 : Int) - -((j : Int) + 1)).toNat = 53 + j := by omega
    rw [h5]
    have h6 : 2 * 2 ^ (53 + j) = 2 ^ 53 * 2 ^ (j + 1) := by
      rw [← pow_succ', ← pow_add, Nat.add_assoc]
    omega

theorem signedNum_false (n : Nat) : F64.signedNum false n = (n : Int) := by
  simp [F64.signedNum]

/-- Rounding a fraction `a / b` with `a < 2^53` to binary64 and truncating it gives the
floor of the fraction. -/
theorem round_toInt64 (a b : Nat) (ha : a < 2 ^ 53) (hb : 0 < b) (hb64 : b ≤ 2 ^ 64) :
    (F64.round false a b).toInt64 = ((a / b : Nat) : Int) := by
  have hdiv : a / b ≤ a := Nat.div_le_self a b
  by_cases h0 : a = 0
  · subst h0
    simp [F64.round, F64.toInt64, F64.signedNum]
  · have ha0 : 0 < a := Nat.pos_of_ne_zero h0
    have hE1 := ratLog2_le a b ha0 ha
    have hE2 := ratLog2_ge a b hb64
    have hsp := ratLog2_spacing a b ha0 hb ha
    unfold F64.round
    simp only [h0, if_false]
    have he : max (ratLog2 a b - 52) (-1074) = ratLog2 a b - 52 := by omega
    simp only [he]
    by_cases hz : 0 ≤ ratLog2 a b - 52
    · have hE : ratLog2 a b = 52 := by omega
      simp only [hE] at hsp ⊢
      have hb1 : b = 1 := by
        have : (2 : Nat) * 2 ^ ((52 : Int) - 52).toNat = 2 := by norm_num
        omega
      subst hb1
      norm_num [divRoundEven_one, F64.toInt64, F64.signedNum]
      omega
    · simp only [hz, if_false]
      have hS : (-(ratLog2 a b - 52)).toNat = (52 - ratLog2 a b).toNat := by
        congr 1; omega
      rw [hS]
      set S := 2 ^ (52 - ratLog2 a b).toNat with hSdef
      have hSpos : 0 < S := by positivity
      have key := divRoundEven_div a b S hb hSpos hsp
      simp only [F64.toInt64, signedNum_false, key]
      have : ((a / b : Nat) : Int) < 2 ^ 63 := by
        have : a / b < 2 ^ 53 := by omega
        have : ((a / b : Nat) : Int) < 2 ^ 53 := by exact_mod_cast this
        omega
      have h2 : -(2 : Int) ^ 63 ≤ ((a / b : Nat) : Int) := by
        have : (0 : Int) ≤ ((a / b : Nat) : Int) := Int.natCast_nonneg _
        omega
      rw [if_pos ⟨h2, this⟩]

theorem ratLog2_one (a : Nat) (ha : 0 < a) : ratLog2 a 1 = (Nat.log 2 a : Int) := by
  unfold ratLog2
  have : 1 ≤ a := ha
  simp [this, log2Floor_eq]

theorem ofNat_isNat_small (a : Nat) (h : a < 2 ^ 53) : (F64.ofNat a).IsNat a := by
  unfold F64.ofNat F64.round
  by_cases h0 : a = 0
  · subst h0
    exact ⟨0, 1, by simp, by norm_num, by simp⟩
  · have ha0 : 0 < a := Nat.pos_of_ne_zero h0
    have hL : Nat.log 2 a < 53 := Nat.log_lt_of_lt_pow h0 h
    simp only [h0, if_false, ratLog2_one a ha0]
    have he : max ((Nat.log 2 a : Int) - 52) (-1074) = (Nat.log 2 a : Int) - 52 := by omega
    simp only [he]
    by_cases hz : (0 : Int) ≤ (Nat.log 2 a : Int) - 52
    · have hE : Nat.log 2 a = 52 := by omega
      simp only [hE]
      norm_num [divRoundEven_one]
      exact ⟨a, 1, rfl, by norm_num, by simp⟩
    · simp only [hz, if_false, divRoundEven_one]
      exact ⟨_, _, rfl, by positivity, rfl⟩

theorem ofNat_isNat_big (s : Nat) (h1 : 2 ^ 53 ≤ s) (h2 : s < 2 ^ 64) :
    ∃ v, (F64.ofNat s).IsNat v ∧ 2 ^ 53 ≤ v ∧ v ≤ 2 ^ 64 := by
  have hs0 : s ≠ 0 := by omega
  have hL1 : 53 ≤ Nat.log 2 s := by
    rw [← Nat.pow_le_iff_le_log (by norm_num) hs0]; exact h1
  have hL2 : Nat.log 2 s < 64 := Nat.log_lt_of_lt_pow hs0 h2
  have hp1 : 2 ^ Nat.log 2 s ≤ s := Nat.pow_log_le_self 2 hs0
  have hp2 : s < 2 ^ (Nat.log 2 s + 1) := Nat.lt_pow_succ_log_self (by norm_num) s
  unfold F64.ofNat F64.round
  simp only [hs0, if_false, ratLog2_one s (by omega)]
  have he : max ((Nat.log 2 s : Int) - 52) (-1074) = (Nat.log 2 s : Int) - 52 := by omega
  have hz : (0 : Int) ≤ (Nat.log 2 s : Int) - 52 := by omega
  have hk : ((Nat.log 2 s : Int) - 52).toNat = Nat.log 2 s - 52 := by omega
  simp only [he, hz, if_true, hk, one_mul]
  set k := Nat.log 2 s - 52 with hkdef
  have hk1 : 1 ≤ k := by omega
  have hk2 : k ≤ 11 := by omega
  have hno : ¬ ((971 : Int) < (Nat.log 2 s : Int) - 52 ∨
      ((Nat.log 2 s : Int) - 52 = 971 ∧ 2 ^ 53 ≤ divRoundEven s (2 ^ k))) := by
    omega
  simp only [hno, if_false]
  have hpk : 0 < 2 ^ k := by positivity
  have e1 : 2 ^ Nat.log 2 s = 2 ^ 52 * 2 ^ k := by
    rw [← pow_add]; congr 1; omega
  have e2 : 2 ^ (Nat.log 2 s + 1) = 2 ^ 53 * 2 ^ k := by
    rw [← pow_add]; congr 1; omega
  have hq1 : 2 ^ 52 ≤ s / 2 ^ k := by
    rw [Nat.le_div_iff_mul_le hpk]; omega
  have hq2 : s / 2 ^ k < 2 ^ 53 := by
    rw [Nat.div_lt_iff_lt_mul hpk]; omega
  have hm1 := divRoundEven_ge s (2 ^ k)
  have hm2 := divRoundEven_le s (2 ^ k)
  refine ⟨divRoundEven s (2 ^ k) * 2 ^ k, ⟨_, 1, rfl, by norm_num, by simp⟩, ?_, ?_⟩
  · have : 2 ^ 52 * 2 ^ 1 ≤ divRoundEven s (2 ^ k) * 2 ^ k :=
      Nat.mul_le_mul (by omega) (Nat.pow_le_pow_right (by norm_num) hk1)
    omega
  · have : divRoundEven s (2 ^ k) * 2 ^ k ≤ 2 ^ 53 * 2 ^ 11 :=
      Nat.mul_le_mul (by omega) (Nat.pow_le_pow_right (by norm_num) hk2)
    omega

theorem div_toInt64 (x y : F64) (a b : Nat) (hx : x.IsNat a) (hy : y.IsNat b)
    (ha : a < 2 ^ 53) (hb : 0 < b) (hb64 : b ≤ 2 ^ 64) :
    (F64.div x y).toInt64 = ((a / b : Nat) : Int) := by
  obtain ⟨n, d, rfl, hd, rfl⟩ := hx
  obtain ⟨m, f, rfl, hf, rfl⟩ := hy
  have hm : b * f ≠ 0 := (Nat.mul_pos hb hf).ne'
  simp only [F64.div, hm, if_false, Bool.xor_false]
  rw [round_congr false (a * d * f) (d * (b * f)) a b
    (Nat.mul_pos hd (Nat.mul_pos hb hf)) hb (by ring)]
  exact round_toInt64 a b ha hb hb64

/-- The network stage of `GetBatchTime`: below `2^53` bytes the float quotient, truncated,
is the integer quotient. -/
theorem networkTime_eq (s : Int) (speed : Nat) (hs0 : 0 ≤ s) (hs : s < 2 ^ 53)
    (hp : 0 < speed) (hp64 : speed < 2 ^ 64) :
    (F64.div (F64.ofInt s) (F64.ofNat speed)).toInt64 = s / (speed : Int) := by
  obtain ⟨a, rfl⟩ := Int.eq_ofNat_of_zero_le hs0
  have ha : a < 2 ^ 53 := by exact_mod_cast hs
  have hof : F64.ofInt (a : Int) = F64.ofNat a := by
    unfold F64.ofInt F64.ofNat
    have : ¬ ((a : Int) < 0) := by omega
    simp [this]
  rw [hof]
  by_cases hsp : speed < 2 ^ 53
  · rw [div_toInt64 _ _ a speed (ofNat_isNat_small a ha) (ofNat_isNat_small speed hsp) ha hp
      (by omega)]
    exact Int.natCast_div a speed
  · obtain ⟨v, hv, hv1, hv2⟩ := ofNat_isNat_big speed (by omega) hp64
    rw [div_toInt64 _ _ a v (ofNat_isNat_small a ha) hv ha (by omega) hv2]
    have e1 : a / v = 0 := Nat.div_eq_of_lt (by omega)
    have e2 : a / speed = 0 := Nat.div_eq_of_lt (by omega)
    rw [e1]
    rw [← Int.natCast_div a speed, e2]

/-! ## Theorems: `GetBatchTime` -/

theorem wrap64_eq (x : Int) (h1 : -2 ^ 63 ≤ x) (h2 : x < 2 ^ 63) : wrap64 x = x := by
  unfold wrap64
  rw [Int.emod_eq_of_lt (by omega) (by omega)]
  omega

theorem GetBatchTime_pipeline (br : BenchmarkResult) (n : Int) (speed : Nat)
    (hc : 0 ≤ br.CompressTime) (hd : 0 ≤ br.DecompressTime)
    (hs : 0 ≤ br.CompressedSize) (hs53 : br.CompressedSize < 2 ^ 53)
    (hn : 0 ≤ n) (hp : 0 < speed) (hp64 : speed < 2 ^ 64)
    (hfit : n * max br.CompressTime (max (br.CompressedSize / (speed : Int)) br.DecompressTime)
        + (br.CompressTime + br.CompressedSize / (speed : Int) + br.DecompressTime
          - max br.CompressTime (max (br.CompressedSize / (speed : Int)) br.DecompressTime))
        < 2 ^ 63) :
    br.GetBatchTime n speed
      = n * max br.CompressTime (max (br.CompressedSize / (speed : Int)) br.DecompressTime)
        + (br.CompressTime + br.CompressedSize / (speed : Int) + br.DecompressTime
          - max br.CompressTime (max (br.CompressedSize / (speed : Int)) br.DecompressTime)) := by
  have ht : 0 ≤ br.CompressedSize / (speed : Int) :=
    Int.ediv_nonneg hs (Int.natCast_nonneg speed)
  unfold BenchmarkResult.GetBatchTime BenchmarkResult.batchOps
  rw [networkTime_eq _ _ hs hs53 hp hp64]
  generalize br.CompressedSize / (speed : Int) = t at *
  generalize br.CompressTime = c at *
  generalize br.DecompressTime = d at *
  simp only [hp.ne', if_false]
  simp only [slowestIndex, batchTotal, List.length, List.range', List.foldl, List.enum,
    List.enumFrom, List.getD_cons_zero, List.getD_cons_succ, zero_add]
  by_cases h1 : t > c
  · by_cases h2 : d > t
    · have hm : max c (max t d) = d := by omega
      rw [hm] at hfit ⊢
      have hP : 0 ≤ n * d := mul_nonneg hn hd
      simp [h1, h2]
      rw [wrap64_eq c (by omega) (by omega), wrap64_eq (c + t) (by omega) (by omega),
        wrap64_eq (n * d) (by omega) (by omega), wrap64_eq _ (by omega) (by omega)]
      ring
    · have hm : max c (max t d) = t := by omega
      rw [hm] at hfit ⊢
      have hP : 0 ≤ n * t := mul_nonneg hn ht
      simp [h1, h2]
      rw [wrap64_eq c (by omega) (by omega), wrap64_eq (n * t) (by omega) (by omega),
        wrap64_eq (c + n * t) (by omega) (by omega), wrap64_eq _ (by omega) (by omega)]
      ring
  · by_cases h2 : d > c
    · have hm : max c (max t d) = d := by omega
      rw [hm] at hfit ⊢
      have hP : 0 ≤ n * d := mul_nonneg hn hd
      simp [h1, h2]
      rw [wrap64_eq c (by omega) (by omega), wrap64_eq (c + t) (by omega) (by omega),
        wrap64_eq (n * d) (by omega) (by omega), wrap64_eq _ (by omega) (by omega)]
      ring
    · have hm : max c (max t d) = c := by omega
      rw [hm] at hfit ⊢
      have hP : 0 ≤ n * c := mul_nonneg hn hc
      simp [h1, h2]
      rw [wrap64_eq (n * c) (by omega) (by omega), wrap64_eq (n * c) (by omega) (by omega),
        wrap64_eq (n * c + t) (by omega) (by omega),
        wrap64_eq _ (by omega) (by omega)]
      ring

/-! ## Theorems: sorting and medians -/

theorem sinkInto_perm {α : Type} (cmp : α → α → Int) (x : α) (l : List α) :
    (sinkInto cmp x l).Perm (x :: l) := by
  induction l with
  | nil => simp [sinkInto]
  | cons y ys ih =>
    unfold sinkInto
    split_ifs
    · exact (List.Perm.cons y ih).trans (List.Perm.swap x y ys)
    · exact List.Perm.refl _

theorem mem_sinkInto {α : Type} (cmp : α → α → Int) (x z : α) (l : List α) :
    z ∈ sinkInto cmp x l ↔ z = x ∨ z ∈ l := by
  rw [(sinkInto_perm cmp x l).mem_iff, List.mem_cons]

theorem foldl_sinkInto_perm {α : Type} (cmp : α → α → Int) (l : List α) :
    ∀ done : List α, (l.foldl (fun done x => sinkInto cmp x done) done).Perm (l.reverse ++ done) := by
  induction l with
  | nil => intro done; simp
  | cons x xs ih =>
    intro done
    simp only [List.foldl_cons, List.reverse_cons, List.append_assoc, List.singleton_append]
    exact (ih _).trans (List.Perm.append_left _ (sinkInto_perm cmp x done))

theorem SortFunc_perm {α : Type} (cmp : α → α → Int) (l : List α) :
    (SortFunc l cmp).Perm l := by
  unfold SortFunc insertionSortCmpFunc
  refine (List.reverse_perm _).trans ?_
  have := foldl_sinkInto_perm cmp l []
  simp only [List.append_nil] at this
  exact this.trans (List.reverse_perm l)

theorem SortFunc_length {α : Type} (cmp : α → α → Int) (l : List α) :
    (SortFunc l cmp).length = l.length :=
  (SortFunc_perm cmp l).length_eq

theorem sinkInto_sorted (cmp : Int → Int → Int) (x : Int) (l : List Int)
    (hcmp : ∀ y ∈ l, (cmp x y < 0 ↔ x < y)) (hs : l.Sorted (· ≥ ·)) :
    (sinkInto cmp x l).Sorted (· ≥ ·) := by
  induction l with
  | nil => simp [sinkInto]
  | cons y ys ih =>
    unfold sinkInto
    have hy := hcmp y (List.mem_cons_self y ys)
    rw [List.sorted_cons] at hs
    split_ifs with h
    · rw [List.sorted_cons]
      refine ⟨?_, ih (fun z hz => hcmp z (List.mem_cons_of_mem y hz)) hs.2⟩
      intro z hz
      rcases (mem_sinkInto cmp x z ys).mp hz with hz | hz
      · have : x < y := hy.mp h
        show y ≥ z
        omega
      · exact hs.1 z hz
    · rw [List.sorted_cons]
      refine ⟨?_, List.sorted_cons.mpr hs⟩
      intro z hz
      have hxy : y ≤ x := by
        have : ¬ x < y := fun hh => h (hy.mpr hh)
        omega
      rcases List.mem_cons.mp hz with hz | hz
      · omega
      · have := hs.1 z hz
        show x ≥ z
        omega

theorem foldl_sinkInto_sorted (cmp : Int → Int → Int) (l : List Int) :
    ∀ done : List Int, (∀ x ∈ l ++ done, ∀ y ∈ l ++ done, (cmp x y < 0 ↔ x < y)) →
      done.Sorted (· ≥ ·) →
      (l.foldl (fun done x => sinkInto cmp x done) done).Sorted (· ≥ ·) := by
  induction l with
  | nil => intro done _ hs; simpa using hs
  | cons x xs ih =>
    intro done hcmp hs
    simp only [List.foldl_cons]
    apply ih
    · intro a ha b hb
      apply hcmp
      · rcases List.mem_append.mp ha with h | h
        · simp [h]
        · rcases (mem_sinkInto cmp x _ done).mp h with h | h
          · simp [h]
          · simp [h]
      · rcases List.mem_append.mp hb with h | h
        · simp [h]
        · rcases (mem_sinkInto cmp x _ done).mp h with h | h
          · simp [h]
          · simp [h]
    · apply sinkInto_sorted cmp x done _ hs
      intro y hy
      exact hcmp x (by simp) y (by simp [hy])

/-- With a comparator that is the sign of the order on the elements, `SortFunc` returns the
ascending arrangement. -/
theorem SortFunc_eq_insertionSort (cmp : Int → Int → Int) (l : List Int)
    (hcmp : ∀ x ∈ l, ∀ y ∈ l, (cmp x y < 0 ↔ x < y)) :
    SortFunc l cmp = l.insertionSort (· ≤ ·) := by
  apply List.eq_of_perm_of_sorted (r := (· ≤ ·))
  · exact (SortFunc_perm cmp l).trans (List.perm_insertionSort _ l).symm
  · unfold SortFunc insertionSortCmpFunc
    have := foldl_sinkInto_sorted cmp l [] (by simpa using hcmp) List.sorted_nil
    have h2 := List.pairwise_reverse.mpr this
    exact h2
  · exact List.sorted_insertionSort _ l

theorem cmp_moderate (a b : Int) (ha : Moderate a) (hb : Moderate b) :
    (wrap64 (a - b) < 0 ↔ a < b) := by
  unfold Moderate at ha hb
  rw [wrap64_eq (a - b) (by omega) (by omega)]
  omega


theorem index_lt {α : Type} (xs : List α) (i : Nat) (d : α) (h : i < xs.length) :
    index xs i = .ok (xs.getD i d) := by
  unfold index
  rw [List.getD_eq_getElem?_getD, List.getElem?_eq_getElem h]
  rfl

theorem bind_ok {α β : Type} (a : α) (f : α → Res β) : (Res.ok a >>= f) = f a := rfl

theorem pure_eq_ok {α : Type} (a : α) : (pure a : Res α) = Res.ok a := rfl

theorem findMedianInt_eq (l : List Int) (hne : l ≠ []) (hmod : ∀ v ∈ l, Moderate v) :
    findMedianInt l = .ok (median l) := by
  have hsort : SortFunc l (fun a b => wrap64 (a - b)) = l.insertionSort (· ≤ ·) :=
    SortFunc_eq_insertionSort _ l (fun x hx y hy => cmp_moderate x y (hmod x hx) (hmod y hy))
  have hlen : (l.insertionSort (· ≤ ·)).length = l.length := List.length_insertionSort _ l
  have hpos : 0 < l.length := List.length_pos.mpr hne
  have hmem : ∀ v ∈ l.insertionSort (· ≤ ·), Moderate v := fun v hv =>
    hmod v ((List.perm_insertionSort _ l).mem_iff.mp hv)
  unfold findMedianInt median middleOfSorted
  simp only [hsort]
  set s := l.insertionSort (· ≤ ·) with hs
  by_cases hev : s.length % 2 = 0
  · simp only [hev, if_true]
    have hn0 : s.length ≠ 0 := by omega
    simp only [hn0, if_false]
    rw [index_lt s (s.length / 2 - 1) 0 (by omega), index_lt s (s.length / 2) 0 (by omega)]
    simp only [bind_ok, pure_eq_ok]
    have h1 : Moderate (s.getD (s.length / 2 - 1) 0) := by
      apply hmem
      rw [List.getD_eq_getElem _ _ (by omega)]
      exact List.getElem_mem _
    have h2 : Moderate (s.getD (s.length / 2) 0) := by
      apply hmem
      rw [List.getD_eq_getElem _ _ (by omega)]
      exact List.getElem_mem _
    unfold Moderate at h1 h2
    rw [wrap64_eq _ (by omega) (by omega)]
  · simp only [hev, if_false]
    rw [index_lt s (s.length / 2) 0 (by omega)]

theorem findMedianTime_eq (l : List Int) (hne : l ≠ []) (hmod : ∀ v ∈ l, Moderate v) :
    findMedianTime l = .ok (median l) :=
  findMedianInt_eq l hne hmod

theorem findMedianFloat64_ok (l : List F64) (hne : l ≠ []) :
    ∃ v, findMedianFloat64 l = .ok v := by
  have hpos : 0 < l.length := List.length_pos.mpr hne
  have hlen := SortFunc_length (fun a b => (F64.sub a b).toInt64) l
  unfold findMedianFloat64
  simp only
  set s := SortFunc l (fun a b => (F64.sub a b).toInt64) with hs
  by_cases hev : s.length % 2 = 0
  · simp only [hev, if_true]
    have hn0 : s.length ≠ 0 := by omega
    simp only [hn0, if_false]
    rw [index_lt s (s.length / 2 - 1) F64.nan (by omega),
      index_lt s (s.length / 2) F64.nan (by omega)]
    exact ⟨_, rfl⟩
  · simp only [hev, if_false]
    rw [index_lt s (s.length / 2) F64.nan (by omega)]
    exact ⟨_, rfl⟩

/-- The entries at index `i` of the trials that have one, in trial order. -/
theorem collectColumn_eq (i : Nat) (trials : List (List BenchmarkResult))
    (h : ∀ t ∈ trials, i < t.length) :
    collectColumn i trials = .ok (trials.filterMap (fun t => t[i]?)) := by
  induction trials with
  | nil => rfl
  | cons t ts ih =>
    have hi : i < t.length := h t (List.mem_cons_self t ts)
    unfold collectColumn
    rw [ih (fun u hu => h u (List.mem_cons_of_mem t hu))]
    simp only [index, List.getElem?_eq_getElem hi, List.filterMap_cons]
    rfl

theorem column_ne_nil (i : Nat) (trials : List (List BenchmarkResult)) (hne : trials ≠ [])
    (h : ∀ t ∈ trials, i < t.length) : column i trials ≠ [] := by
  cases trials with
  | nil => exact absurd rfl hne
  | cons t ts =>
    have hi : i < t.length := h t (List.mem_cons_self t ts)
    simp [column, List.filterMap_cons, List.getElem?_eq_getElem hi]

theorem mem_column (i : Nat) (trials : List (List BenchmarkResult)) (r : BenchmarkResult)
    (hr : r ∈ column i trials) : ∃ t ∈ trials, r ∈ t := by
  unfold column at hr
  rw [List.mem_filterMap] at hr
  obtain ⟨t, ht, hget⟩ := hr
  exact ⟨t, ht, List.getElem?_mem hget⟩

theorem aggregateLibrary_eq (trials : List (List BenchmarkResult)) (first : List BenchmarkResult)
    (i : Nat) (hne : trials ≠ []) (hfirst : i < first.length)
    (h : ∀ t ∈ trials, i < t.length)
    (hmod : ∀ t ∈ trials, ∀ r ∈ t,
      Moderate r.CompressTime ∧ Moderate r.DecompressTime ∧ Moderate r.CompressedSize) :
    ∃ r, aggregateLibrary trials first i = .ok r ∧
      r.CompressTime = median ((column i trials).map (·.CompressTime)) ∧
      r.DecompressTime = median ((column i trials).map (·.DecompressTime)) ∧
      r.CompressedSize = median ((column i trials).map (·.CompressedSize)) := by
  have hcol := collectColumn_eq i trials h
  have hcne := column_ne_nil i trials hne h
  have hm : ∀ r ∈ column i trials,
      Moderate r.CompressTime ∧ Moderate r.DecompressTime ∧ Moderate r.CompressedSize := by
    intro r hr
    obtain ⟨t, ht, hrt⟩ := mem_column i trials r hr
    exact hmod t ht r hrt
  have h1 := findMedianTime_eq ((column i trials).map (·.CompressTime))
    (by simpa using hcne) (by
      intro v hv
      obtain ⟨r, hr, rfl⟩ := List.mem_map.mp hv
      exact (hm r hr).1)
  have h2 := findMedianTime_eq ((column i trials).map (·.DecompressTime))
    (by simpa using hcne) (by
      intro v hv
      obtain ⟨r, hr, rfl⟩ := List.mem_map.mp hv
      exact (hm r hr).2.1)
  have h3 := findMedianInt_eq ((column i trials).map (·.CompressedSize))
    (by simpa using hcne) (by
      intro v hv
      obtain ⟨r, hr, rfl⟩ := List.mem_map.mp hv
      exact (hm r hr).2.2)
  obtain ⟨v, h4⟩ := findMedianFloat64_ok ((column i trials).map (·.Ratio)) (by simpa using hcne)
  unfold aggregateLibrary
  rw [index_lt first i ⟨[], 0, 0, 0, F64.nan⟩ hfirst, hcol]
  simp only [bind_ok]
  unfold column at h1 h2 h3 h4
  rw [h1, h2, h3, h4]
  simp only [bind_ok, pure_eq_ok]
  exact ⟨_, rfl, rfl, rfl, rfl⟩

theorem aggregateLoop_ok (trials : List (List BenchmarkResult)) (first : List BenchmarkResult)
    (P : Nat → BenchmarkResult → Prop) (ids : List Nat)
    (h : ∀ id ∈ ids, ∃ r, aggregateLibrary trials first id = .ok r ∧ P id r) :
    ∃ out, aggregateLoop trials first ids = .ok out ∧ List.Forall₂ P ids out := by
  induction ids with
  | nil => exact ⟨[], rfl, List.Forall₂.nil⟩
  | cons id rest ih =>
    obtain ⟨r, hr, hP⟩ := h id (List.mem_cons_self id rest)
    obtain ⟨out, hout, hall⟩ := ih (fun j hj => h j (List.mem_cons_of_mem id hj))
    refine ⟨r :: out, ?_, List.Forall₂.cons hP hall⟩
    unfold aggregateLoop
    rw [hr, hout]
    rfl

theorem forall₂_range_get (P : Nat → BenchmarkResult → Prop) (m : Nat)
    (out : List BenchmarkResult) (h : List.Forall₂ P (List.range m) out) (i : Nat) (hi : i < m) :
    ∃ r, out[i]? = some r ∧ P i r := by
  have hlen : out.length = m := by
    have := h.length_eq
    simpa using this.symm
  have hi' : i < out.length := by omega
  refine ⟨out[i], List.getElem?_eq_getElem hi', ?_⟩
  have := List.Forall₂.get h (by simpa using hi) hi'
  simpa using this

/-! ## Claims C1 to C3: batch time and aggregation -/

/-- Claim C1 (amended): for a result with non-negative compress time `c`, decompress time `d` and
compressed size `s < 2^53`, for `n ≥ 0` and a non-zero `uint64` speed, `GetBatchTime n speed`
equals `n * m + (c + t + d - m)` with network time `t = ⌊s / speed⌋` and bottleneck
`m = max c t d`, provided that value is below `2^63`. -/
theorem GetBatchTime_bottleneck (br : BenchmarkResult) (n : Int) (speed : Nat)
    (hc : 0 ≤ br.CompressTime) (hd : 0 ≤ br.DecompressTime)
    (hs : 0 ≤ br.CompressedSize) (hs53 : br.CompressedSize < 2 ^ 53)
    (hn : 0 ≤ n) (hp : 0 < speed) (hp64 : speed < 2 ^ 64)
    (hfit : n * max br.CompressTime (max (br.CompressedSize / (speed : Int)) br.DecompressTime)
        + (br.CompressTime + br.CompressedSize / (speed : Int) + br.DecompressTime
          - max br.CompressTime (max (br.CompressedSize / (speed : Int)) br.DecompressTime))
        < 2 ^ 63) :
    br.GetBatchTime n speed
      = n * max br.CompressTime (max (br.CompressedSize / (speed : Int)) br.DecompressTime)
        + (br.CompressTime + br.CompressedSize / (speed : Int) + br.DecompressTime
          - max br.CompressTime (max (br.CompressedSize / (speed : Int)) br.DecompressTime)) :=
  GetBatchTime_pipeline br n speed hc hd hs hs53 hn hp hp64 hfit

/-- The two batches of `TestBatchTime` named in C1: 25200 and 100200 nanoseconds. -/
theorem GetBatchTime_bottleneck_witness :
    (sample 250 100 10000 F64.nan).GetBatchTime 100 100 = 25200 ∧
    (sample 100 100 10000 F64.nan).GetBatchTime 100 10 = 100200 :=
  ⟨(GetBatchTime_bottleneck (sample 250 100 10000 F64.nan) 100 100 (by decide) (by decide)
      (by decide) (by decide) (by decide) (by decide) (by decide) (by decide)).trans (by decide),
   (GetBatchTime_bottleneck (sample 100 100 10000 F64.nan) 100 10 (by decide) (by decide)
      (by decide) (by decide) (by decide) (by decide) (by decide) (by decide)).trans (by decide)⟩

/-- C1 as stated fails at both ends of the machine ranges.  A compressed size of `2^53 + 1`
bytes at speed 1 is rounded by `float64` to `2^53`, so one payload takes `2^53` and not
`2^53 + 1`; and four payloads of compress time `2^62` overflow the 64-bit duration to `0`
where the formula gives `2^64`. -/
theorem GetBatchTime_bottleneck_counterexample :
    (sample 0 0 (2 ^ 53 + 1) F64.nan).GetBatchTime 1 1 = 2 ^ 53 ∧
    (1 : Int) * max 0 (max ((2 ^ 53 + 1) / ((1 : Nat) : Int)) 0)
      + (0 + (2 ^ 53 + 1) / ((1 : Nat) : Int) + 0
        - max 0 (max ((2 ^ 53 + 1) / ((1 : Nat) : Int)) 0))
      = 2 ^ 53 + 1 ∧
    (sample (2 ^ 62) 0 0 F64.nan).GetBatchTime 4 1 = 0 ∧
    (4 : Int) * max (2 ^ 62) (max (0 / ((1 : Nat) : Int)) 0)
      + (2 ^ 62 + 0 / ((1 : Nat) : Int) + 0 - max (2 ^ 62) (max (0 / ((1 : Nat) : Int)) 0))
      = 2 ^ 64 := by
  refine ⟨by decide, by decide, by decide, by decide⟩

/-- Claim C2 (amended): for a non-empty sequence of trials that all have length `m`, and `i < m`,
`aggregateResults` returns a list whose entry `i` has as `CompressTime`, `DecompressTime`
and `CompressedSize` the median of the respective values at index `i` across the trials,
each metric on its own, provided every such value `v` satisfies `-2^62 ≤ v < 2^62`; the
median of an even number of values is the mean of the two middle ones rounded toward
zero. -/
theorem aggregateResults_median (trials : List (List BenchmarkResult)) (m i : Nat)
    (hne : trials ≠ []) (hlen : ∀ t ∈ trials, t.length = m) (hi : i < m)
    (hmod : ∀ t ∈ trials, ∀ r ∈ t,
      Moderate r.CompressTime ∧ Moderate r.DecompressTime ∧ Moderate r.CompressedSize) :
    ∃ out r, aggregateResults trials = .ok out ∧ out[i]? = some r ∧
      r.CompressTime = median ((column i trials).map (·.CompressTime)) ∧
      r.DecompressTime = median ((column i trials).map (·.DecompressTime)) ∧
      r.CompressedSize = median ((column i trials).map (·.CompressedSize)) := by
  cases trials with
  | nil => exact absurd rfl hne
  | cons first rest =>
    have hfl : first.length = m := hlen first (List.mem_cons_self first rest)
    have hall : ∀ id ∈ List.range first.length,
        ∃ r, aggregateLibrary (first :: rest) first id = .ok r ∧
          (fun id r =>
            r.CompressTime = median ((column id (first :: rest)).map (·.CompressTime)) ∧
            r.DecompressTime = median ((column id (first :: rest)).map (·.DecompressTime)) ∧
            r.CompressedSize = median ((column id (first :: rest)).map (·.CompressedSize)))
          id r := by
      intro id hid
      have hid' : id < first.length := List.mem_range.mp hid
      exact aggregateLibrary_eq (first :: rest) first id hne hid'
        (fun t ht => by rw [hlen t ht]; omega) hmod
    obtain ⟨out, hout, hf⟩ := aggregateLoop_ok (first :: rest) first _ _ hall
    obtain ⟨r, hr, hP⟩ := forall₂_range_get _ first.length out hf i (by omega)
    exact ⟨out, r, hout, hr, hP⟩

/-- The example of C2: the trials `(c=10,d=20)`, `(c=30,d=0)`, `(c=20,d=10)` aggregate to
the medians of their columns, which are 20 and 10. -/
theorem aggregateResults_median_witness :
    (∃ out r, aggregateResults threeTrials = .ok out ∧ out[0]? = some r ∧
      r.CompressTime = median ((column 0 threeTrials).map (·.CompressTime)) ∧
      r.DecompressTime = median ((column 0 threeTrials).map (·.DecompressTime)) ∧
      r.CompressedSize = median ((column 0 threeTrials).map (·.CompressedSize))) ∧
    median ((column 0 threeTrials).map (·.CompressTime)) = 20 ∧
    median ((column 0 threeTrials).map (·.DecompressTime)) = 10 :=
  ⟨aggregateResults_median threeTrials 1 0 (by decide) (by decide) (by decide) (by decide),
   by decide, by decide⟩

/-- C2 as stated fails where the sum of the two middle values overflows: two trials of
`2^62` bytes each have median `2^62`, and `aggregateResults` returns `-2^62`. -/
theorem aggregateResults_median_counterexample :
    ∃ out r, aggregateResults hugeTrials = .ok out ∧ out[0]? = some r ∧
      r.CompressedSize = -2 ^ 62 ∧
      median ((column 0 hugeTrials).map (·.CompressedSize)) = 2 ^ 62 := by
  refine ⟨_, _, rfl, rfl, ?_, ?_⟩ <;> decide

/-- Claim C3 (the code at the failing input): the comparator `int(a - b)` of `findMedianFloat64`
truncates every difference of two ratios below 1 to zero, so the slice stays in its
input order: the ratios 0.9, 0.1, 0.5 give 0.1, not the median 0.5, and so does the
aggregated `Ratio` of three trials with these ratios. -/
theorem findMedianFloat64_unsorted :
    findMedianFloat64 [tenths 9, tenths 1, tenths 5] = .ok (tenths 1) ∧
    tenths 1 ≠ tenths 5 ∧
    (∃ out r, aggregateResults threeTrials = .ok out ∧ out[0]? = some r ∧
      r.Ratio = tenths 1) := by
  refine ⟨by decide, by decide, ⟨_, _, rfl, rfl, by decide⟩⟩

/-! ## Theorems: the random JSON generator -/

theorem Res.bind_eq_ok {α β : Type} {x : Res α} {f : α → Res β} {b : β}
    (h : x.bind f = .ok b) : ∃ a, x = .ok a ∧ f a = .ok b := by
  cases x with
  | ok a => exact ⟨a, rfl, h⟩
  | error => exact absurd h (by simp [Res.bind])
  | panic => exact absurd h (by simp [Res.bind])

theorem Intn_ok {n : Int} {rng : Rand} {v : Int} {rng' : Rand}
    (h : Intn n rng = .ok (v, rng')) : 0 ≤ v ∧ v < n := by
  unfold Intn at h
  split_ifs at h with hn
  simp only [Res.ok.injEq, Prod.mk.injEq] at h
  obtain ⟨rfl, -⟩ := h
  have hpos : 0 < n.toNat := by omega
  have := Nat.mod_lt (rng 0) hpos
  omega

theorem Intn_returns (n : Int) (rng : Rand) (hn : 0 < n) :
    ∃ v rng', Intn n rng = .ok (v, rng') := by
  unfold Intn
  have : ¬ n ≤ 0 := by omega
  simp [this]

/-- A returned `GetRandRange(min, max)` lies in `[min, max)`, or is `min` when the bounds
are equal. -/
theorem GetRandRange_ok {lo hi : Int} {rng : Rand} {v : Int} {rng' : Rand}
    (hlo : 0 ≤ lo) (hle : lo ≤ hi) (hhi : hi < 2 ^ 63)
    (h : GetRandRange lo hi rng = .ok (v, rng')) :
    lo ≤ v ∧ (v < hi ∨ (lo = hi ∧ v = lo)) := by
  unfold GetRandRange at h
  split_ifs at h with heq
  · simp only [Res.ok.injEq, Prod.mk.injEq] at h
    obtain ⟨rfl, -⟩ := h
    exact ⟨le_refl _, Or.inr ⟨heq, rfl⟩⟩
  · obtain ⟨p, hp, hv⟩ := Res.bind_eq_ok h
    simp only [Res.ok.injEq, Prod.mk.injEq] at hv
    obtain ⟨rfl, -⟩ := hv
    obtain ⟨r, s⟩ := p
    have hr := Intn_ok hp
    rw [wrap64_eq (hi - lo) (by omega) (by omega)] at hr
    simp only
    rw [wrap64_eq (r + lo) (by omega) (by omega)]
    omega

theorem GetRandRange_returns (lo hi : Int) (rng : Rand)
    (hlo : 0 ≤ lo) (hle : lo ≤ hi) (hhi : hi < 2 ^ 63) :
    ∃ v rng', GetRandRange lo hi rng = .ok (v, rng') := by
  unfold GetRandRange
  split_ifs with heq
  · exact ⟨_, _, rfl⟩
  · have hpos : 0 < wrap64 (hi - lo) := by
      rw [wrap64_eq (hi - lo) (by omega) (by omega)]; omega
    obtain ⟨v, rng', h⟩ := Intn_returns _ rng hpos
    rw [h]
    exact ⟨_, _, rfl⟩

theorem GetRandLowercase_returns (rng : Rand) :
    ∃ c rng', GetRandLowercase rng = .ok (c, rng') := by
  unfold GetRandLowercase
  obtain ⟨v, rng', h⟩ := GetRandRange_returns 97 122 rng (by norm_num) (by norm_num) (by norm_num)
  rw [h]
  exact ⟨_, _, rfl⟩

theorem randCharsLoop_length (k : Nat) : ∀ (rng : Rand) (s : GoString) (rng' : Rand),
    randCharsLoop k rng = .ok (s, rng') → s.length = k := by
  induction k with
  | zero =>
    intro rng s rng' h
    simp only [randCharsLoop, Res.ok.injEq, Prod.mk.injEq] at h
    rw [← h.1]; rfl
  | succ k ih =>
    intro rng s rng' h
    unfold randCharsLoop at h
    obtain ⟨p, -, h⟩ := Res.bind_eq_ok h
    obtain ⟨q, hq, h⟩ := Res.bind_eq_ok h
    simp only [Res.ok.injEq, Prod.mk.injEq] at h
    rw [← h.1, List.length_cons, ih p.2 q.1 q.2 hq]

theorem randCharsLoop_returns (k : Nat) : ∀ (rng : Rand),
    ∃ s rng', randCharsLoop k rng = .ok (s, rng') := by
  induction k with
  | zero => intro rng; exact ⟨_, _, rfl⟩
  | succ k ih =>
    intro rng
    obtain ⟨c, r1, h1⟩ := GetRandLowercase_returns rng
    obtain ⟨s, r2, h2⟩ := ih r1
    unfold randCharsLoop
    rw [h1]
    simp only [Res.bind]
    rw [h2]
    exact ⟨_, _, rfl⟩

/-- A returned `RandNChars(n)` has exactly `n` bytes. -/
theorem RandNChars_length {n : Int} {rng : Rand} {s : GoString} {rng' : Rand}
    (h : RandNChars n rng = .ok (s, rng')) : 0 ≤ n ∧ (s.length : Int) = n := by
  unfold RandNChars at h
  split_ifs at h with hn
  have := randCharsLoop_length _ _ _ _ h
  omega

theorem RandNChars_returns (n : Int) (rng : Rand) (hn : 0 ≤ n) :
    ∃ s rng', RandNChars n rng = .ok (s, rng') := by
  unfold RandNChars
  have : ¬ n < 0 := by omega
  simp only [this, if_false]
  exact randCharsLoop_returns _ rng

theorem childrenLoop_all (child : Rand → Res (JsonElement × Rand)) (Q : JsonElement → Prop)
    (hchild : ∀ rng c rng', child rng = .ok (c, rng') → Q c) :
    ∀ (k : Nat) (rng : Rand) (cs : List JsonElement) (rng' : Rand),
      childrenLoop child k rng = .ok (cs, rng') → cs.length = k ∧ ∀ c ∈ cs, Q c := by
  intro k
  induction k with
  | zero =>
    intro rng cs rng' h
    simp only [childrenLoop, Res.ok.injEq, Prod.mk.injEq] at h
    rw [← h.1]
    simp
  | succ k ih =>
    intro rng cs rng' h
    unfold childrenLoop at h
    obtain ⟨c, hc, h⟩ := Res.bind_eq_ok h
    obtain ⟨rest, hrest, h⟩ := Res.bind_eq_ok h
    simp only [Res.ok.injEq, Prod.mk.injEq] at h
    obtain ⟨hl, hall⟩ := ih c.2 rest.1 rest.2 hrest
    rw [← h.1]
    refine ⟨by simp [hl], ?_⟩
    intro x hx
    rcases List.mem_cons.mp hx with rfl | hx
    · exact hchild rng c.1 c.2 hc
    · exact hall x hx

theorem mem_nodesOfList (d : Nat) (cs : List JsonElement) (p : Nat × JsonElement) :
    p ∈ nodesOfList d cs ↔ ∃ c ∈ cs, p ∈ c.nodesFrom d := by
  induction cs with
  | nil => simp [nodesOfList]
  | cons c cs ih =>
    rw [nodesOfList, List.mem_append, ih]
    simp

theorem mem_nodesFrom (d : Nat) (t : JsonElement) (p : Nat × JsonElement) :
    p ∈ t.nodesFrom d ↔ p = (d, t) ∨ ∃ c ∈ t.Children, p ∈ c.nodesFrom (d + 1) := by
  cases t with
  | mk cs fs =>
    rw [JsonElement.nodesFrom, List.mem_cons, mem_nodesOfList]
    rfl

/-- The steps of one call of `jsonGenerateRec`. -/
theorem jsonGenerateRec_inv {conf : JsonGenConfig} {getStr : StrGetter} {fuel : Nat}
    {depth : Int} {rng : Rand} {t : JsonElement} {rng' : Rand}
    (h : jsonGenerateRec conf getStr (fuel + 1) depth rng = .ok (t, rng')) :
    ∃ nf r1 fs r2 nc r3 cs,
      numFieldsGetter conf rng = .ok (nf, r1) ∧
      (if nf ≥ 1 then fieldsLoop getStr nf.toNat [] r1 else .ok ([], r1)) = .ok (fs, r2) ∧
      numChildrenGetter conf depth r2 = .ok (nc, r3) ∧
      (if nc ≥ 1 then
          childrenLoop (jsonGenerateRec conf getStr fuel (wrap64 (depth + 1))) nc.toNat r3
        else .ok ([], r3)) = .ok (cs, rng') ∧
      t = JsonElement.mk cs fs := by
  unfold jsonGenerateRec at h
  obtain ⟨⟨nf, r1⟩, h1, h⟩ := Res.bind_eq_ok h
  obtain ⟨⟨fs, r2⟩, h2, h⟩ := Res.bind_eq_ok h
  obtain ⟨⟨nc, r3⟩, h3, h⟩ := Res.bind_eq_ok h
  obtain ⟨⟨cs, r4⟩, h4, h⟩ := Res.bind_eq_ok h
  simp only [Res.ok.injEq, Prod.mk.injEq] at h
  obtain ⟨rfl, rfl⟩ := h
  exact ⟨nf, r1, fs, r2, nc, r3, cs, h1, h2, h3, h4, rfl⟩

theorem numChildrenGetter_pos {conf : JsonGenConfig} {depth : Int} {rng : Rand} {nc : Int}
    {rng' : Rand} (h : numChildrenGetter conf depth rng = .ok (nc, rng')) (hnc : nc ≥ 1) :
    depth < conf.DepthMax := by
  unfold numChildrenGetter at h
  split_ifs at h with hd
  · simp only [Res.ok.injEq, Prod.mk.injEq] at h
    omega
  · omega

/-- A property that holds at the root of every call of `jsonGenerateRec` holds at every
node of the returned tree, at the depth of the call that built the node. -/
theorem jsonGenerateRec_nodes (conf : JsonGenConfig) (getStr : StrGetter)
    (P : Nat → JsonElement → Prop) (hD64 : conf.DepthMax < 2 ^ 63)
    (hlocal : ∀ fuel depth rng t rng', 0 ≤ depth → depth ≤ max conf.DepthMax 0 →
      jsonGenerateRec conf getStr fuel depth rng = .ok (t, rng') → P depth.toNat t) :
    ∀ (fuel : Nat) (depth : Int) (rng : Rand) (t : JsonElement) (rng' : Rand),
      0 ≤ depth → depth ≤ max conf.DepthMax 0 →
      jsonGenerateRec conf getStr fuel depth rng = .ok (t, rng') →
      ∀ p ∈ t.nodesFrom depth.toNat, P p.1 p.2 := by
  intro fuel
  induction fuel with
  | zero =>
    intro depth rng t rng' _ _ h
    simp [jsonGenerateRec] at h
  | succ fuel ih =>
    intro depth rng t rng' h0 hle h p hp
    rcases (mem_nodesFrom _ _ _).mp hp with rfl | ⟨c, hc, hpc⟩
    · exact hlocal _ _ _ _ _ h0 hle h
    · obtain ⟨nf, r1, fs, r2, nc, r3, cs, -, -, h3, h4, rfl⟩ := jsonGenerateRec_inv h
      simp only [JsonElement.Children] at hc
      split_ifs at h4 with hnc
      · have hlt := numChildrenGetter_pos h3 hnc
        have hw : wrap64 (depth + 1) = depth + 1 := wrap64_eq _ (by omega) (by omega)
        rw [hw] at h4
        have hall := (childrenLoop_all _
          (fun c => ∀ p ∈ c.nodesFrom (depth + 1).toNat, P p.1 p.2)
          (fun rng c rng' hcr => ih (depth + 1) rng c rng' (by omega) (by omega) hcr)
          _ _ _ _ h4).2 c hc
        have e : (depth + 1).toNat = depth.toNat + 1 := by omega
        rw [e] at hall
        exact hall p hpc
      · simp only [Res.ok.injEq, Prod.mk.injEq] at h4
        rw [← h4.1] at hc
        simp at hc


theorem JsonGenerate_inv {conf : JsonGenConfig} {readLines : GoString → Option (List GoString)}
    {rng : Rand} {t : JsonElement} {rng' : Rand}
    (h : JsonGenerate conf readLines rng = .ok (t, rng')) :
    ∃ getStr r1, strGetter conf readLines rng = .ok (getStr, r1) ∧
      jsonGenerateRec conf getStr (conf.DepthMax.toNat + 1) 0 r1 = .ok (t, rng') := by
  unfold JsonGenerate at h
  obtain ⟨⟨g, r1⟩, h1, h2⟩ := Res.bind_eq_ok h
  exact ⟨g, r1, h1, h2⟩

theorem depth_local (conf : JsonGenConfig) (getStr : StrGetter) (hD : 0 ≤ conf.DepthMax)
    (fuel : Nat) (depth : Int) (rng : Rand) (t : JsonElement) (rng' : Rand)
    (h0 : 0 ≤ depth) (hle : depth ≤ max conf.DepthMax 0)
    (h : jsonGenerateRec conf getStr fuel depth rng = .ok (t, rng')) :
    depth.toNat ≤ conf.DepthMax.toNat ∧
      (depth.toNat = conf.DepthMax.toNat → t.Children = []) := by
  refine ⟨by omega, ?_⟩
  intro heq
  cases fuel with
  | zero => simp [jsonGenerateRec] at h
  | succ fuel =>
    obtain ⟨nf, r1, fs, r2, nc, r3, cs, -, -, h3, h4, rfl⟩ := jsonGenerateRec_inv h
    have hge : depth ≥ conf.DepthMax := by omega
    simp only [numChildrenGetter, hge, if_true, Res.ok.injEq, Prod.mk.injEq] at h3
    obtain ⟨rfl, rfl⟩ := h3
    simp only [show ¬ ((0 : Int) ≥ 1) by norm_num, if_false, Res.ok.injEq, Prod.mk.injEq] at h4
    rw [← h4.1]
    rfl

theorem degree_local (conf : JsonGenConfig) (getStr : StrGetter)
    (hmin : 0 ≤ conf.DegreeMin) (hle : conf.DegreeMin ≤ conf.DegreeMax)
    (hmax : conf.DegreeMax < 2 ^ 63)
    (fuel : Nat) (depth : Int) (rng : Rand) (t : JsonElement) (rng' : Rand)
    (h0 : 0 ≤ depth)
    (h : jsonGenerateRec conf getStr fuel depth rng = .ok (t, rng')) :
    ((depth.toNat : Int) < conf.DepthMax →
      conf.DegreeMin ≤ (t.Children.length : Int) ∧
        (t.Children.length : Int) ≤ conf.DegreeMax) := by
  intro hlt
  cases fuel with
  | zero => simp [jsonGenerateRec] at h
  | succ fuel =>
    obtain ⟨nf, r1, fs, r2, nc, r3, cs, -, -, h3, h4, rfl⟩ := jsonGenerateRec_inv h
    have hnge : ¬ depth ≥ conf.DepthMax := by omega
    simp only [numChildrenGetter, hnge, if_false] at h3
    have hnc := GetRandRange_ok hmin hle hmax h3
    simp only [JsonElement.Children]
    split_ifs at h4 with hpos
    · have hl := (childrenLoop_all _ (fun _ => True) (fun _ _ _ _ => trivial) _ _ _ _ h4).1
      rw [hl]
      omega
    · simp only [Res.ok.injEq, Prod.mk.injEq] at h4
      rw [← h4.1]
      simp only [List.length_nil, Nat.cast_zero]
      omega

theorem randomGetter_len (conf : JsonGenConfig) (hmin : 0 ≤ conf.StrLenMin)
    (hle : conf.StrLenMin ≤ conf.StrLenMax) (hmax : conf.StrLenMax < 2 ^ 63)
    (rng : Rand) (s : GoString) (rng' : Rand) (h : randomGetter conf rng = .ok (s, rng')) :
    conf.StrLenMin ≤ (s.length : Int) ∧ (s.length : Int) ≤ conf.StrLenMax := by
  unfold randomGetter at h
  obtain ⟨⟨n, r1⟩, h1, h2⟩ := Res.bind_eq_ok h
  have hn := GetRandRange_ok hmin hle hmax h1
  have hs := RandNChars_length h2
  omega

theorem genDictLoop_all (conf : JsonGenConfig) (hmin : 0 ≤ conf.StrLenMin)
    (hle : conf.StrLenMin ≤ conf.StrLenMax) (hmax : conf.StrLenMax < 2 ^ 63) (k : Nat) :
    ∀ (rng : Rand) (dict : List GoString) (rng' : Rand),
      genDictLoop conf k rng = .ok (dict, rng') →
      dict.length = k ∧ ∀ s ∈ dict,
        conf.StrLenMin ≤ (s.length : Int) ∧ (s.length : Int) ≤ conf.StrLenMax := by
  induction k with
  | zero =>
    intro rng dict rng' h
    simp only [genDictLoop, Res.ok.injEq, Prod.mk.injEq] at h
    rw [← h.1]
    simp
  | succ k ih =>
    intro rng dict rng' h
    unfold genDictLoop at h
    obtain ⟨⟨n, r1⟩, h1, h⟩ := Res.bind_eq_ok h
    obtain ⟨⟨s, r2⟩, h2, h⟩ := Res.bind_eq_ok h
    obtain ⟨⟨rest, r3⟩, h3, h⟩ := Res.bind_eq_ok h
    simp only [Res.ok.injEq, Prod.mk.injEq] at h
    obtain ⟨hl, hall⟩ := ih _ _ _ h3
    have hn := GetRandRange_ok hmin hle hmax h1
    have hs := RandNChars_length h2
    rw [← h.1]
    refine ⟨by simp [hl], ?_⟩
    intro x hx
    rcases List.mem_cons.mp hx with rfl | hx
    · omega
    · exact hall x hx

theorem index_ok {α : Type} {xs : List α} {i : Nat} {x : α} (h : index xs i = .ok x) :
    x ∈ xs := by
  unfold index at h
  split at h
  · rename_i y hy
    simp only [Res.ok.injEq] at h
    rw [← h]
    exact List.getElem?_mem hy
  · simp at h

theorem dictGetter_mem (dict : List GoString) (rng : Rand) (s : GoString) (rng' : Rand)
    (h : dictGetter dict rng = .ok (s, rng')) : s ∈ dict := by
  unfold dictGetter at h
  obtain ⟨⟨i, r1⟩, -, h⟩ := Res.bind_eq_ok h
  split_ifs at h
  obtain ⟨x, hx, h⟩ := Res.bind_eq_ok h
  simp only [Res.ok.injEq, Prod.mk.injEq] at h
  rw [← h.1]
  exact index_ok hx

/-- Without a dictionary file, every string the getter returns has a length between
`StrLenMin` and `StrLenMax`. -/
theorem strGetter_len (conf : JsonGenConfig) (readLines : GoString → Option (List GoString))
    (hmin : 0 ≤ conf.StrLenMin) (hle : conf.StrLenMin ≤ conf.StrLenMax)
    (hmax : conf.StrLenMax < 2 ^ 63) (hfile : conf.DictFile = [])
    (rng : Rand) (getStr : StrGetter) (r1 : Rand)
    (h : strGetter conf readLines rng = .ok (getStr, r1)) :
    ∀ rng s rng', getStr rng = .ok (s, rng') →
      conf.StrLenMin ≤ (s.length : Int) ∧ (s.length : Int) ≤ conf.StrLenMax := by
  unfold strGetter at h
  simp only [hfile, ne_eq, not_true_eq_false, if_false] at h
  split_ifs at h with hsize
  · obtain ⟨⟨dict, r⟩, hd, h⟩ := Res.bind_eq_ok h
    simp only [Res.ok.injEq, Prod.mk.injEq] at h
    obtain ⟨rfl, -⟩ := h
    intro rng s rng' hs
    exact (genDictLoop_all conf hmin hle hmax _ _ _ _ hd).2 s (dictGetter_mem _ _ _ _ hs)
  · simp only [Res.ok.injEq, Prod.mk.injEq] at h
    obtain ⟨rfl, -⟩ := h
    intro rng s rng' hs
    exact randomGetter_len conf hmin hle hmax _ _ _ hs

theorem mem_mapSet (m : List (GoString × GoString)) (k v : GoString) (e : GoString × GoString)
    (h : e ∈ mapSet m k v) : e ∈ m ∨ e = (k, v) := by
  induction m with
  | nil =>
    simp only [mapSet, List.mem_singleton] at h
    exact Or.inr h
  | cons x rest ih =>
    unfold mapSet at h
    split_ifs at h
    · rcases List.mem_cons.mp h with h | h
      · exact Or.inr h
      · exact Or.inl (List.mem_cons_of_mem _ h)
    · rcases List.mem_cons.mp h with h | h
      · exact Or.inl (by rw [h]; exact List.mem_cons_self _ _)
      · rcases ih h with h | h
        · exact Or.inl (List.mem_cons_of_mem _ h)
        · exact Or.inr h

theorem fieldsLoop_all (getStr : StrGetter) (Q : GoString → Prop)
    (hget : ∀ rng s rng', getStr rng = .ok (s, rng') → Q s) (k : Nat) :
    ∀ (m : List (GoString × GoString)) (rng : Rand) (fs : List (GoString × GoString))
      (rng' : Rand), (∀ e ∈ m, Q e.1 ∧ Q e.2) →
      fieldsLoop getStr k m rng = .ok (fs, rng') → ∀ e ∈ fs, Q e.1 ∧ Q e.2 := by
  induction k with
  | zero =>
    intro m rng fs rng' hm h
    simp only [fieldsLoop, Res.ok.injEq, Prod.mk.injEq] at h
    rw [← h.1]
    exact hm
  | succ k ih =>
    intro m rng fs rng' hm h
    unfold fieldsLoop at h
    obtain ⟨⟨key, r1⟩, h1, h⟩ := Res.bind_eq_ok h
    obtain ⟨⟨val, r2⟩, h2, h⟩ := Res.bind_eq_ok h
    apply ih _ _ _ _ _ h
    intro e he
    rcases mem_mapSet _ _ _ _ he with he | rfl
    · exact hm e he
    · exact ⟨hget _ _ _ h1, hget _ _ _ h2⟩

theorem strlen_local (conf : JsonGenConfig) (getStr : StrGetter) (Q : GoString → Prop)
    (hget : ∀ rng s rng', getStr rng = .ok (s, rng') → Q s)
    (fuel : Nat) (depth : Int) (rng : Rand) (t : JsonElement) (rng' : Rand)
    (h : jsonGenerateRec conf getStr fuel depth rng = .ok (t, rng')) :
    ∀ e ∈ t.Fields, Q e.1 ∧ Q e.2 := by
  cases fuel with
  | zero => simp [jsonGenerateRec] at h
  | succ fuel =>
    obtain ⟨nf, r1, fs, r2, nc, r3, cs, -, h2, -, -, rfl⟩ := jsonGenerateRec_inv h
    simp only [JsonElement.Fields]
    split_ifs at h2
    · exact fieldsLoop_all getStr Q hget _ _ _ _ _ (by simp) h2
    · simp only [Res.ok.injEq, Prod.mk.injEq] at h2
      rw [← h2.1]
      simp

theorem randomGetter_returns (conf : JsonGenConfig) (hmin : 0 ≤ conf.StrLenMin)
    (hle : conf.StrLenMin ≤ conf.StrLenMax) (hmax : conf.StrLenMax < 2 ^ 63) (rng : Rand) :
    ∃ s rng', randomGetter conf rng = .ok (s, rng') := by
  obtain ⟨n, r1, h1⟩ := GetRandRange_returns _ _ rng hmin hle hmax
  have hn := GetRandRange_ok hmin hle hmax h1
  obtain ⟨s, r2, h2⟩ := RandNChars_returns n r1 (by omega)
  exact ⟨s, r2, by unfold randomGetter; rw [h1]; exact h2⟩

theorem genDictLoop_returns (conf : JsonGenConfig) (hmin : 0 ≤ conf.StrLenMin)
    (hle : conf.StrLenMin ≤ conf.StrLenMax) (hmax : conf.StrLenMax < 2 ^ 63) (k : Nat) :
    ∀ rng : Rand, ∃ dict rng', genDictLoop conf k rng = .ok (dict, rng') := by
  induction k with
  | zero => intro rng; exact ⟨_, _, rfl⟩
  | succ k ih =>
    intro rng
    obtain ⟨n, r1, h1⟩ := GetRandRange_returns _ _ rng hmin hle hmax
    have hn := GetRandRange_ok hmin hle hmax h1
    obtain ⟨s, r2, h2⟩ := RandNChars_returns n r1 (by omega)
    obtain ⟨rest, r3, h3⟩ := ih r2
    refine ⟨s :: rest, r3, ?_⟩
    unfold genDictLoop
    rw [h1]
    simp only [Res.bind]
    rw [h2]
    simp only
    rw [h3]

theorem dictGetter_returns (dict : List GoString) (hne : dict ≠ [])
    (hlen : (dict.length : Int) < 2 ^ 63) (rng : Rand) :
    ∃ s rng', dictGetter dict rng = .ok (s, rng') := by
  have hpos : 0 < dict.length := List.length_pos.mpr hne
  obtain ⟨i, r1, h1⟩ := GetRandRange_returns 0 (dict.length : Int) rng (le_refl _)
    (by omega) hlen
  have hi := GetRandRange_ok (le_refl _) (by omega) hlen h1
  have hlt : i.toNat < dict.length := by omega
  refine ⟨dict.getD i.toNat [], r1, ?_⟩
  unfold dictGetter
  rw [h1]
  simp only [Res.bind]
  have : ¬ i < 0 := by omega
  simp only [this, if_false]
  rw [index_lt dict i.toNat [] hlt]

/-- Without a dictionary file and with a string-length range `0 ≤ min ≤ max`, `strGetter`
returns a getter, and the getter returns a string at every call. -/
theorem strGetter_returns (conf : JsonGenConfig) (readLines : GoString → Option (List GoString))
    (hmin : 0 ≤ conf.StrLenMin) (hle : conf.StrLenMin ≤ conf.StrLenMax)
    (hmax : conf.StrLenMax < 2 ^ 63) (hfile : conf.DictFile = [])
    (hsize : conf.DictSize < 2 ^ 63) (rng : Rand) :
    ∃ getStr r1, strGetter conf readLines rng = .ok (getStr, r1) ∧
      ∀ rng, ∃ s rng', getStr rng = .ok (s, rng') := by
  unfold strGetter
  simp only [hfile, ne_eq, not_true_eq_false, if_false]
  split_ifs with hpos
  · obtain ⟨dict, r1, h1⟩ := genDictLoop_returns conf hmin hle hmax conf.DictSize.toNat rng
    have hl := (genDictLoop_all conf hmin hle hmax _ _ _ _ h1).1
    refine ⟨dictGetter dict, r1, by rw [h1]; rfl, ?_⟩
    apply dictGetter_returns
    · intro hnil
      rw [hnil] at hl
      simp only [List.length_nil] at hl
      omega
    · omega
  · exact ⟨_, _, rfl, randomGetter_returns conf hmin hle hmax⟩

theorem fieldsLoop_returns (getStr : StrGetter)
    (hget : ∀ rng, ∃ s rng', getStr rng = .ok (s, rng')) (k : Nat) :
    ∀ (m : List (GoString × GoString)) (rng : Rand),
      ∃ fs rng', fieldsLoop getStr k m rng = .ok (fs, rng') := by
  induction k with
  | zero => intro m rng; exact ⟨_, _, rfl⟩
  | succ k ih =>
    intro m rng
    obtain ⟨key, r1, h1⟩ := hget rng
    obtain ⟨val, r2, h2⟩ := hget r1
    obtain ⟨fs, r3, h3⟩ := ih (mapSet m key val) r2
    refine ⟨fs, r3, ?_⟩
    unfold fieldsLoop
    rw [h1]
    simp only [Res.bind]
    rw [h2]
    exact h3

theorem childrenLoop_returns (child : Rand → Res (JsonElement × Rand))
    (hchild : ∀ rng, ∃ c rng', child rng = .ok (c, rng')) (k : Nat) :
    ∀ rng : Rand, ∃ cs rng', childrenLoop child k rng = .ok (cs, rng') := by
  induction k with
  | zero => intro rng; exact ⟨_, _, rfl⟩
  | succ k ih =>
    intro rng
    obtain ⟨c, r1, h1⟩ := hchild rng
    obtain ⟨cs, r2, h2⟩ := ih r1
    refine ⟨c :: cs, r2, ?_⟩
    unfold childrenLoop
    rw [h1]
    simp only [Res.bind]
    rw [h2]

/-- The recursion returns a tree whenever the fuel exceeds the number of levels left, the
field-count and degree ranges are `0 ≤ min ≤ max` and the string getter returns. -/
theorem jsonGenerateRec_returns (conf : JsonGenConfig) (getStr : StrGetter)
    (hget : ∀ rng, ∃ s rng', getStr rng = .ok (s, rng'))
    (hf0 : 0 ≤ conf.FieldsPerNodeMin) (hf1 : conf.FieldsPerNodeMin ≤ conf.FieldsPerNodeMax)
    (hf2 : conf.FieldsPerNodeMax < 2 ^ 63)
    (hd0 : 0 ≤ conf.DegreeMin) (hd1 : conf.DegreeMin ≤ conf.DegreeMax)
    (hd2 : conf.DegreeMax < 2 ^ 63) (hD64 : conf.DepthMax < 2 ^ 63) (fuel : Nat) :
    ∀ (depth : Int) (rng : Rand), 0 ≤ depth → (conf.DepthMax - depth).toNat < fuel →
      ∃ t rng', jsonGenerateRec conf getStr fuel depth rng = .ok (t, rng') := by
  induction fuel with
  | zero => intro depth rng _ h; omega
  | succ fuel ih =>
    intro depth rng h0 hfuel
    obtain ⟨nf, r1, h1⟩ := GetRandRange_returns _ _ rng hf0 hf1 hf2
    obtain ⟨fs, r2, h2⟩ : ∃ fs r2,
        (if nf ≥ 1 then fieldsLoop getStr nf.toNat [] r1 else .ok ([], r1)) = .ok (fs, r2) := by
      split_ifs
      · exact fieldsLoop_returns getStr hget _ _ _
      · exact ⟨_, _, rfl⟩
    obtain ⟨nc, r3, h3⟩ : ∃ nc r3, numChildrenGetter conf depth r2 = .ok (nc, r3) := by
      unfold numChildrenGetter
      split_ifs
      · exact ⟨_, _, rfl⟩
      · exact GetRandRange_returns _ _ r2 hd0 hd1 hd2
    obtain ⟨cs, r4, h4⟩ : ∃ cs r4,
        (if nc ≥ 1 then
          childrenLoop (jsonGenerateRec conf getStr fuel (wrap64 (depth + 1))) nc.toNat r3
        else .ok ([], r3)) = .ok (cs, r4) := by
      split_ifs with hnc
      · have hlt := numChildrenGetter_pos h3 hnc
        have hw : wrap64 (depth + 1) = depth + 1 := wrap64_eq _ (by omega) (by omega)
        rw [hw]
        apply childrenLoop_returns
        intro rng
        exact ih (depth + 1) rng (by omega) (by omega)
      · exact ⟨_, _, rfl⟩
    refine ⟨JsonElement.mk cs fs, r4, ?_⟩
    unfold jsonGenerateRec numFieldsGetter
    rw [h1]
    simp only [Res.bind]
    rw [h2]
    simp only
    rw [h3]
    simp only
    rw [h4]

/-- A configuration without dictionary file whose ranges are all `0 ≤ min ≤ max`. -/
theorem JsonGenerate_returns (conf : JsonGenConfig)
    (readLines : GoString → Option (List GoString)) (rng : Rand)
    (hf0 : 0 ≤ conf.FieldsPerNodeMin) (hf1 : conf.FieldsPerNodeMin ≤ conf.FieldsPerNodeMax)
    (hf2 : conf.FieldsPerNodeMax < 2 ^ 63)
    (hd0 : 0 ≤ conf.DegreeMin) (hd1 : conf.DegreeMin ≤ conf.DegreeMax)
    (hd2 : conf.DegreeMax < 2 ^ 63) (hD64 : conf.DepthMax < 2 ^ 63)
    (hmin : 0 ≤ conf.StrLenMin) (hle : conf.StrLenMin ≤ conf.StrLenMax)
    (hmax : conf.StrLenMax < 2 ^ 63) (hfile : conf.DictFile = [])
    (hsize : conf.DictSize < 2 ^ 63) :
    ∃ t rng', JsonGenerate conf readLines rng = .ok (t, rng') := by
  obtain ⟨g, r1, h1, hg⟩ := strGetter_returns conf readLines hmin hle hmax hfile hsize rng
  obtain ⟨t, r2, h2⟩ := jsonGenerateRec_returns conf g hg hf0 hf1 hf2 hd0 hd1 hd2 hD64
    (conf.DepthMax.toNat + 1) 0 r1 (le_refl _) (by omega)
  exact ⟨t, r2, by unfold JsonGenerate; rw [h1]; exact h2⟩

theorem Intn_one (rng : Rand) : Intn 1 rng = .ok (0, fun i => rng (i + 1)) := by
  unfold Intn
  rw [if_neg (by decide)]
  simp [Nat.mod_one]

theorem GetRandRange_same (m : Int) (rng : Rand) : GetRandRange m m rng = .ok (m, rng) := by
  unfold GetRandRange
  rw [if_pos rfl]

theorem GetRandRange_zero_one (rng : Rand) :
    GetRandRange 0 1 rng = .ok (0, fun i => rng (i + 1)) := by
  unfold GetRandRange
  rw [if_neg (by decide), show wrap64 (1 - 0) = 1 by decide, Intn_one]
  show Res.ok (wrap64 (0 + 0), _) = _
  rw [show wrap64 (0 + 0) = 0 by decide]

theorem dictGetter_single (w : GoString) (rng : Rand) :
    dictGetter [w] rng = .ok (w, fun i => rng (i + 1)) := by
  unfold dictGetter
  rw [show ((([w] : List GoString).length : Nat) : Int) = 1 by simp, GetRandRange_zero_one]
  rfl

theorem ok_bind {α β : Type} (a : α) (f : α → Res β) : (Res.ok a).bind f = f a := rfl

/-- A getter that always returns the word `w` fills the map with the one entry `w ↦ w`,
however many rounds the loop makes. -/
theorem fieldsLoop_const (getStr : StrGetter) (w : GoString)
    (hget : ∀ rng, ∃ rng', getStr rng = .ok (w, rng')) (k : Nat) :
    ∀ rng, ∃ rng', fieldsLoop getStr k [(w, w)] rng = .ok ([(w, w)], rng') := by
  induction k with
  | zero => intro rng; exact ⟨rng, rfl⟩
  | succ k ih =>
    intro rng
    obtain ⟨r1, h1⟩ := hget rng
    obtain ⟨r2, h2⟩ := hget r1
    obtain ⟨r3, h3⟩ := ih r2
    refine ⟨r3, ?_⟩
    unfold fieldsLoop
    rw [h1, ok_bind]
    simp only
    rw [h2, ok_bind]
    simp only
    rw [show mapSet [(w, w)] w w = [(w, w)] by simp [mapSet]]
    exact h3

theorem fieldsLoop_const_nil (getStr : StrGetter) (w : GoString)
    (hget : ∀ rng, ∃ rng', getStr rng = .ok (w, rng')) (k : Nat) (rng : Rand) :
    ∃ rng', fieldsLoop getStr (k + 1) [] rng = .ok ([(w, w)], rng') := by
  obtain ⟨r1, h1⟩ := hget rng
  obtain ⟨r2, h2⟩ := hget r1
  obtain ⟨r3, h3⟩ := fieldsLoop_const getStr w hget k r2
  refine ⟨r3, ?_⟩
  unfold fieldsLoop
  rw [h1, ok_bind]
  simp only
  rw [h2, ok_bind]
  simp only
  rw [show mapSet [] w w = [(w, w)] from rfl]
  exact h3

theorem JsonGenerate_oneWord (rng : Rand) :
    ∃ t rng', JsonGenerate oneWordConfig noFiles rng = .ok (t, rng') ∧
      t.Fields.length = 1 ∧ t.Children = [] := by
  obtain ⟨c, r1, hc⟩ := GetRandLowercase_returns rng
  have hchars : RandNChars 1 rng = .ok ([c], r1) := by
    unfold RandNChars
    rw [if_neg (show ¬ (1 : Int) < 0 by decide), show (1 : Int).toNat = 1 from rfl]
    simp only [randCharsLoop, hc, ok_bind]
  have hdict : genDictLoop oneWordConfig 1 rng = .ok ([[c]], r1) := by
    simp only [genDictLoop, oneWordConfig, GetRandRange_same, ok_bind, hchars]
  obtain ⟨r2, hf⟩ := fieldsLoop_const_nil (dictGetter [[c]]) [c]
    (fun rng => ⟨_, dictGetter_single [c] rng⟩) 2 r1
  have hstr : strGetter oneWordConfig noFiles rng = .ok (dictGetter [[c]], r1) := by
    unfold strGetter
    rw [if_neg (show ¬ oneWordConfig.DictFile ≠ [] by decide),
      if_pos (show oneWordConfig.DictSize > 0 by decide),
      show oneWordConfig.DictSize.toNat = 1 from rfl, hdict]
    rfl
  have h1 : numFieldsGetter oneWordConfig r1 = .ok (3, r1) := GetRandRange_same 3 r1
  have h3 : numChildrenGetter oneWordConfig 0 r2 = .ok (0, r2) := rfl
  have hrec : jsonGenerateRec oneWordConfig (dictGetter [[c]]) (0 + 1) 0 r1
      = .ok (JsonElement.mk [] [([c], [c])], r2) := by
    unfold jsonGenerateRec
    rw [h1, ok_bind]
    simp only
    rw [if_pos (show (3 : Int) ≥ 1 by decide)]
    rw [show (3 : Int).toNat = 2 + 1 from rfl]
    rw [hf]
    rw [ok_bind]
    simp only
    rw [h3, ok_bind]
    simp only
    rw [if_neg (show ¬ (0 : Int) ≥ 1 by decide), ok_bind]
  refine ⟨JsonElement.mk [] [([c], [c])], r2, ?_, rfl, rfl⟩
  unfold JsonGenerate
  rw [hstr, ok_bind, show oneWordConfig.DepthMax.toNat = 0 from rfl]
  simp only
  rw [hrec]

/-! ## Claims C4, C7, C8, C9: shape of the generated tree -/

/-- Claim C4: for a configuration with `DepthMax = D ≥ 0` (a 64-bit `int`) and any outcomes of the
random source, the tree returned by `JsonGenerate` has no node at depth greater than `D`
and every node at depth `D` has no children; with `D = 0` the root has no children. -/
theorem JsonGenerate_depth (conf : JsonGenConfig)
    (readLines : GoString → Option (List GoString)) (rng : Rand)
    (t : JsonElement) (rng' : Rand)
    (hD : 0 ≤ conf.DepthMax) (hD64 : conf.DepthMax < 2 ^ 63)
    (h : JsonGenerate conf readLines rng = .ok (t, rng')) :
    (∀ p ∈ t.nodes, p.1 ≤ conf.DepthMax.toNat ∧
        (p.1 = conf.DepthMax.toNat → p.2.Children = [])) ∧
      (conf.DepthMax = 0 → t.Children = []) := by
  obtain ⟨g, r1, -, hrec⟩ := JsonGenerate_inv h
  have hall := jsonGenerateRec_nodes conf g
    (fun k t => k ≤ conf.DepthMax.toNat ∧ (k = conf.DepthMax.toNat → t.Children = []))
    hD64 (fun fuel depth rng t rng' h0 hle hh => depth_local conf g hD fuel depth rng t rng' h0 hle hh)
    _ 0 r1 t rng' (le_refl _) (by omega) hrec
  refine ⟨hall, ?_⟩
  intro h0
  have hroot : ((0 : Nat), t) ∈ t.nodesFrom (0 : Int).toNat := by
    rw [mem_nodesFrom]; exact Or.inl rfl
  exact (hall _ hroot).2 (by simp [h0])

/-- C4 at the default configuration: a tree is returned and it has the depth property. -/
theorem JsonGenerate_depth_witness :
    ∃ t rng', JsonGenerate defaultConfig noFiles stepRand = .ok (t, rng') ∧
      (∀ p ∈ t.nodes, p.1 ≤ defaultConfig.DepthMax.toNat ∧
          (p.1 = defaultConfig.DepthMax.toNat → p.2.Children = [])) ∧
        (defaultConfig.DepthMax = 0 → t.Children = []) := by
  obtain ⟨t, rng', h⟩ := JsonGenerate_returns defaultConfig noFiles stepRand
    (by decide) (by decide) (by decide) (by decide) (by decide) (by decide) (by decide)
    (by decide) (by decide) (by decide) (by decide) (by decide)
  exact ⟨t, rng', h, JsonGenerate_depth defaultConfig noFiles stepRand t rng'
    (by decide) (by decide) h⟩

/-- Claim C8: for a configuration with `0 ≤ DegreeMin ≤ DegreeMax` (64-bit `int`s) and any
outcomes of the random source, every node of the returned tree at a depth below `DepthMax`
has a number of children in `[DegreeMin, DegreeMax]`. -/
theorem JsonGenerate_degree (conf : JsonGenConfig)
    (readLines : GoString → Option (List GoString)) (rng : Rand)
    (t : JsonElement) (rng' : Rand)
    (hmin : 0 ≤ conf.DegreeMin) (hle : conf.DegreeMin ≤ conf.DegreeMax)
    (hmax : conf.DegreeMax < 2 ^ 63) (hD64 : conf.DepthMax < 2 ^ 63)
    (h : JsonGenerate conf readLines rng = .ok (t, rng')) :
    ∀ p ∈ t.nodes, (p.1 : Int) < conf.DepthMax →
      conf.DegreeMin ≤ (p.2.Children.length : Int) ∧
        (p.2.Children.length : Int) ≤ conf.DegreeMax := by
  obtain ⟨g, r1, -, hrec⟩ := JsonGenerate_inv h
  exact jsonGenerateRec_nodes conf g
    (fun k t => (k : Int) < conf.DepthMax →
      conf.DegreeMin ≤ (t.Children.length : Int) ∧ (t.Children.length : Int) ≤ conf.DegreeMax)
    hD64 (fun fuel depth rng t rng' h0 _ hh =>
      degree_local conf g hmin hle hmax fuel depth rng t rng' h0 hh)
    _ 0 r1 t rng' (le_refl _) (le_max_right _ _) hrec

/-- C8 at the configuration of the range `1-8`: a tree is returned and every node above the
maximal depth has between 1 and 9 children. -/
theorem JsonGenerate_degree_witness :
    ∃ t rng', JsonGenerate rangeConfig noFiles stepRand = .ok (t, rng') ∧
      ∀ p ∈ t.nodes, (p.1 : Int) < rangeConfig.DepthMax →
        rangeConfig.DegreeMin ≤ (p.2.Children.length : Int) ∧
          (p.2.Children.length : Int) ≤ rangeConfig.DegreeMax := by
  obtain ⟨t, rng', h⟩ := JsonGenerate_returns rangeConfig noFiles stepRand
    (by decide) (by decide) (by decide) (by decide) (by decide) (by decide) (by decide)
    (by decide) (by decide) (by decide) (by decide) (by decide)
  exact ⟨t, rng', h, JsonGenerate_degree rangeConfig noFiles stepRand t rng'
    (by decide) (by decide) (by decide) (by decide) h⟩

/-- Claim C9: for a configuration with `0 ≤ StrLenMin ≤ StrLenMax` (64-bit `int`s) and no
dictionary file, so that strings are pure random or come from the generated dictionary,
and any outcomes of the random source, every field key and every field value of the
returned tree has a length in `[StrLenMin, StrLenMax]`, and exactly `StrLenMin` when the
two bounds are equal. -/
theorem JsonGenerate_strlen (conf : JsonGenConfig)
    (readLines : GoString → Option (List GoString)) (rng : Rand)
    (t : JsonElement) (rng' : Rand)
    (hmin : 0 ≤ conf.StrLenMin) (hle : conf.StrLenMin ≤ conf.StrLenMax)
    (hmax : conf.StrLenMax < 2 ^ 63) (hfile : conf.DictFile = [])
    (hD64 : conf.DepthMax < 2 ^ 63)
    (h : JsonGenerate conf readLines rng = .ok (t, rng')) :
    ∀ p ∈ t.nodes, ∀ e ∈ p.2.Fields,
      (conf.StrLenMin ≤ (e.1.length : Int) ∧ (e.1.length : Int) ≤ conf.StrLenMax) ∧
      (conf.StrLenMin ≤ (e.2.length : Int) ∧ (e.2.length : Int) ≤ conf.StrLenMax) ∧
      (conf.StrLenMin = conf.StrLenMax →
        (e.1.length : Int) = conf.StrLenMin ∧ (e.2.length : Int) = conf.StrLenMin) := by
  obtain ⟨g, r1, hstr, hrec⟩ := JsonGenerate_inv h
  have hg := strGetter_len conf readLines hmin hle hmax hfile rng g r1 hstr
  have hall := jsonGenerateRec_nodes conf g
    (fun _ t => ∀ e ∈ t.Fields,
      (conf.StrLenMin ≤ (e.1.length : Int) ∧ (e.1.length : Int) ≤ conf.StrLenMax) ∧
      (conf.StrLenMin ≤ (e.2.length : Int) ∧ (e.2.length : Int) ≤ conf.StrLenMax))
    hD64 (fun fuel depth rng t rng' _ _ hh =>
      strlen_local conf g
        (fun s => conf.StrLenMin ≤ (s.length : Int) ∧ (s.length : Int) ≤ conf.StrLenMax)
        hg fuel depth rng t rng' hh)
    _ 0 r1 t rng' (le_refl _) (le_max_right _ _) hrec
  intro p hp e he
  have := hall p hp e he
  refine ⟨this.1, this.2, ?_⟩
  intro heq
  omega

/-- C9 at the configuration of the range `4-12`: a tree is returned and all its keys and
values have between 4 and 13 bytes. -/
theorem JsonGenerate_strlen_witness :
    ∃ t rng', JsonGenerate rangeConfig noFiles stepRand = .ok (t, rng') ∧
      ∀ p ∈ t.nodes, ∀ e ∈ p.2.Fields,
        (rangeConfig.StrLenMin ≤ (e.1.length : Int) ∧
          (e.1.length : Int) ≤ rangeConfig.StrLenMax) ∧
        (rangeConfig.StrLenMin ≤ (e.2.length : Int) ∧
          (e.2.length : Int) ≤ rangeConfig.StrLenMax) ∧
        (rangeConfig.StrLenMin = rangeConfig.StrLenMax →
          (e.1.length : Int) = rangeConfig.StrLenMin ∧
            (e.2.length : Int) = rangeConfig.StrLenMin) := by
  obtain ⟨t, rng', h⟩ := JsonGenerate_returns rangeConfig noFiles stepRand
    (by decide) (by decide) (by decide) (by decide) (by decide) (by decide) (by decide)
    (by decide) (by decide) (by decide) (by decide) (by decide)
  exact ⟨t, rng', h, JsonGenerate_strlen rangeConfig noFiles stepRand t rng'
    (by decide) (by decide) (by decide) (by decide) (by decide) h⟩

/-- Claim C7 (the code at the failing input): with three fields per node and a generated
dictionary of one word, for every outcome of the random source `JsonGenerate` returns a
root whose `Fields` map has one entry, fewer than `FieldsPerNodeMin = 3`: the three
assignments use the same key. -/
theorem JsonGenerate_fields_collapse (rng : Rand) :
    oneWordConfig.FieldsPerNodeMin = 3 ∧ oneWordConfig.FieldsPerNodeMax = 3 ∧
    ∃ t rng', JsonGenerate oneWordConfig noFiles rng = .ok (t, rng') ∧
      t.Fields.length = 1 := by
  obtain ⟨t, rng', h, hl, -⟩ := JsonGenerate_oneWord rng
  exact ⟨rfl, rfl, t, rng', h, hl⟩

/-! ## Theorems: parsing -/

theorem digitsValue_append (d : GoString) (c : Nat) :
    digitsValue (d ++ [c]) = digitsValue d * 10 + (c - 48) := by
  simp [digitsValue, List.foldl_append]

theorem decimalValue_append (d : GoString) (c : Nat) :
    decimalValue (d ++ [c]) = (c - 48) + 10 * decimalValue d := by
  simp [decimalValue, Nat.ofDigits_cons]

/-- The accumulation of `strconv` computes the positional value of a numeral. -/
theorem digitsValue_eq (d : GoString) : digitsValue d = decimalValue d := by
  induction d using List.reverseRecOn with
  | nil => simp [digitsValue, decimalValue]
  | append_singleton d c ih =>
    rw [digitsValue_append, decimalValue_append, ih]
    ring

theorem IsDecimal.all_isDigit {d : GoString} (h : IsDecimal d) : d.all isDigit = true := by
  rw [List.all_eq_true]
  intro c hc
  have := h.2 c hc
  simp [isDigit, this.1, this.2]

theorem IsDecimal.head {d : GoString} (h : IsDecimal d) :
    ∃ c rest, d = c :: rest ∧ 48 ≤ c ∧ c ≤ 57 := by
  obtain ⟨hne, hall⟩ := h
  cases d with
  | nil => exact absurd rfl hne
  | cons c rest => exact ⟨c, rest, rfl, hall c (List.mem_cons_self c rest)⟩

theorem ParseUint_decimal (d : GoString) (h : IsDecimal d) (hfit : decimalValue d < 2 ^ 64) :
    ParseUint d = .ok (decimalValue d) := by
  unfold ParseUint
  rw [if_neg h.1, if_pos h.all_isDigit, digitsValue_eq, if_pos hfit]

theorem Atoi_decimal (d : GoString) (h : IsDecimal d) (hfit : decimalValue d < 2 ^ 63) :
    Atoi d = .ok (decimalValue d : Int) := by
  obtain ⟨c, rest, rfl, hc1, hc2⟩ := h.head
  have h45 : ¬ ((c :: rest).head? = some 45) := by simp; omega
  have h43 : ¬ ((c :: rest).head? = some 43) := by simp; omega
  unfold Atoi
  simp only [h45, h43, decide_False, Bool.or_false, Bool.false_eq_true, if_false]
  rw [if_neg h.1, if_pos h.all_isDigit, digitsValue_eq, if_pos hfit]

theorem splitByte_nosep (sep : Nat) (d : GoString) (h : ∀ c ∈ d, c ≠ sep) :
    splitByte sep d = [d] := by
  induction d with
  | nil => rfl
  | cons c cs ih =>
    unfold splitByte
    rw [if_neg (h c (List.mem_cons_self c cs)), ih (fun x hx => h x (List.mem_cons_of_mem c hx))]

theorem splitByte_append (sep : Nat) (d rest : GoString) (h : ∀ c ∈ d, c ≠ sep) :
    splitByte sep (d ++ sep :: rest) = d :: splitByte sep rest := by
  induction d with
  | nil =>
    simp only [List.nil_append]
    rw [splitByte, if_pos rfl]
  | cons c cs ih =>
    simp only [List.cons_append]
    rw [splitByte, if_neg (h c (List.mem_cons_self c cs)),
      ih (fun x hx => h x (List.mem_cons_of_mem c hx))]

theorem IsDecimal.no_dash {d : GoString} (h : IsDecimal d) : ∀ c ∈ d, c ≠ 45 := by
  intro c hc
  have := h.2 c hc
  omega

theorem str_dash : str "-" = [45] := by decide

theorem natCast_lt_pow63 (n : Nat) (h : n < 2 ^ 63) : (n : Int) < 2 ^ 63 := by
  have : ((n : Nat) : Int) < ((2 ^ 63 : Nat) : Int) := Int.ofNat_lt.mpr h
  simpa using this

/-- The function `parseRange` on a range written with two decimal numerals. -/
theorem parseRange_decimal (dlo dhi : GoString) (hlo : IsDecimal dlo) (hhi : IsDecimal dhi)
    (hle : decimalValue dlo ≤ decimalValue dhi) (hfit : decimalValue dhi < 2 ^ 63 - 1) :
    parseRange (dlo ++ str "-" ++ dhi)
      = .ok ((decimalValue dlo : Int), (decimalValue dhi : Int) + 1) := by
  have hsplit : splitByte 45 (dlo ++ str "-" ++ dhi) = [dlo, dhi] := by
    rw [str_dash, List.append_assoc, List.singleton_append,
      splitByte_append 45 dlo dhi hlo.no_dash, splitByte_nosep 45 dhi hhi.no_dash]
  have hlo' : ((decimalValue dlo : Nat) : Int) ≤ (decimalValue dhi : Int) :=
    Int.ofNat_le.mpr hle
  have hhi' : ((decimalValue dhi + 1 : Nat) : Int) < 2 ^ 63 :=
    natCast_lt_pow63 _ (by omega)
  rw [Nat.cast_add, Nat.cast_one] at hhi'
  have h0 : (0 : Int) ≤ (decimalValue dlo : Int) := Int.natCast_nonneg _
  have ha1 := Atoi_decimal dlo hlo (by omega)
  have ha2 := Atoi_decimal dhi hhi (by omega)
  unfold parseRange
  simp only []
  rw [hsplit]
  rw [if_neg (show ¬ ([dlo, dhi].length ≠ 2) by simp)]
  rw [show [dlo, dhi].getD 0 [] = dlo from rfl]
  rw [show [dlo, dhi].getD 1 [] = dhi from rfl]
  rw [ha1, ok_bind, ha2, ok_bind]
  have hw : wrap64 ((decimalValue dhi : Int) + 1) = (decimalValue dhi : Int) + 1 :=
    wrap64_eq _ (by omega) (by omega)
  rw [hw]
  exact if_neg (by omega)

theorem GetRandRange_reaches (lo hi v : Int) (hlo : 0 ≤ lo) (h1 : lo ≤ v) (h2 : v < hi)
    (hhi : hi < 2 ^ 63) :
    ∃ rng rng', GetRandRange lo hi rng = .ok (v, rng') := by
  refine ⟨fun _ => (v - lo).toNat, fun _ => (v - lo).toNat, ?_⟩
  have hne : ¬ lo = hi := by omega
  have hw : wrap64 (hi - lo) = hi - lo := wrap64_eq _ (by omega) (by omega)
  have hpos : ¬ hi - lo ≤ 0 := by omega
  have hmod : (v - lo).toNat % (hi - lo).toNat = (v - lo).toNat :=
    Nat.mod_eq_of_lt (by omega)
  have hcast : (((v - lo).toNat : Nat) : Int) = v - lo := Int.toNat_of_nonneg (by omega)
  have hw2 : wrap64 (v - lo + lo) = v := by
    rw [wrap64_eq _ (by omega) (by omega)]; omega
  unfold GetRandRange
  rw [if_neg hne, hw]
  unfold Intn
  rw [if_neg hpos, ok_bind]
  simp only
  rw [hmod, hcast, hw2]

theorem ToUpper_upper (uni : GoString → GoString) (s : GoString) (h : ∀ c ∈ s, c < 97) :
    ToUpper uni s = s := by
  have hall : s.all (fun c => decide (c < 128)) = true := by
    rw [List.all_eq_true]
    intro c hc
    have := h c hc
    simp only [decide_eq_true_eq]
    omega
  unfold ToUpper
  rw [if_pos hall]
  have : ∀ c ∈ s, asciiUpper c = c := by
    intro c hc
    have := h c hc
    unfold asciiUpper
    rw [if_neg (by omega)]
  calc s.map asciiUpper = s.map id := List.map_congr_left this
    _ = s := List.map_id s

/-- The function `parseSpeed` on a decimal numeral followed by a unit letter `u`, one of
`K`, `M`, `G`, and the letter `B`. -/
theorem parseSpeed_unit (uni : GoString → GoString) (d : GoString) (hd : IsDecimal d)
    (u mult : Nat)
    (hu : (u = 75 ∧ mult = 1000) ∨ (u = 77 ∧ mult = 1000000) ∨ (u = 71 ∧ mult = 1000000000))
    (hfit : decimalValue d * mult < 2 ^ 64) :
    parseSpeed uni (d ++ [u, 66]) = .ok (decimalValue d * mult) := by
  have hu97 : u < 97 := by omega
  have hupper : ToUpper uni (d ++ [u, 66]) = d ++ [u, 66] := by
    apply ToUpper_upper
    intro c hc
    rcases List.mem_append.mp hc with hc | hc
    · have := hd.2 c hc
      omega
    · simp only [List.mem_cons, List.mem_singleton, List.not_mem_nil, or_false] at hc
      omega
  have hne : ¬ (d ++ [u, 66] = []) := by simp
  have hlast : (d ++ [u, 66]).getLast? = some 66 := by
    simp [List.getLast?_append]
  have hlen : (d ++ [u, 66]).length = d.length + 2 := by simp
  have hdpos : 0 < d.length := List.length_pos.mpr hd.1
  have hchar : (d ++ [u, 66]).getD ((d ++ [u, 66]).length - 2) 0 = u := by
    rw [hlen, Nat.add_sub_cancel, List.getD_eq_getElem?_getD,
      List.getElem?_append_right (le_refl _), Nat.sub_self]
    rfl
  have hmult : mult ≥ 1 := by omega
  have hval : decimalValue d < 2 ^ 64 := by
    calc decimalValue d = decimalValue d * 1 := (Nat.mul_one _).symm
      _ ≤ decimalValue d * mult := Nat.mul_le_mul_left _ hmult
      _ < 2 ^ 64 := hfit
  have hunit : speedUnit (d ++ [u, 66]) 66 = .ok (mult, d.length + 1) := by
    unfold speedUnit
    rw [if_pos rfl, if_neg (by omega : ¬ (d ++ [u, 66]).length ≤ 2)]
    simp only [hchar]
    rw [hlen]
    rcases hu with ⟨rfl, rfl⟩ | ⟨rfl, rfl⟩ | ⟨rfl, rfl⟩
    · rw [if_pos rfl]; rfl
    · rw [if_neg (by decide : ¬ (77 = 75)), if_pos rfl]; rfl
    · rw [if_neg (by decide : ¬ (71 = 75)), if_neg (by decide : ¬ (71 = 77)), if_pos rfl]; rfl
  have htake : (d ++ [u, 66]).take (d.length + 1 - 1) = d := by
    rw [Nat.add_sub_cancel, List.take_left]
  unfold parseSpeed
  rw [if_neg hne]
  simp only [hupper, hlast]
  rw [hunit, ok_bind]
  simp only
  rw [htake, ParseUint_decimal d hd hval, ok_bind, Nat.mod_eq_of_lt hfit]

/-! ## Claims C5, C6, C10: ranges and speeds -/

/-- Claim C5 (amended): for decimal numerals of non-negative integers `lo ≤ hi` with
`hi < 2^63 - 1`, `parseRange("lo-hi")` returns `(lo, hi + 1)`, and `GetRandRange(lo, hi + 1)`
returns for every outcome of the random source a value `r` with `lo ≤ r ≤ hi`, and every
value in `lo..hi` for some outcome. -/
theorem parseRange_draws (dlo dhi : GoString) (hlo : IsDecimal dlo) (hhi : IsDecimal dhi)
    (hle : decimalValue dlo ≤ decimalValue dhi) (hfit : decimalValue dhi < 2 ^ 63 - 1) :
    parseRange (dlo ++ str "-" ++ dhi)
        = .ok ((decimalValue dlo : Int), (decimalValue dhi : Int) + 1) ∧
      (∀ rng, ∃ r rng',
        GetRandRange (decimalValue dlo : Int) ((decimalValue dhi : Int) + 1) rng = .ok (r, rng') ∧
          (decimalValue dlo : Int) ≤ r ∧ r ≤ (decimalValue dhi : Int)) ∧
      (∀ r : Int, (decimalValue dlo : Int) ≤ r → r ≤ (decimalValue dhi : Int) →
        ∃ rng rng',
          GetRandRange (decimalValue dlo : Int) ((decimalValue dhi : Int) + 1) rng
            = .ok (r, rng')) := by
  have h0 : (0 : Int) ≤ (decimalValue dlo : Int) := Int.natCast_nonneg _
  have hle' : ((decimalValue dlo : Nat) : Int) ≤ (decimalValue dhi : Int) :=
    Int.ofNat_le.mpr hle
  have hhi' : ((decimalValue dhi + 1 : Nat) : Int) < 2 ^ 63 :=
    natCast_lt_pow63 _ (by omega)
  rw [Nat.cast_add, Nat.cast_one] at hhi'
  refine ⟨parseRange_decimal dlo dhi hlo hhi hle hfit, ?_, ?_⟩
  · intro rng
    obtain ⟨r, rng', h⟩ := GetRandRange_returns (decimalValue dlo : Int)
      ((decimalValue dhi : Int) + 1) rng h0 (by omega) hhi'
    have hr := GetRandRange_ok h0 (by omega) hhi' h
    exact ⟨r, rng', h, by omega, by omega⟩
  · intro r h1 h2
    exact GetRandRange_reaches _ _ r h0 h1 (by omega) hhi'

/-- The example of C5: `"4-6"` becomes `(4, 7)` and draws exactly 4, 5 and 6. -/
theorem parseRange_draws_witness :
    parseRange (str "4-6") = .ok (4, 7) ∧
      (∀ rng, ∃ r rng', GetRandRange 4 7 rng = .ok (r, rng') ∧ 4 ≤ r ∧ r ≤ 6) ∧
      (∀ r : Int, 4 ≤ r → r ≤ 6 → ∃ rng rng', GetRandRange 4 7 rng = .ok (r, rng')) :=
  parseRange_draws (str "4") (str "6") (by decide) (by decide) (by decide) (by decide)

/-- C5 as stated fails at the largest 64-bit integer: the upper bound
`9223372036854775807` overflows when it is incremented and the range is rejected. -/
theorem parseRange_draws_counterexample :
    IsDecimal (str "0") ∧ IsDecimal (str "9223372036854775807") ∧
    decimalValue (str "0") ≤ decimalValue (str "9223372036854775807") ∧
    parseRange (str "0" ++ str "-" ++ str "9223372036854775807") = .error := by
  refine ⟨by decide, by decide, by decide, by decide⟩

/-- Claim C6 (the code at the failing input): `parseRange` compares the minimum with the maximum
after incrementing the maximum, so a range whose written minimum is one more than its
written maximum is accepted: `"5-4"` returns `(5, 5)` without error. -/
theorem parseRange_inverted_accepted :
    parseRange (str "5-4") = .ok (5, 5) ∧ parseRange (str "1-0") = .ok (1, 1) := by
  refine ⟨by decide, by decide⟩

/-- Claim C10: for a decimal numeral `d` of value `v`, whatever the Unicode case tables,
`parseSpeed(d + "KB") = v * 1000`, `parseSpeed(d + "MB") = v * 1000000` and
`parseSpeed(d + "GB") = v * 1000000000`, each without error whenever the product fits 64
unsigned bits. -/
theorem parseSpeed_decimal_units (uni : GoString → GoString) (d : GoString)
    (hd : IsDecimal d) :
    (decimalValue d * 1000 < 2 ^ 64 →
      parseSpeed uni (d ++ str "KB") = .ok (decimalValue d * 1000)) ∧
    (decimalValue d * 1000000 < 2 ^ 64 →
      parseSpeed uni (d ++ str "MB") = .ok (decimalValue d * 1000000)) ∧
    (decimalValue d * 1000000000 < 2 ^ 64 →
      parseSpeed uni (d ++ str "GB") = .ok (decimalValue d * 1000000000)) := by
  refine ⟨fun h => ?_, fun h => ?_, fun h => ?_⟩
  · rw [show str "KB" = [75, 66] by decide]
    exact parseSpeed_unit uni d hd 75 1000 (Or.inl ⟨rfl, rfl⟩) h
  · rw [show str "MB" = [77, 66] by decide]
    exact parseSpeed_unit uni d hd 77 1000000 (Or.inr (Or.inl ⟨rfl, rfl⟩)) h
  · rw [show str "GB" = [71, 66] by decide]
    exact parseSpeed_unit uni d hd 71 1000000000 (Or.inr (Or.inr ⟨rfl, rfl⟩)) h

/-- The examples of C10 from `TestBenchCmd`: `"128KB"` is 128000 bytes per second, `"256MB"`
is 256000000 and `"10GB"` is 10000000000. -/
theorem parseSpeed_decimal_units_witness :
    parseSpeed id (str "128KB") = .ok 128000 ∧
    parseSpeed id (str "256MB") = .ok 256000000 ∧
    parseSpeed id (str "10GB") = .ok 10000000000 :=
  ⟨(parseSpeed_decimal_units id (str "128") (by decide)).1 (by decide),
   (parseSpeed_decimal_units id (str "256") (by decide)).2.1 (by decide),
   (parseSpeed_decimal_units id (str "10") (by decide)).2.2 (by decide)⟩

/-! ## Theorems: `parseSpeed` without a recognised unit -/

/-- On a string without lower-case letters and non-ASCII bytes `parseSpeed` does not
consult the Unicode case tables. -/
theorem parseSpeed_upper_indep (uni : GoString → GoString) (s : GoString)
    (h : ∀ c ∈ s, c < 97) : parseSpeed uni s = parseSpeed id s := by
  unfold parseSpeed
  rw [ToUpper_upper uni s h, ToUpper_upper id s h]

/-- Without the suffix `B` the last byte of the string is dropped and what stands before
it is parsed as the number. -/
theorem parseSpeed_no_unit (uni : GoString → GoString) (d : GoString) (c : Nat)
    (hd : IsDecimal d) (hc : c < 97) (hB : c ≠ 66) (hfit : decimalValue d < 2 ^ 64) :
    parseSpeed uni (d ++ [c]) = .ok (decimalValue d) := by
  have hupper : ToUpper uni (d ++ [c]) = d ++ [c] := by
    apply ToUpper_upper
    intro x hx
    rcases List.mem_append.mp hx with hx | hx
    · have := hd.2 x hx
      omega
    · simp only [List.mem_singleton] at hx
      omega
  have hne : ¬ (d ++ [c] = []) := by simp
  have hlast : (d ++ [c]).getLast? = some c := by simp
  have hunit : speedUnit (d ++ [c]) c = .ok (1, (d ++ [c]).length) := by
    unfold speedUnit
    rw [if_neg hB]
  have htake : (d ++ [c]).take ((d ++ [c]).length - 1) = d := by
    rw [List.length_append, List.length_singleton, Nat.add_sub_cancel, List.take_left]
  unfold parseSpeed
  rw [if_neg hne]
  simp only [hupper, hlast]
  rw [hunit, ok_bind]
  simp only
  rw [htake, ParseUint_decimal d hd hfit, ok_bind, Nat.mul_one, Nat.mod_eq_of_lt hfit]

/-- With a unit letter `K`, `M` or `G` before the `B` the product of the number and the
multiplier is reduced modulo `2^64`, whether it fits or not. -/
theorem parseSpeed_unit_wrap (uni : GoString → GoString) (d : GoString) (hd : IsDecimal d)
    (u mult : Nat)
    (hu : (u = 75 ∧ mult = 1000) ∨ (u = 77 ∧ mult = 1000000) ∨ (u = 71 ∧ mult = 1000000000))
    (hval : decimalValue d < 2 ^ 64) :
    parseSpeed uni (d ++ [u, 66]) = .ok ((decimalValue d * mult) % 2 ^ 64) := by
  have hu97 : u < 97 := by omega
  have hupper : ToUpper uni (d ++ [u, 66]) = d ++ [u, 66] := by
    apply ToUpper_upper
    intro c hc
    rcases List.mem_append.mp hc with hc | hc
    · have := hd.2 c hc
      omega
    · simp only [List.mem_cons, List.mem_singleton, List.not_mem_nil, or_false] at hc
      omega
  have hne : ¬ (d ++ [u, 66] = []) := by simp
  have hlast : (d ++ [u, 66]).getLast? = some 66 := by
    simp [List.getLast?_append]
  have hlen : (d ++ [u, 66]).length = d.length + 2 := by simp
  have hdpos : 0 < d.length := List.length_pos.mpr hd.1
  have hchar : (d ++ [u, 66]).getD ((d ++ [u, 66]).length - 2) 0 = u := by
    rw [hlen, Nat.add_sub_cancel, List.getD_eq_getElem?_getD,
      List.getElem?_append_right (le_refl _), Nat.sub_self]
    rfl
  have hunit : speedUnit (d ++ [u, 66]) 66 = .ok (mult, d.length + 1) := by
    unfold speedUnit
    rw [if_pos rfl, if_neg (by omega : ¬ (d ++ [u, 66]).length ≤ 2)]
    simp only [hchar]
    rw [hlen]
    rcases hu with ⟨rfl, rfl⟩ | ⟨rfl, rfl⟩ | ⟨rfl, rfl⟩
    · rw [if_pos rfl]; rfl
    · rw [if_neg (by decide : ¬ (77 = 75)), if_pos rfl]; rfl
    · rw [if_neg (by decide : ¬ (71 = 75)), if_neg (by decide : ¬ (71 = 77)), if_pos rfl]; rfl
  have htake : (d ++ [u, 66]).take (d.length + 1 - 1) = d := by
    rw [Nat.add_sub_cancel, List.take_left]
  unfold parseSpeed
  rw [if_neg hne]
  simp only [hupper, hlast]
  rw [hunit, ok_bind]
  simp only
  rw [htake, ParseUint_decimal d hd hval, ok_bind]

/-! ## Claims C11 to C13: `parseSpeed` -/

/-- Claim C11 (the code at the failing input): without a unit suffix `parseSpeed` parses
`upper[:len-1]`, the string without its last digit: `parseSpeed("1000")` is 100, not 1000,
and a single digit such as `"5"` is an error, whatever the Unicode case tables. -/
theorem parseSpeed_drops_last_digit (uni : GoString → GoString) :
    parseSpeed uni (str "1000") = .ok 100 ∧ parseSpeed uni (str "5") = .error := by
  constructor
  · rw [parseSpeed_upper_indep uni (str "1000") (by decide)]
    decide
  · rw [parseSpeed_upper_indep uni (str "5") (by decide)]
    decide

/-- Claim C12 (the code at the failing input): `parseSpeed` multiplies in `uint64` without a
check.  For `"100000000000GB"` the number `10^11` parses, the product `10^20` exceeds
`2^64 - 1`, and the function returns the product modulo `2^64` with a nil error. -/
theorem parseSpeed_wraps (uni : GoString → GoString) :
    parseSpeed uni (str "100000000000GB") = .ok 7766279631452241920 ∧
    decimalValue (str "100000000000") * 1000000000 > 2 ^ 64 - 1 ∧
    decimalValue (str "100000000000") * 1000000000 % 2 ^ 64 = 7766279631452241920 := by
  refine ⟨?_, by decide, by decide⟩
  rw [parseSpeed_upper_indep uni (str "100000000000GB") (by decide)]
  decide

/-- Claim C13 (the code at the failing input): a number followed by one byte that is not
`B` is accepted, the byte being dropped: `"10X"`, `"10K"` and `"10 "` all return 10 with
a nil error, whatever the Unicode case tables. -/
theorem parseSpeed_accepts_unknown_unit (uni : GoString → GoString) :
    parseSpeed uni (str "10X") = .ok 10 ∧ parseSpeed uni (str "10K") = .ok 10 ∧
    parseSpeed uni (str "10 ") = .ok 10 ∧ parseSpeed uni (str "10 B") = .error := by
  refine ⟨?_, ?_, ?_, ?_⟩
  · rw [parseSpeed_upper_indep uni (str "10X") (by decide)]
    decide
  · rw [parseSpeed_upper_indep uni (str "10K") (by decide)]
    decide
  · rw [parseSpeed_upper_indep uni (str "10 ") (by decide)]
    decide
  · rw [parseSpeed_upper_indep uni (str "10 B") (by decide)]
    decide

/-! ## Theorems: names and bounds of the aggregate -/

theorem findMedianInt_ok (l : List Int) (hne : l ≠ []) : ∃ v, findMedianInt l = .ok v := by
  have hpos : 0 < l.length := List.length_pos.mpr hne
  have hlen := SortFunc_length (fun a b => wrap64 (a - b)) l
  unfold findMedianInt
  simp only
  set s := SortFunc l (fun a b => wrap64 (a - b)) with hs
  by_cases hev : s.length % 2 = 0
  · simp only [hev, if_true]
    have hn0 : s.length ≠ 0 := by omega
    simp only [hn0, if_false]
    rw [index_lt s (s.length / 2 - 1) 0 (by omega), index_lt s (s.length / 2) 0 (by omega)]
    exact ⟨_, rfl⟩
  · simp only [hev, if_false]
    rw [index_lt s (s.length / 2) 0 (by omega)]
    exact ⟨_, rfl⟩

theorem findMedianTime_ok (l : List Int) (hne : l ≠ []) : ∃ v, findMedianTime l = .ok v :=
  findMedianInt_ok l hne

theorem aggregateLibrary_name (trials : List (List BenchmarkResult))
    (first : List BenchmarkResult) (i : Nat) (hne : trials ≠ []) (hfirst : i < first.length)
    (h : ∀ t ∈ trials, i < t.length) :
    ∃ r, aggregateLibrary trials first i = .ok r ∧
      (first[i]?).map (·.Name) = some r.Name := by
  have hcol := collectColumn_eq i trials h
  have hcne := column_ne_nil i trials hne h
  obtain ⟨v1, h1⟩ := findMedianTime_ok ((column i trials).map (·.CompressTime))
    (by simpa using hcne)
  obtain ⟨v2, h2⟩ := findMedianTime_ok ((column i trials).map (·.DecompressTime))
    (by simpa using hcne)
  obtain ⟨v3, h3⟩ := findMedianInt_ok ((column i trials).map (·.CompressedSize))
    (by simpa using hcne)
  obtain ⟨v4, h4⟩ := findMedianFloat64_ok ((column i trials).map (·.Ratio)) (by simpa using hcne)
  unfold aggregateLibrary
  rw [index_lt first i ⟨[], 0, 0, 0, F64.nan⟩ hfirst, hcol]
  simp only [bind_ok]
  unfold column at h1 h2 h3 h4
  rw [h1, h2, h3, h4]
  simp only [bind_ok, pure_eq_ok]
  refine ⟨_, rfl, ?_⟩
  rw [List.getElem?_eq_getElem hfirst, List.getD_eq_getElem _ _ hfirst]
  rfl

theorem names_of_forall₂ (first out : List BenchmarkResult)
    (h : List.Forall₂ (fun id r => (first[id]?).map (·.Name) = some r.Name)
      (List.range first.length) out) :
    out.length = first.length ∧ out.map (·.Name) = first.map (·.Name) := by
  have hlen : out.length = first.length := by
    have := h.length_eq
    simpa using this.symm
  refine ⟨hlen, ?_⟩
  apply List.ext_getElem?
  intro i
  by_cases hi : i < first.length
  · obtain ⟨r, hr, hP⟩ := forall₂_range_get _ first.length out h i hi
    rw [List.getElem?_map, List.getElem?_map, hr, hP]
    rfl
  · rw [List.getElem?_eq_none (by simp; omega), List.getElem?_eq_none (by simp; omega)]

theorem tdiv_two_between (a b : Int) (h : a ≤ b) :
    a ≤ (a + b).tdiv 2 ∧ (a + b).tdiv 2 ≤ b := by
  rcases le_or_lt 0 (a + b) with hs | hs
  · rw [Int.tdiv_eq_ediv hs (by norm_num)]
    omega
  · have h1 : (a + b).tdiv 2 = -((-(a + b)).tdiv 2) := by
      rw [Int.neg_tdiv, neg_neg]
    rw [h1, Int.tdiv_eq_ediv (by omega) (by norm_num)]
    omega

theorem foldl_min_le (l : List Int) : ∀ (init : Int),
    l.foldl min init ≤ init ∧ ∀ v ∈ l, l.foldl min init ≤ v := by
  induction l with
  | nil => intro init; simp
  | cons x xs ih =>
    intro init
    simp only [List.foldl_cons]
    obtain ⟨h1, h2⟩ := ih (min init x)
    refine ⟨le_trans h1 (min_le_left _ _), ?_⟩
    intro v hv
    rcases List.mem_cons.mp hv with rfl | hv
    · exact le_trans h1 (min_le_right _ _)
    · exact h2 v hv

theorem le_foldl_max (l : List Int) : ∀ (init : Int),
    init ≤ l.foldl max init ∧ ∀ v ∈ l, v ≤ l.foldl max init := by
  induction l with
  | nil => intro init; simp
  | cons x xs ih =>
    intro init
    simp only [List.foldl_cons]
    obtain ⟨h1, h2⟩ := ih (max init x)
    refine ⟨le_trans (le_max_left _ _) h1, ?_⟩
    intro v hv
    rcases List.mem_cons.mp hv with rfl | hv
    · exact le_trans (le_max_right _ _) h1
    · exact h2 v hv

theorem listMin_le (l : List Int) (v : Int) (hv : v ∈ l) : listMin l ≤ v :=
  (foldl_min_le l _).2 v hv

theorem le_listMax (l : List Int) (v : Int) (hv : v ∈ l) : v ≤ listMax l :=
  (le_foldl_max l _).2 v hv

/-- The median of a non-empty list lies between its smallest and its largest element. -/
theorem median_between (l : List Int) (hne : l ≠ []) :
    listMin l ≤ median l ∧ median l ≤ listMax l := by
  have hperm := List.perm_insertionSort (· ≤ ·) l
  have hsorted := List.sorted_insertionSort (· ≤ ·) l
  have hlen : (l.insertionSort (· ≤ ·)).length = l.length := List.length_insertionSort _ l
  have hpos : 0 < l.length := List.length_pos.mpr hne
  unfold median middleOfSorted
  set s := l.insertionSort (· ≤ ·) with hs
  have hmem : ∀ i (hi : i < s.length), s.getD i 0 ∈ l := by
    intro i hi
    rw [List.getD_eq_getElem _ _ hi]
    exact hperm.mem_iff.mp (List.getElem_mem _)
  by_cases hev : s.length % 2 = 0
  · simp only [hev, if_true]
    have hi1 : s.length / 2 - 1 < s.length := by omega
    have hi2 : s.length / 2 < s.length := by omega
    have hle : s.getD (s.length / 2 - 1) 0 ≤ s.getD (s.length / 2) 0 := by
      rw [List.getD_eq_getElem _ _ hi1, List.getD_eq_getElem _ _ hi2]
      have hfin : (⟨s.length / 2 - 1, hi1⟩ : Fin s.length) ≤ ⟨s.length / 2, hi2⟩ :=
        Fin.mk_le_mk.mpr (Nat.sub_le _ _)
      exact hsorted.rel_get_of_le hfin
    have hb := tdiv_two_between _ _ hle
    have h1 := listMin_le l _ (hmem _ hi1)
    have h2 := le_listMax l _ (hmem _ hi2)
    omega
  · simp only [hev, if_false]
    have hi2 : s.length / 2 < s.length := by omega
    exact ⟨listMin_le l _ (hmem _ hi2), le_listMax l _ (hmem _ hi2)⟩

/-! ## Claims C14 to C20 -/

/-- Claim C14: for a non-empty sequence of trials in which every trial has at least as many
results as the first, `aggregateResults` returns exactly `len(trials[0])` results, and
the result at index `i` carries the `Name` of `trials[0][i]`: the names of the output are
the names of the first trial, in its order. -/
theorem aggregateResults_names (first : List BenchmarkResult)
    (rest : List (List BenchmarkResult))
    (h : ∀ t ∈ first :: rest, first.length ≤ t.length) :
    ∃ out, aggregateResults (first :: rest) = .ok out ∧ out.length = first.length ∧
      out.map (·.Name) = first.map (·.Name) := by
  have hall : ∀ id ∈ List.range first.length,
      ∃ r, aggregateLibrary (first :: rest) first id = .ok r ∧
        (fun id r => (first[id]?).map (·.Name) = some r.Name) id r := by
    intro id hid
    have hid' : id < first.length := List.mem_range.mp hid
    exact aggregateLibrary_name (first :: rest) first id (List.cons_ne_nil _ _) hid'
      (fun t ht => lt_of_lt_of_le hid' (h t ht))
  obtain ⟨out, hout, hf⟩ := aggregateLoop_ok (first :: rest) first _ _ hall
  obtain ⟨hlen, hnames⟩ := names_of_forall₂ first out hf
  exact ⟨out, hout, hlen, hnames⟩

/-- The example of C14: the second trial lists the libraries in another order and has one
more result; the output has the two names of the first trial in its order. -/
theorem aggregateResults_names_witness :
    ∃ out, aggregateResults mixedTrials = .ok out ∧ out.length = 2 ∧
      out.map (·.Name) = [str "gzip", str "zstd"] :=
  aggregateResults_names [named "gzip" 10 20 5, named "zstd" 1 2 3]
    [[named "zstd" 3 4 5, named "gzip" 30 40 7, named "zlib" 9 9 9]] (by decide)

/-- Claim C15 (amended): for a non-empty list of integers or durations whose elements `v`
all satisfy `-2^62 ≤ v < 2^62`, `findMedianInt` and `findMedianTime` return the middle
element of the list sorted ascending when the length is odd, and the mean of the two
middle elements, rounded toward zero, when it is even; the result lies between the
smallest and the largest element of the list. -/
theorem findMedian_middle (l : List Int) (hne : l ≠ []) (hmod : ∀ v ∈ l, Moderate v) :
    findMedianInt l = .ok (median l) ∧ findMedianTime l = .ok (median l) ∧
      listMin l ≤ median l ∧ median l ≤ listMax l :=
  ⟨findMedianInt_eq l hne hmod, findMedianTime_eq l hne hmod, median_between l hne⟩

/-- The examples of C15: `[5, -3, 9, 0]` has the median 2, the mean 2.5 of 0 and 5 rounded
toward zero, and `[-4, -1]` has the median -2. -/
theorem findMedian_middle_witness :
    (findMedianInt [5, -3, 9, 0] = .ok (median [5, -3, 9, 0]) ∧
      findMedianTime [5, -3, 9, 0] = .ok (median [5, -3, 9, 0]) ∧
      listMin [5, -3, 9, 0] ≤ median [5, -3, 9, 0] ∧
      median [5, -3, 9, 0] ≤ listMax [5, -3, 9, 0]) ∧
    median [5, -3, 9, 0] = 2 ∧ median [-4, -1] = -2 ∧ median [7, 1, 3] = 3 :=
  ⟨findMedian_middle [5, -3, 9, 0] (by decide) (by decide), by decide, by decide, by decide⟩

/-- C15 as stated fails where 64-bit arithmetic overflows: the two durations `2^62` have
the mean `2^62`, and `findMedianTime` and `findMedianInt` return `-2^62`, which is below
the smallest element. -/
theorem findMedian_middle_counterexample :
    findMedianTime [2 ^ 62, 2 ^ 62] = .ok (-2 ^ 62) ∧
    findMedianInt [2 ^ 62, 2 ^ 62] = .ok (-2 ^ 62) ∧
    median [2 ^ 62, 2 ^ 62] = 2 ^ 62 ∧ listMin [2 ^ 62, 2 ^ 62] = 2 ^ 62 := by
  refine ⟨by decide, by decide, by decide, by decide⟩

/-- Claim C17: for every result and every `n`, `GetBatchTime(n, 0)` is 0. -/
theorem GetBatchTime_zero_speed (br : BenchmarkResult) (n : Int) :
    br.GetBatchTime n 0 = 0 := by
  unfold BenchmarkResult.GetBatchTime
  rw [if_pos rfl]

/-- Claim C18: `aggregateResults` on the empty sequence of trials returns the empty (nil)
result and neither an error nor a panic. -/
theorem aggregateResults_empty : aggregateResults [] = .ok [] := rfl

/-- Claim C19 (the code at the failing input): `runBenchmark` assigns the error of
`getCountFlag` to the blank identifier.  For a count of 0 or of -3, whatever the
collaborators, `getCountFlag` reports an error, and `runBenchmark` acquires no input, runs
no benchmarker, calls `printResults` with an empty input and no results, and returns the
`nil` error. -/
theorem runBenchmark_ignores_count_error (uni : GoString → GoString) (w : World) :
    (getCountFlag zeroCountFlags).2 = true ∧
    runBenchmark uni w zeroCountFlags = ([Event.print [] defaultPrintOptions []], .ok ()) ∧
    (getCountFlag negativeCountFlags).2 = true ∧
    runBenchmark uni w negativeCountFlags
      = ([Event.print [] defaultPrintOptions []], .ok ()) :=
  ⟨rfl, rfl, rfl, rfl⟩

/-- Claim C20: for every integer `m`, `GetRandRange(m, m)` returns `m` and leaves the random
source as it was: no outcome is drawn. -/
theorem GetRandRange_degenerate (m : Int) (rng : Rand) :
    GetRandRange m m rng = .ok (m, rng) := by
  unfold GetRandRange
  rw [if_pos rfl]

/-! ## Theorems: the fuel of `jsonGenerateRec` -/

theorem bind_ne_error {α β : Type} (x : Res α) (f : α → Res β) (hx : x ≠ .error)
    (hf : ∀ a, x = .ok a → f a ≠ .error) : x.bind f ≠ .error := by
  cases x with
  | ok a => exact hf a rfl
  | error => exact absurd rfl hx
  | panic => simp [Res.bind]

theorem bind_congr_ok {α β : Type} (x : Res α) (f g : α → Res β)
    (h : ∀ a, x = .ok a → f a = g a) : x.bind f = x.bind g := by
  cases x with
  | ok a => exact h a rfl
  | error => rfl
  | panic => rfl

theorem Intn_ne_error (n : Int) (rng : Rand) : Intn n rng ≠ .error := by
  unfold Intn
  split_ifs <;> simp

theorem GetRandRange_ne_error (lo hi : Int) (rng : Rand) : GetRandRange lo hi rng ≠ .error := by
  unfold GetRandRange
  split_ifs
  · simp
  · exact bind_ne_error _ _ (Intn_ne_error _ _) (fun _ _ => by simp)

theorem GetRandLowercase_ne_error (rng : Rand) : GetRandLowercase rng ≠ .error := by
  unfold GetRandLowercase
  exact bind_ne_error _ _ (GetRandRange_ne_error _ _ _) (fun _ _ => by simp)

theorem randCharsLoop_ne_error (k : Nat) : ∀ rng : Rand, randCharsLoop k rng ≠ .error := by
  induction k with
  | zero => intro rng; simp [randCharsLoop]
  | succ k ih =>
    intro rng
    unfold randCharsLoop
    exact bind_ne_error _ _ (GetRandLowercase_ne_error _)
      (fun p _ => bind_ne_error _ _ (ih p.2) (fun _ _ => by simp))

theorem RandNChars_ne_error (n : Int) (rng : Rand) : RandNChars n rng ≠ .error := by
  unfold RandNChars
  split_ifs
  · simp
  · exact randCharsLoop_ne_error _ _

theorem index_ne_error {α : Type} (xs : List α) (i : Nat) : index xs i ≠ .error := by
  unfold index
  split <;> simp

theorem dictGetter_ne_error (dict : List GoString) (rng : Rand) :
    dictGetter dict rng ≠ .error := by
  unfold dictGetter
  apply bind_ne_error _ _ (GetRandRange_ne_error _ _ _)
  intro p _
  split_ifs
  · simp
  · exact bind_ne_error _ _ (index_ne_error _ _) (fun _ _ => by simp)

theorem randomGetter_ne_error (conf : JsonGenConfig) (rng : Rand) :
    randomGetter conf rng ≠ .error := by
  unfold randomGetter
  exact bind_ne_error _ _ (GetRandRange_ne_error _ _ _) (fun p _ => RandNChars_ne_error _ _)

/-- The getters that `strGetter` builds are closures `func() string`: they return a string
or panic, never an error. -/
theorem strGetter_ne_error (conf : JsonGenConfig) (readLines : GoString → Option (List GoString))
    (rng : Rand) (getStr : StrGetter) (r1 : Rand)
    (h : strGetter conf readLines rng = .ok (getStr, r1)) :
    ∀ r, getStr r ≠ .error := by
  unfold strGetter at h
  split_ifs at h with hfile hsize
  · split at h
    · simp at h
    · simp only [Res.ok.injEq, Prod.mk.injEq] at h
      obtain ⟨rfl, -⟩ := h
      exact dictGetter_ne_error _
  · obtain ⟨p, -, h⟩ := Res.bind_eq_ok h
    simp only [Res.ok.injEq, Prod.mk.injEq] at h
    obtain ⟨rfl, -⟩ := h
    exact dictGetter_ne_error _
  · simp only [Res.ok.injEq, Prod.mk.injEq] at h
    obtain ⟨rfl, -⟩ := h
    exact randomGetter_ne_error _

theorem fieldsLoop_ne_error (getStr : StrGetter) (hget : ∀ r, getStr r ≠ .error) (k : Nat) :
    ∀ (m : List (GoString × GoString)) (rng : Rand), fieldsLoop getStr k m rng ≠ .error := by
  induction k with
  | zero => intro m rng; simp [fieldsLoop]
  | succ k ih =>
    intro m rng
    unfold fieldsLoop
    exact bind_ne_error _ _ (hget _)
      (fun key _ => bind_ne_error _ _ (hget _) (fun val _ => ih _ _))

theorem childrenLoop_ne_error (child : Rand → Res (JsonElement × Rand))
    (hchild : ∀ r, child r ≠ .error) (k : Nat) :
    ∀ rng : Rand, childrenLoop child k rng ≠ .error := by
  induction k with
  | zero => intro rng; simp [childrenLoop]
  | succ k ih =>
    intro rng
    unfold childrenLoop
    exact bind_ne_error _ _ (hchild _)
      (fun c _ => bind_ne_error _ _ (ih _) (fun _ _ => by simp))

theorem numChildrenGetter_ne_error (conf : JsonGenConfig) (depth : Int) (rng : Rand) :
    numChildrenGetter conf depth rng ≠ .error := by
  unfold numChildrenGetter
  split_ifs
  · simp
  · exact GetRandRange_ne_error _ _ _

/-- The fuel is not exhausted: with more fuel than levels left down to `DepthMax`, the
outcome of the recursion is never the marker of exhausted fuel. -/
theorem jsonGenerateRec_ne_error (conf : JsonGenConfig) (getStr : StrGetter)
    (hget : ∀ r, getStr r ≠ .error) (hD64 : conf.DepthMax < 2 ^ 63) (fuel : Nat) :
    ∀ (depth : Int) (rng : Rand), 0 ≤ depth → (conf.DepthMax - depth).toNat < fuel →
      jsonGenerateRec conf getStr fuel depth rng ≠ .error := by
  induction fuel with
  | zero => intro depth rng _ h; omega
  | succ fuel ih =>
    intro depth rng h0 hfuel
    unfold jsonGenerateRec numFieldsGetter
    apply bind_ne_error _ _ (GetRandRange_ne_error _ _ _)
    intro nf _
    apply bind_ne_error
    · split_ifs
      · exact fieldsLoop_ne_error getStr hget _ _ _
      · simp
    intro fs _
    apply bind_ne_error _ _ (numChildrenGetter_ne_error _ _ _)
    intro nc hnc
    apply bind_ne_error
    · split_ifs with hpos
      · have hlt := numChildrenGetter_pos (show _ = Res.ok (nc.1, nc.2) from hnc) hpos
        have hw : wrap64 (depth + 1) = depth + 1 := wrap64_eq _ (by omega) (by omega)
        rw [hw]
        exact childrenLoop_ne_error _ (fun r => ih (depth + 1) r (by omega) (by omega)) _ _
      · simp
    intro cs _
    simp

/-- More fuel than levels left down to `DepthMax` changes nothing. -/
theorem jsonGenerateRec_fuel (conf : JsonGenConfig) (getStr : StrGetter)
    (hD64 : conf.DepthMax < 2 ^ 63) (fuel : Nat) :
    ∀ (depth : Int) (rng : Rand), 0 ≤ depth → (conf.DepthMax - depth).toNat < fuel →
      jsonGenerateRec conf getStr (fuel + 1) depth rng
        = jsonGenerateRec conf getStr fuel depth rng := by
  induction fuel with
  | zero => intro depth rng _ h; omega
  | succ fuel ih =>
    intro depth rng h0 hfuel
    rw [jsonGenerateRec, jsonGenerateRec]
    apply bind_congr_ok
    intro nf _
    apply bind_congr_ok
    intro fs _
    apply bind_congr_ok
    intro nc hnc
    by_cases hpos : nc.1 ≥ 1
    · have hlt := numChildrenGetter_pos (show _ = Res.ok (nc.1, nc.2) from hnc) hpos
      have hw : wrap64 (depth + 1) = depth + 1 := wrap64_eq _ (by omega) (by omega)
      have hchild : jsonGenerateRec conf getStr (fuel + 1) (wrap64 (depth + 1))
          = jsonGenerateRec conf getStr fuel (wrap64 (depth + 1)) := by
        funext r
        rw [hw]
        exact ih (depth + 1) r (by omega) (by omega)
      rw [hchild]
    · rw [if_neg hpos, if_neg hpos]

theorem jsonGenerateRec_fuel_add (conf : JsonGenConfig) (getStr : StrGetter)
    (hD64 : conf.DepthMax < 2 ^ 63) (fuel : Nat) (depth : Int) (rng : Rand) (h0 : 0 ≤ depth)
    (hfuel : (conf.DepthMax - depth).toNat < fuel) (k : Nat) :
    jsonGenerateRec conf getStr (fuel + k) depth rng
      = jsonGenerateRec conf getStr fuel depth rng := by
  induction k with
  | zero => rfl
  | succ k ih =>
    rw [← Nat.add_assoc, jsonGenerateRec_fuel conf getStr hD64 (fuel + k) depth rng h0
      (by omega), ih]

/-- Claim C26: for every configuration (`DepthMax` a 64-bit `int`, zero and negative values
included), every getter built by `strGetter` and every outcome of the random source, the
recursion `jsonGenerateRec` started at depth 0 finishes within `max(DepthMax, 0) + 1`
nested calls, the root call and at most `max(DepthMax, 0)` calls below it: with that fuel
the outcome is not the marker of exhausted fuel, and any further fuel leaves the outcome
unchanged. -/
theorem jsonGenerateRec_terminates (conf : JsonGenConfig)
    (readLines : GoString → Option (List GoString)) (rng : Rand) (getStr : StrGetter)
    (r1 : Rand) (hD64 : conf.DepthMax < 2 ^ 63)
    (hstr : strGetter conf readLines rng = .ok (getStr, r1)) :
    ∀ r : Rand,
      jsonGenerateRec conf getStr ((max conf.DepthMax 0).toNat + 1) 0 r ≠ .error ∧
      ∀ k : Nat, jsonGenerateRec conf getStr ((max conf.DepthMax 0).toNat + 1 + k) 0 r
        = jsonGenerateRec conf getStr ((max conf.DepthMax 0).toNat + 1) 0 r := by
  intro r
  have hget := strGetter_ne_error conf readLines rng getStr r1 hstr
  have hfuel : (conf.DepthMax - 0).toNat < (max conf.DepthMax 0).toNat + 1 := by omega
  exact ⟨jsonGenerateRec_ne_error conf getStr hget hD64 _ 0 r (le_refl _) hfuel,
    fun k => jsonGenerateRec_fuel_add conf getStr hD64 _ 0 r (le_refl _) hfuel k⟩

/-- C26 at a negative `DepthMax` of `-2`: one call, the root, is all the recursion
needs. -/
theorem jsonGenerateRec_terminates_witness :
    jsonGenerateRec negativeDepthConfig (randomGetter negativeDepthConfig) 1 0 stepRand
        ≠ .error ∧
      ∀ k : Nat, jsonGenerateRec negativeDepthConfig (randomGetter negativeDepthConfig)
          (1 + k) 0 stepRand
        = jsonGenerateRec negativeDepthConfig (randomGetter negativeDepthConfig) 1 0 stepRand :=
  jsonGenerateRec_terminates negativeDepthConfig noFiles zeroRand
    (randomGetter negativeDepthConfig) zeroRand (by decide) rfl stepRand

/-! ## Theorems: the alphabet and the dictionaries -/

/-- A returned `GetRandLowercase()` is one of the bytes 97 to 121. -/
theorem GetRandLowercase_range {rng : Rand} {c : Nat} {rng' : Rand}
    (h : GetRandLowercase rng = .ok (c, rng')) : 97 ≤ c ∧ c ≤ 121 := by
  unfold GetRandLowercase at h
  obtain ⟨⟨v, r⟩, hv, h⟩ := Res.bind_eq_ok h
  have hr := GetRandRange_ok (show (0 : Int) ≤ 97 by norm_num) (show (97 : Int) ≤ 122 by norm_num)
    (show (122 : Int) < 2 ^ 63 by norm_num) hv
  simp only [Res.ok.injEq, Prod.mk.injEq] at h
  obtain ⟨rfl, -⟩ := h
  omega

theorem randCharsLoop_all (k : Nat) : ∀ (rng : Rand) (s : GoString) (rng' : Rand),
    randCharsLoop k rng = .ok (s, rng') → ∀ c ∈ s, 97 ≤ c ∧ c ≤ 121 := by
  induction k with
  | zero =>
    intro rng s rng' h
    simp only [randCharsLoop, Res.ok.injEq, Prod.mk.injEq] at h
    rw [← h.1]
    simp
  | succ k ih =>
    intro rng s rng' h
    unfold randCharsLoop at h
    obtain ⟨⟨c, r1⟩, hc, h⟩ := Res.bind_eq_ok h
    obtain ⟨⟨q, r2⟩, hq, h⟩ := Res.bind_eq_ok h
    simp only [Res.ok.injEq, Prod.mk.injEq] at h
    rw [← h.1]
    intro x hx
    rcases List.mem_cons.mp hx with rfl | hx
    · exact GetRandLowercase_range hc
    · exact ih _ _ _ hq x hx

theorem RandNChars_all {n : Int} {rng : Rand} {s : GoString} {rng' : Rand}
    (h : RandNChars n rng = .ok (s, rng')) : ∀ c ∈ s, 97 ≤ c ∧ c ≤ 121 := by
  unfold RandNChars at h
  split_ifs at h
  exact randCharsLoop_all _ _ _ _ h

theorem genDictLoop_length (conf : JsonGenConfig) (k : Nat) :
    ∀ (rng : Rand) (dict : List GoString) (rng' : Rand),
      genDictLoop conf k rng = .ok (dict, rng') →
      dict.length = k ∧ ∀ s ∈ dict, ∀ c ∈ s, 97 ≤ c ∧ c ≤ 121 := by
  induction k with
  | zero =>
    intro rng dict rng' h
    simp only [genDictLoop, Res.ok.injEq, Prod.mk.injEq] at h
    rw [← h.1]
    simp
  | succ k ih =>
    intro rng dict rng' h
    unfold genDictLoop at h
    obtain ⟨⟨n, r1⟩, -, h⟩ := Res.bind_eq_ok h
    obtain ⟨⟨s, r2⟩, h2, h⟩ := Res.bind_eq_ok h
    obtain ⟨⟨rest, r3⟩, h3, h⟩ := Res.bind_eq_ok h
    simp only [Res.ok.injEq, Prod.mk.injEq] at h
    obtain ⟨hl, hall⟩ := ih _ _ _ h3
    rw [← h.1]
    refine ⟨by simp [hl], ?_⟩
    intro x hx
    rcases List.mem_cons.mp hx with rfl | hx
    · exact RandNChars_all h2
    · exact hall x hx

theorem randomGetter_all (conf : JsonGenConfig) (rng : Rand) (s : GoString) (rng' : Rand)
    (h : randomGetter conf rng = .ok (s, rng')) : ∀ c ∈ s, 97 ≤ c ∧ c ≤ 121 := by
  unfold randomGetter at h
  obtain ⟨⟨n, r1⟩, -, h2⟩ := Res.bind_eq_ok h
  exact RandNChars_all h2

/-- Without a dictionary file, every string the getter returns is made of the bytes 97
to 121. -/
theorem strGetter_all (conf : JsonGenConfig) (readLines : GoString → Option (List GoString))
    (hfile : conf.DictFile = []) (rng : Rand) (getStr : StrGetter) (r1 : Rand)
    (h : strGetter conf readLines rng = .ok (getStr, r1)) :
    ∀ rng s rng', getStr rng = .ok (s, rng') → ∀ c ∈ s, 97 ≤ c ∧ c ≤ 121 := by
  unfold strGetter at h
  simp only [hfile, ne_eq, not_true_eq_false, if_false] at h
  split_ifs at h with hsize
  · obtain ⟨⟨dict, r⟩, hd, h⟩ := Res.bind_eq_ok h
    simp only [Res.ok.injEq, Prod.mk.injEq] at h
    obtain ⟨rfl, -⟩ := h
    intro rng s rng' hs
    exact (genDictLoop_length conf _ _ _ _ hd).2 s (dictGetter_mem _ _ _ _ hs)
  · simp only [Res.ok.injEq, Prod.mk.injEq] at h
    obtain ⟨rfl, -⟩ := h
    exact randomGetter_all conf

/-- Every key and value of a tree built with the getter `getStr` has the property that
all strings of the getter have. -/
theorem jsonGenerateRec_strings (conf : JsonGenConfig) (getStr : StrGetter)
    (Q : GoString → Prop) (hD64 : conf.DepthMax < 2 ^ 63)
    (hget : ∀ rng s rng', getStr rng = .ok (s, rng') → Q s)
    (fuel : Nat) (rng : Rand) (t : JsonElement) (rng' : Rand)
    (h : jsonGenerateRec conf getStr fuel 0 rng = .ok (t, rng')) :
    ∀ p ∈ t.nodes, ∀ e ∈ p.2.Fields, Q e.1 ∧ Q e.2 :=
  jsonGenerateRec_nodes conf getStr (fun _ t => ∀ e ∈ t.Fields, Q e.1 ∧ Q e.2) hD64
    (fun fuel depth rng t rng' _ _ hh => strlen_local conf getStr Q hget fuel depth rng t rng' hh)
    fuel 0 rng t rng' (le_refl _) (le_max_right _ _) h

theorem mem_strings (t : JsonElement) (s : GoString) (hs : s ∈ t.strings) :
    ∃ p ∈ t.nodes, ∃ e ∈ p.2.Fields, s = e.1 ∨ s = e.2 := by
  unfold JsonElement.strings at hs
  obtain ⟨p, hp, hs⟩ := List.mem_flatMap.mp hs
  obtain ⟨e, he, hs⟩ := List.mem_flatMap.mp hs
  refine ⟨p, hp, e, he, ?_⟩
  simpa using hs

/-- A dictionary getter returns each entry of the dictionary for some outcome of the
random source. -/
theorem dictGetter_reaches (dict : List GoString) (hlen : (dict.length : Int) < 2 ^ 63)
    (s : GoString) (hs : s ∈ dict) : ∃ rng rng', dictGetter dict rng = .ok (s, rng') := by
  obtain ⟨i, hi, rfl⟩ := List.getElem_of_mem hs
  obtain ⟨rng, rng', h⟩ := GetRandRange_reaches 0 (dict.length : Int) (i : Int) (le_refl _)
    (by omega) (by omega) hlen
  refine ⟨rng, rng', ?_⟩
  unfold dictGetter
  rw [h, ok_bind]
  have hneg : ¬ ((i : Int) < 0) := by omega
  simp only
  rw [if_neg hneg, Int.toNat_ofNat, index_lt dict i [] hi, ok_bind,
    List.getD_eq_getElem _ _ hi]

/-! ## Claims C21 to C23 and C29: string sources -/

/-- Claim C21: for a configuration with `DictSize = k > 0` and no dictionary file,
`JsonGenerate` builds, in `strGetter` and so before the recursion starts, one pool of
exactly `k` strings; every field key and every field value at every node of the returned
tree is an element of that pool, and the tree holds at most `k` distinct strings. -/
theorem JsonGenerate_pool (conf : JsonGenConfig)
    (readLines : GoString → Option (List GoString)) (rng : Rand)
    (t : JsonElement) (rng' : Rand)
    (hfile : conf.DictFile = []) (hk : 0 < conf.DictSize) (hD64 : conf.DepthMax < 2 ^ 63)
    (h : JsonGenerate conf readLines rng = .ok (t, rng')) :
    ∃ pool r1, genDictLoop conf conf.DictSize.toNat rng = .ok (pool, r1) ∧
      strGetter conf readLines rng = .ok (dictGetter pool, r1) ∧
      jsonGenerateRec conf (dictGetter pool) (conf.DepthMax.toNat + 1) 0 r1 = .ok (t, rng') ∧
      (pool.length : Int) = conf.DictSize ∧
      (∀ p ∈ t.nodes, ∀ e ∈ p.2.Fields, e.1 ∈ pool ∧ e.2 ∈ pool) ∧
      (t.strings.dedup.length : Int) ≤ conf.DictSize := by
  obtain ⟨g, r1, hstr, hrec⟩ := JsonGenerate_inv h
  have hstr0 := hstr
  unfold strGetter at hstr
  simp only [hfile, ne_eq, not_true_eq_false, if_false] at hstr
  rw [if_pos hk] at hstr
  obtain ⟨⟨pool, r⟩, hd, hg⟩ := Res.bind_eq_ok hstr
  simp only [Res.ok.injEq, Prod.mk.injEq] at hg
  obtain ⟨rfl, rfl⟩ := hg
  have hlen := (genDictLoop_length conf _ _ _ _ hd).1
  have hmem := jsonGenerateRec_strings conf (dictGetter pool) (fun s => s ∈ pool) hD64
    (dictGetter_mem pool) _ _ _ _ hrec
  refine ⟨pool, r, hd, hstr0, hrec, by omega, hmem, ?_⟩
  have hsub : t.strings.dedup ⊆ pool := by
    intro s hs
    obtain ⟨p, hp, e, he, hor⟩ := mem_strings t s (List.mem_dedup.mp hs)
    rcases hor with rfl | rfl
    · exact (hmem p hp e he).1
    · exact (hmem p hp e he).2
  have hle := (List.subperm_of_subset (List.nodup_dedup t.strings) hsub).length_le
  omega

/-- C21 at the configuration of `--json-dict-size 10`: a tree is returned, and it holds
at most ten distinct strings, all from one pool of ten. -/
theorem JsonGenerate_pool_witness :
    ∃ t rng', JsonGenerate tenWordConfig noFiles stepRand = .ok (t, rng') ∧
      ∃ pool r1, genDictLoop tenWordConfig tenWordConfig.DictSize.toNat stepRand
          = .ok (pool, r1) ∧
        strGetter tenWordConfig noFiles stepRand = .ok (dictGetter pool, r1) ∧
        jsonGenerateRec tenWordConfig (dictGetter pool) (tenWordConfig.DepthMax.toNat + 1) 0 r1
          = .ok (t, rng') ∧
        (pool.length : Int) = tenWordConfig.DictSize ∧
        (∀ p ∈ t.nodes, ∀ e ∈ p.2.Fields, e.1 ∈ pool ∧ e.2 ∈ pool) ∧
        (t.strings.dedup.length : Int) ≤ tenWordConfig.DictSize := by
  obtain ⟨t, rng', h⟩ := JsonGenerate_returns tenWordConfig noFiles stepRand
    (by decide) (by decide) (by decide) (by decide) (by decide) (by decide) (by decide)
    (by decide) (by decide) (by decide) (by decide) (by decide)
  exact ⟨t, rng', h, JsonGenerate_pool tenWordConfig noFiles stepRand t rng'
    (by decide) (by decide) (by decide) h⟩

/-- Claim C22 (amended): with a dictionary file whose scanner lines are `lines` (fewer
than `2^63`), the pool of `strGetter` is exactly `lines`, every line in order, the
empty ones included: the getter returns only lines, it returns each line for some
outcome of the random source, and every key and value of the returned tree is one of
the lines. -/
theorem strGetter_file_pool (conf : JsonGenConfig)
    (readLines : GoString → Option (List GoString)) (rng : Rand) (lines : List GoString)
    (hfile : conf.DictFile ≠ []) (hread : readLines conf.DictFile = some lines)
    (hlen : (lines.length : Int) < 2 ^ 63) (hD64 : conf.DepthMax < 2 ^ 63) :
    strGetter conf readLines rng = .ok (dictGetter lines, rng) ∧
    (∀ r s r', dictGetter lines r = .ok (s, r') → s ∈ lines) ∧
    (∀ s ∈ lines, ∃ r r', dictGetter lines r = .ok (s, r')) ∧
    (∀ t rng', JsonGenerate conf readLines rng = .ok (t, rng') →
      ∀ p ∈ t.nodes, ∀ e ∈ p.2.Fields, e.1 ∈ lines ∧ e.2 ∈ lines) := by
  have hstr : strGetter conf readLines rng = .ok (dictGetter lines, rng) := by
    unfold strGetter
    rw [if_pos hfile, hread]
  refine ⟨hstr, dictGetter_mem lines, dictGetter_reaches lines hlen, ?_⟩
  intro t rng' h
  obtain ⟨g, r1, hstr2, hrec⟩ := JsonGenerate_inv h
  rw [hstr] at hstr2
  simp only [Res.ok.injEq, Prod.mk.injEq] at hstr2
  obtain ⟨rfl, rfl⟩ := hstr2
  exact jsonGenerateRec_strings conf (dictGetter lines) (fun s => s ∈ lines) hD64
    (dictGetter_mem lines) _ _ _ _ hrec

/-- C22 (amended) at the file `words.txt` of three lines. -/
theorem strGetter_file_pool_witness :
    strGetter fileConfig wordsFiles oneRand
      = .ok (dictGetter [str "ab", [], str "cd"], oneRand) ∧
    (∀ r s r', dictGetter [str "ab", [], str "cd"] r = .ok (s, r') →
      s ∈ [str "ab", [], str "cd"]) ∧
    (∀ s ∈ [str "ab", [], str "cd"], ∃ r r', dictGetter [str "ab", [], str "cd"] r = .ok (s, r')) ∧
    (∀ t rng', JsonGenerate fileConfig wordsFiles oneRand = .ok (t, rng') →
      ∀ p ∈ t.nodes, ∀ e ∈ p.2.Fields,
        e.1 ∈ [str "ab", [], str "cd"] ∧ e.2 ∈ [str "ab", [], str "cd"]) :=
  strGetter_file_pool fileConfig wordsFiles oneRand [str "ab", [], str "cd"]
    (by decide) rfl (by decide) (by decide)

/-- C22 as stated fails: for the file `words.txt`, whose second line is empty, the pool
is all three lines and not the two non-empty ones, and with every raw outcome of the
random source equal to one the root's single field has the empty string as key and as
value. -/
theorem strGetter_file_pool_counterexample :
    strGetter fileConfig wordsFiles oneRand
      = .ok (dictGetter [str "ab", [], str "cd"], oneRand) ∧
    [str "ab", [], str "cd"] ≠ [str "ab", [], str "cd"].filter (fun l => decide (l ≠ [])) ∧
    ∃ t rng', JsonGenerate fileConfig wordsFiles oneRand = .ok (t, rng') ∧
      t.Fields = [([], [])] := by
  refine ⟨rfl, by decide, _, _, rfl, rfl⟩

/-- Claim C23: for every `n ≥ 0` and every outcome of the random source, `RandNChars(n)`
returns a string of exactly `n` bytes, each of them a lowercase ASCII letter, a byte
from 97 (`a`) to 122 (`z`). -/
theorem RandNChars_lowercase (n : Int) (rng : Rand) (hn : 0 ≤ n) :
    ∃ s rng', RandNChars n rng = .ok (s, rng') ∧ (s.length : Int) = n ∧
      ∀ c ∈ s, 97 ≤ c ∧ c ≤ 122 := by
  obtain ⟨s, rng', h⟩ := RandNChars_returns n rng hn
  refine ⟨s, rng', h, (RandNChars_length h).2, ?_⟩
  intro c hc
  have := RandNChars_all h c hc
  omega

/-- C23 at `n = 3` with the raw outcomes `3, 10, 17, ...`. -/
theorem RandNChars_lowercase_witness :
    ∃ s rng', RandNChars 3 stepRand = .ok (s, rng') ∧ (s.length : Int) = 3 ∧
      ∀ c ∈ s, 97 ≤ c ∧ c ≤ 122 :=
  RandNChars_lowercase 3 stepRand (by decide)

/-- Claim C29: over all outcomes of the random source `GetRandLowercase` returns exactly
the 25 bytes 97 to 121 (`a` to `y`), never 122 (`z`); so no string of `RandNChars`
contains `z`, and without a dictionary file (pure random strings or a generated
dictionary) no key or value of a generated tree does. -/
theorem GetRandLowercase_never_z :
    (∀ rng, ∃ c rng', GetRandLowercase rng = .ok (c, rng') ∧ 97 ≤ c ∧ c ≤ 121) ∧
    (∀ c, 97 ≤ c → c ≤ 121 → ∃ rng rng', GetRandLowercase rng = .ok (c, rng')) ∧
    (∀ n rng s rng', RandNChars n rng = .ok (s, rng') → 122 ∉ s) ∧
    (∀ conf readLines rng t rng', conf.DictFile = [] → conf.DepthMax < 2 ^ 63 →
      JsonGenerate conf readLines rng = .ok (t, rng') →
      ∀ p ∈ t.nodes, ∀ e ∈ p.2.Fields, 122 ∉ e.1 ∧ 122 ∉ e.2) := by
  refine ⟨?_, ?_, ?_, ?_⟩
  · intro rng
    obtain ⟨c, rng', h⟩ := GetRandLowercase_returns rng
    exact ⟨c, rng', h, GetRandLowercase_range h⟩
  · intro c h1 h2
    obtain ⟨rng, rng', h⟩ := GetRandRange_reaches 97 122 (c : Int) (by norm_num) (by omega)
      (by omega) (by norm_num)
    refine ⟨rng, rng', ?_⟩
    unfold GetRandLowercase
    rw [h, ok_bind]
    have e : ((c : Int) % 256).toNat = c := by omega
    simp only
    rw [e]
  · intro n rng s rng' h hz
    have := RandNChars_all h 122 hz
    omega
  · intro conf readLines rng t rng' hfile hD64 h
    obtain ⟨g, r1, hstr, hrec⟩ := JsonGenerate_inv h
    have hall := jsonGenerateRec_strings conf g (fun s => ∀ c ∈ s, 97 ≤ c ∧ c ≤ 121) hD64
      (strGetter_all conf readLines hfile rng g r1 hstr) _ _ _ _ hrec
    intro p hp e he
    constructor
    · intro hz
      have := (hall p hp e he).1 122 hz
      omega
    · intro hz
      have := (hall p hp e he).2 122 hz
      omega

/-- C29 at concrete inputs: the byte 121 (`y`) is returned for some outcome, a string of
three characters has no `z`, and the tree of the generated dictionary of ten words has
no `z` in any key or value. -/
theorem GetRandLowercase_never_z_witness :
    (∃ rng rng', GetRandLowercase rng = .ok (121, rng')) ∧
    (∃ s rng', RandNChars 3 stepRand = .ok (s, rng') ∧ 122 ∉ s) ∧
    (∃ t rng', JsonGenerate tenWordConfig noFiles stepRand = .ok (t, rng') ∧
      ∀ p ∈ t.nodes, ∀ e ∈ p.2.Fields, 122 ∉ e.1 ∧ 122 ∉ e.2) := by
  refine ⟨GetRandLowercase_never_z.2.1 121 (by decide) (by decide), ?_, ?_⟩
  · obtain ⟨s, rng', h⟩ := RandNChars_returns 3 stepRand (by decide)
    exact ⟨s, rng', h, GetRandLowercase_never_z.2.2.1 3 stepRand s rng' h⟩
  · obtain ⟨t, rng', h⟩ := JsonGenerate_returns tenWordConfig noFiles stepRand
      (by decide) (by decide) (by decide) (by decide) (by decide) (by decide) (by decide)
      (by decide) (by decide) (by decide) (by decide) (by decide)
    exact ⟨t, rng', h, GetRandLowercase_never_z.2.2.2 tenWordConfig noFiles stepRand t rng'
      (by decide) (by decide) h⟩

/-! ## Claims C25 and C28: safety of the aggregation, single trial -/

theorem column_length (i : Nat) (trials : List (List BenchmarkResult))
    (h : ∀ t ∈ trials, i < t.length) : (column i trials).length = trials.length := by
  induction trials with
  | nil => rfl
  | cons t ts ih =>
    have hi : i < t.length := h t (List.mem_cons_self t ts)
    have := ih (fun u hu => h u (List.mem_cons_of_mem t hu))
    unfold column at this ⊢
    simp [List.filterMap_cons, List.getElem?_eq_getElem hi, this]

/-- Claim C25: for a non-empty sequence of trials in which every trial has the length of
the first, `aggregateResults` returns without an index out of range, and for every
library index `i` the inner loop collects one result per trial, so each of the four median
helpers is called on a list whose length is the number of trials, which is not empty, and
returns. -/
theorem aggregateResults_safe (first : List BenchmarkResult)
    (rest : List (List BenchmarkResult))
    (h : ∀ t ∈ first :: rest, t.length = first.length) :
    (∃ out, aggregateResults (first :: rest) = .ok out) ∧
    ∀ i, i < first.length →
      (∃ r, index first i = .ok r) ∧
      ∃ col, collectColumn i (first :: rest) = .ok col ∧
        col.length = (first :: rest).length ∧ col ≠ [] ∧
        (∃ v, findMedianTime (col.map (·.CompressTime)) = .ok v) ∧
        (∃ v, findMedianTime (col.map (·.DecompressTime)) = .ok v) ∧
        (∃ v, findMedianInt (col.map (·.CompressedSize)) = .ok v) ∧
        (∃ v, findMedianFloat64 (col.map (·.Ratio)) = .ok v) := by
  constructor
  · obtain ⟨out, hout, -⟩ := aggregateLoop_ok (first :: rest) first (fun _ _ => True)
      (List.range first.length) (by
        intro id hid
        have hid' : id < first.length := List.mem_range.mp hid
        obtain ⟨r, hr, -⟩ := aggregateLibrary_name (first :: rest) first id
          (List.cons_ne_nil _ _) hid' (fun t ht => by rw [h t ht]; exact hid')
        exact ⟨r, hr, trivial⟩)
    exact ⟨out, hout⟩
  · intro i hi
    have hall : ∀ t ∈ first :: rest, i < t.length := fun t ht => by rw [h t ht]; exact hi
    have hcol := collectColumn_eq i (first :: rest) hall
    have hlen := column_length i (first :: rest) hall
    have hne : column i (first :: rest) ≠ [] := column_ne_nil i _ (List.cons_ne_nil _ _) hall
    refine ⟨⟨_, index_lt first i ⟨[], 0, 0, 0, F64.nan⟩ hi⟩, column i (first :: rest),
      hcol, hlen, hne, ?_, ?_, ?_, ?_⟩
    · exact findMedianTime_ok _ (by simpa using hne)
    · exact findMedianTime_ok _ (by simpa using hne)
    · exact findMedianInt_ok _ (by simpa using hne)
    · exact findMedianFloat64_ok _ (by simpa using hne)

/-- C25 at the three trials of one library. -/
theorem aggregateResults_safe_witness :
    (∃ out, aggregateResults threeTrials = .ok out) ∧
    ∀ i, i < 1 →
      (∃ r, index [sample 10 20 5 (tenths 9)] i = .ok r) ∧
      ∃ col, collectColumn i threeTrials = .ok col ∧
        col.length = 3 ∧ col ≠ [] ∧
        (∃ v, findMedianTime (col.map (·.CompressTime)) = .ok v) ∧
        (∃ v, findMedianTime (col.map (·.DecompressTime)) = .ok v) ∧
        (∃ v, findMedianInt (col.map (·.CompressedSize)) = .ok v) ∧
        (∃ v, findMedianFloat64 (col.map (·.Ratio)) = .ok v) :=
  aggregateResults_safe [sample 10 20 5 (tenths 9)]
    [[sample 30 0 6 (tenths 1)], [sample 20 10 7 (tenths 5)]] (by decide)

theorem findMedianInt_single (x : Int) : findMedianInt [x] = .ok x := by
  simp [findMedianInt, SortFunc, insertionSortCmpFunc, sinkInto, index]

theorem findMedianTime_single (x : Int) : findMedianTime [x] = .ok x :=
  findMedianInt_single x

theorem findMedianFloat64_single (x : F64) : findMedianFloat64 [x] = .ok x := by
  simp [findMedianFloat64, SortFunc, insertionSortCmpFunc, sinkInto, index]

theorem aggregateLibrary_single (r : List BenchmarkResult) (i : Nat) (hi : i < r.length) :
    aggregateLibrary [r] r i = .ok (r.getD i ⟨[], 0, 0, 0, F64.nan⟩) := by
  unfold aggregateLibrary
  rw [index_lt r i ⟨[], 0, 0, 0, F64.nan⟩ hi]
  have hcol : collectColumn i [r] = .ok [r.getD i ⟨[], 0, 0, 0, F64.nan⟩] := by
    unfold collectColumn
    rw [index_lt r i ⟨[], 0, 0, 0, F64.nan⟩ hi]
    rfl
  simp only [bind_ok]
  rw [hcol]
  simp only [bind_ok, List.map_cons, List.map_nil]
  rw [findMedianTime_single, findMedianTime_single, findMedianInt_single,
    findMedianFloat64_single]
  rfl

/-- Claim C28: aggregating a single trial is the identity: for every trial `r`,
`aggregateResults([r])` returns a list of the length of `r` whose entry at each index is
`r[i]`, in `Name`, `CompressTime`, `DecompressTime`, `CompressedSize` and `Ratio`. -/
theorem aggregateResults_single (r : List BenchmarkResult) : aggregateResults [r] = .ok r := by
  obtain ⟨out, hout, hf⟩ := aggregateLoop_ok [r] r
    (fun id x => x = r.getD id ⟨[], 0, 0, 0, F64.nan⟩) (List.range r.length) (by
      intro id hid
      exact ⟨_, aggregateLibrary_single r id (List.mem_range.mp hid), rfl⟩)
  have hlen : out.length = r.length := by
    have := hf.length_eq
    simpa using this.symm
  have : out = r := by
    apply List.ext_getElem hlen
    intro i h1 h2
    obtain ⟨x, hx, hP⟩ := forall₂_range_get _ r.length out hf i h2
    rw [List.getElem?_eq_getElem h1] at hx
    simp only [Option.some.injEq] at hx
    rw [hx, hP, List.getD_eq_getElem _ _ h2]
  show aggregateLoop [r] r (List.range r.length) = .ok r
  rw [hout, this]

/-! ## Claim C27: the closed form of `GetBatchTime` -/

theorem wrap64_add_left (a b : Int) : wrap64 (wrap64 a + b) = wrap64 (a + b) := by
  unfold wrap64
  omega

theorem wrap64_add_right (a b : Int) : wrap64 (a + wrap64 b) = wrap64 (a + b) := by
  unfold wrap64
  omega

theorem wrap64_wrap64 (a : Int) : wrap64 (wrap64 a) = wrap64 a := by
  unfold wrap64
  omega

/-- In 64-bit arithmetic `GetBatchTime` is the sum of the three stages plus `n - 1` times
the slowest one, whatever the values. -/
theorem GetBatchTime_wrap (br : BenchmarkResult) (n : Int) (speed : Nat) (hp : speed ≠ 0) :
    br.GetBatchTime n speed
      = wrap64 (br.CompressTime + br.networkTime speed + br.DecompressTime
          + (n - 1) * max br.CompressTime (max (br.networkTime speed) br.DecompressTime)) := by
  unfold BenchmarkResult.GetBatchTime BenchmarkResult.batchOps
  rw [if_neg hp]
  show batchTotal [br.CompressTime, br.networkTime speed, br.DecompressTime]
      (slowestIndex [br.CompressTime, br.networkTime speed, br.DecompressTime]) n = _
  generalize br.networkTime speed = t
  generalize br.CompressTime = c
  generalize br.DecompressTime = d
  have key : ∀ X : Int, c + t + d + (n - 1) * X = c + t + d - X + n * X := by
    intro X; ring
  rw [key]
  simp only [slowestIndex, batchTotal, List.length, List.range', List.foldl, List.enum,
    List.enumFrom, List.getD_cons_zero, List.getD_cons_succ, zero_add]
  by_cases h1 : t > c
  · by_cases h2 : d > t
    · have hm : max c (max t d) = d := by omega
      rw [hm]
      simp [h1, h2]
      generalize n * d = P
      unfold wrap64
      omega
    · have hm : max c (max t d) = t := by omega
      rw [hm]
      simp [h1, h2]
      generalize n * t = P
      unfold wrap64
      omega
  · by_cases h2 : d > c
    · have hm : max c (max t d) = d := by omega
      rw [hm]
      simp [h1, h2]
      generalize n * d = P
      unfold wrap64
      omega
    · have hm : max c (max t d) = c := by omega
      rw [hm]
      simp [h1, h2]
      generalize n * c = P
      unfold wrap64
      omega

/-- Claim C27 (amended): for every result, every `n` and every non-zero speed, with compress
time `c`, network time `t` and decompress time `d`, `GetBatchTime(n, speed)` is
`c + t + d + (n - 1) * max(c, t, d)` in 64-bit arithmetic, and equals that number whenever
it fits 64 signed bits; so the value does not depend on which of several equally slow
stages the scan selects.  `GetBatchTime(1, speed)` is `GetTotalTime() + t` in 64-bit
arithmetic, and equals that number when `c + d` and `c + t + d` fit. -/
theorem GetBatchTime_closed_form (br : BenchmarkResult) (n : Int) (speed : Nat)
    (hp : speed ≠ 0) :
    br.GetBatchTime n speed
      = wrap64 (br.CompressTime + br.networkTime speed + br.DecompressTime
          + (n - 1) * max br.CompressTime (max (br.networkTime speed) br.DecompressTime)) ∧
    (IsInt64 (br.CompressTime + br.networkTime speed + br.DecompressTime
          + (n - 1) * max br.CompressTime (max (br.networkTime speed) br.DecompressTime)) →
      br.GetBatchTime n speed
        = br.CompressTime + br.networkTime speed + br.DecompressTime
          + (n - 1) * max br.CompressTime (max (br.networkTime speed) br.DecompressTime)) ∧
    br.GetBatchTime 1 speed = wrap64 (br.GetTotalTime + br.networkTime speed) ∧
    (IsInt64 (br.CompressTime + br.DecompressTime) →
      IsInt64 (br.CompressTime + br.networkTime speed + br.DecompressTime) →
      br.GetBatchTime 1 speed = br.GetTotalTime + br.networkTime speed) := by
  have h1 : br.GetBatchTime 1 speed
      = wrap64 (br.CompressTime + br.networkTime speed + br.DecompressTime) := by
    rw [GetBatchTime_wrap br 1 speed hp]
    congr 1
    ring
  refine ⟨GetBatchTime_wrap br n speed hp, ?_, ?_, ?_⟩
  · intro hfit
    rw [GetBatchTime_wrap br n speed hp]
    exact wrap64_eq _ hfit.1 hfit.2
  · rw [h1]
    unfold BenchmarkResult.GetTotalTime
    rw [wrap64_add_left]
    congr 1
    ring
  · intro hcd hctd
    rw [h1]
    unfold BenchmarkResult.GetTotalTime
    rw [wrap64_eq _ hctd.1 hctd.2, wrap64_eq _ hcd.1 hcd.2]
    ring

/-- The batches of `TestBatchTime`: 25200 and 100200 nanoseconds for a hundred payloads,
and a batch of one payload is the total time plus the network time. -/
theorem GetBatchTime_closed_form_witness :
    (sample 250 100 10000 F64.nan).GetBatchTime 100 100 = 25200 ∧
    (sample 100 100 10000 F64.nan).GetBatchTime 100 10 = 100200 ∧
    (sample 250 100 10000 F64.nan).GetBatchTime 1 100
      = (sample 250 100 10000 F64.nan).GetTotalTime
        + (sample 250 100 10000 F64.nan).networkTime 100 :=
  ⟨((GetBatchTime_closed_form (sample 250 100 10000 F64.nan) 100 100 (by decide)).2.1
      (by decide)).trans (by decide),
   ((GetBatchTime_closed_form (sample 100 100 10000 F64.nan) 100 10 (by decide)).2.1
      (by decide)).trans (by decide),
   (GetBatchTime_closed_form (sample 250 100 10000 F64.nan) 1 100 (by decide)).2.2.2
      (by decide) (by decide)⟩

/-- C27 as stated fails when the total leaves the 64-bit range: with compress and
decompress times of `2^62` nanoseconds, no network time and three payloads the stages
are non-negative and the formula gives `2^64`, while `GetBatchTime(3, 1)` is `0`. -/
theorem GetBatchTime_closed_form_counterexample :
    (sample (2 ^ 62) (2 ^ 62) 0 F64.nan).networkTime 1 = 0 ∧
    (sample (2 ^ 62) (2 ^ 62) 0 F64.nan).GetBatchTime 3 1 = 0 ∧
    (2 : Int) ^ 62 + 0 + 2 ^ 62 + (3 - 1) * max (2 ^ 62) (max 0 (2 ^ 62)) = 2 ^ 64 := by
  refine ⟨by decide, by decide, by decide⟩

/-! ## Claim C30: the suffix `B` alone -/

/-- A two-byte input whose upper-case form has two bytes and ends in `B` is rejected. -/
theorem parseSpeed_two (uni : GoString → GoString) (c b : Nat) (hc : c < 128)
    (hb : b = 66 ∨ b = 98) : parseSpeed uni [c, b] = .error := by
  have hb128 : b < 128 := by omega
  have hup : ToUpper uni [c, b] = [asciiUpper c, 66] := by
    unfold ToUpper
    have hall : [c, b].all (fun c => decide (c < 128)) = true := by
      simp [hc, hb128]
    rw [if_pos hall]
    have : asciiUpper b = 66 := by
      unfold asciiUpper
      rcases hb with rfl | rfl
      · rw [if_neg (by omega)]
      · rw [if_pos (by omega)]
    simp [this]
  unfold parseSpeed
  rw [if_neg (by simp)]
  simp only [hup]
  rfl

/-- An input whose upper-case form ends in `B` is rejected when that form has two bytes,
and when the byte before the `B` is not an ASCII byte, as is the last byte of every
character that is not ASCII. -/
theorem parseSpeed_upper_rejects (uni : GoString → GoString) (s pre : GoString) (x : Nat)
    (hs : s ≠ []) (hup : ToUpper uni s = pre ++ [x, 66]) (hx : pre = [] ∨ 128 ≤ x) :
    parseSpeed uni s = .error := by
  have hlast : (pre ++ [x, 66]).getLast? = some 66 := by
    simp [List.getLast?_append]
  have hl : (pre ++ [x, 66]).length = pre.length + 2 := by simp
  have hchar : (pre ++ [x, 66]).getD ((pre ++ [x, 66]).length - 2) 0 = x := by
    rw [hl, Nat.add_sub_cancel, List.getD_eq_getElem?_getD,
      List.getElem?_append_right (le_refl _), Nat.sub_self]
    rfl
  have hunit : speedUnit (pre ++ [x, 66]) 66 = .error := by
    unfold speedUnit
    rw [if_pos rfl]
    rcases hx with rfl | hx
    · rfl
    · have h2 : ¬ (pre ++ [x, 66]).length ≤ 2 ∨ (pre ++ [x, 66]).length ≤ 2 := by omega
      rcases h2 with h2 | h2
      · have h75 : ¬ x = 75 := by omega
        have h77 : ¬ x = 77 := by omega
        have h71 : ¬ x = 71 := by omega
        have hd : ¬ (48 ≤ x ∧ x ≤ 57) := by omega
        rw [if_neg h2]
        simp only [hchar]
        rw [if_neg h75, if_neg h77, if_neg h71, if_neg hd]
      · rw [if_pos h2]
  unfold parseSpeed
  rw [if_neg hs]
  simp only [hup, hlast]
  rw [hunit]
  rfl

/-- The function `parseSpeed` on a decimal numeral of at least two digits followed by
`B`. -/
theorem parseSpeed_B (uni : GoString → GoString) (d : GoString) (hd : IsDecimal d)
    (hlen : 2 ≤ d.length) :
    parseSpeed uni (d ++ [66])
      = if decimalValue d < 2 ^ 64 then .ok (decimalValue d) else .error := by
  have hupper : ToUpper uni (d ++ [66]) = d ++ [66] := by
    apply ToUpper_upper
    intro c hc
    rcases List.mem_append.mp hc with hc | hc
    · have := hd.2 c hc
      omega
    · simp only [List.mem_singleton] at hc
      omega
  have hne : ¬ (d ++ [66] = []) := by simp
  have hlast : (d ++ [66]).getLast? = some 66 := by
    simp [List.getLast?_append]
  have hl : (d ++ [66]).length = d.length + 1 := by simp
  have hi : d.length - 1 < d.length := by omega
  have hchar : (d ++ [66]).getD ((d ++ [66]).length - 2) 0 = d[d.length - 1] := by
    rw [hl, show d.length + 1 - 2 = d.length - 1 by omega, List.getD_eq_getElem?_getD,
      List.getElem?_append_left hi, List.getElem?_eq_getElem hi]
    rfl
  have hdig := hd.2 _ (List.getElem_mem hi)
  have hunit : speedUnit (d ++ [66]) 66 = .ok (1, d.length + 1) := by
    have h2 : ¬ (d ++ [66]).length ≤ 2 := by rw [hl]; omega
    have h75 : ¬ d[d.length - 1] = 75 := by omega
    have h77 : ¬ d[d.length - 1] = 77 := by omega
    have h71 : ¬ d[d.length - 1] = 71 := by omega
    unfold speedUnit
    rw [if_pos rfl, if_neg h2]
    simp only [hchar]
    rw [hl, if_neg h75, if_neg h77, if_neg h71, if_pos hdig]
  have htake : (d ++ [66]).take (d.length + 1 - 1) = d := by
    rw [Nat.add_sub_cancel, List.take_left]
  unfold parseSpeed
  rw [if_neg hne]
  simp only [hupper, hlast]
  rw [hunit, ok_bind]
  simp only
  rw [htake]
  by_cases hfit : decimalValue d < 2 ^ 64
  · rw [ParseUint_decimal d hd hfit, ok_bind, if_pos hfit, Nat.mul_one,
      Nat.mod_eq_of_lt hfit]
  · rw [if_neg hfit]
    unfold ParseUint
    rw [if_neg hd.1, if_pos hd.all_isDigit, digitsValue_eq, if_neg hfit]
    rfl

/-- Claim C30 (amended): `parseSpeed` rejects every input of two ASCII bytes that ends in `B`
or `b`, a single digit followed by `B` included, and every input whose upper-case form
ends in `B` and has two bytes or a byte that is not ASCII before the `B` (the case of a
character that is not ASCII followed by `B` or `b`); for a decimal numeral `d` of at least
two digits and value `v` it returns `parseSpeed(d + "B") = v` without error when `v` fits
64 unsigned bits, and an error when it does not. -/
theorem parseSpeed_bytes_suffix (uni : GoString → GoString) :
    (∀ c b : Nat, c < 128 → (b = 66 ∨ b = 98) → parseSpeed uni [c, b] = .error) ∧
    (∀ (s pre : GoString) (x : Nat), s ≠ [] → ToUpper uni s = pre ++ [x, 66] →
      (pre = [] ∨ 128 ≤ x) → parseSpeed uni s = .error) ∧
    (∀ d : GoString, IsDecimal d → 2 ≤ d.length → decimalValue d < 2 ^ 64 →
      parseSpeed uni (d ++ str "B") = .ok (decimalValue d)) ∧
    (∀ d : GoString, IsDecimal d → 2 ≤ d.length → 2 ^ 64 ≤ decimalValue d →
      parseSpeed uni (d ++ str "B") = .error) := by
  refine ⟨parseSpeed_two uni, parseSpeed_upper_rejects uni, ?_, ?_⟩
  · intro d hd hlen hfit
    rw [show str "B" = [66] by decide, parseSpeed_B uni d hd hlen, if_pos hfit]
  · intro d hd hlen hbig
    rw [show str "B" = [66] by decide, parseSpeed_B uni d hd hlen,
      if_neg (by omega : ¬ decimalValue d < 2 ^ 64)]

/-- C30 (amended) at `"5B"`, `"5b"`, `"128B"` and a numeral of twenty digits. -/
theorem parseSpeed_bytes_suffix_witness :
    parseSpeed id (str "5B") = .error ∧ parseSpeed id (str "5b") = .error ∧
    parseSpeed id (str "128" ++ str "B") = .ok 128 ∧
    parseSpeed id (str "18446744073709551615" ++ str "B") = .ok 18446744073709551615 :=
  ⟨(parseSpeed_bytes_suffix id).1 53 66 (by decide) (by decide),
   (parseSpeed_bytes_suffix id).1 53 98 (by decide) (by decide),
   (parseSpeed_bytes_suffix id).2.2.1 (str "128") (by decide) (by decide) (by decide),
   (parseSpeed_bytes_suffix id).2.2.1 (str "18446744073709551615") (by decide) (by decide)
     (by decide)⟩

/-- C30 as stated fails for a numeral whose value does not fit 64 unsigned bits:
`"18446744073709551616B"`, twenty digits of value `2^64` and the suffix, is rejected. -/
theorem parseSpeed_bytes_suffix_counterexample :
    IsDecimal (str "18446744073709551616") ∧ 2 ≤ (str "18446744073709551616").length ∧
    decimalValue (str "18446744073709551616") = 2 ^ 64 ∧
    parseSpeed id (str "18446744073709551616" ++ str "B") = .error := by
  refine ⟨by decide, by decide, by decide, by decide⟩

/-! ## Theorems: the memory of the aggregation -/

theorem Heap.Keeps.refl (h : Heap) : Heap.Keeps h h := ⟨le_refl _, fun _ _ => rfl⟩

theorem Heap.Keeps.trans {h0 h1 h2 : Heap} (h01 : Heap.Keeps h0 h1) (h12 : Heap.Keeps h1 h2) :
    Heap.Keeps h0 h2 :=
  ⟨le_trans h01.1 h12.1, fun a ha => by
    rw [h12.2 a (lt_of_lt_of_le ha h01.1), h01.2 a ha]⟩

/-- An allocation keeps the memory. -/
theorem Heap.Keeps.alloc {h0 h : Heap} (hk : Heap.Keeps h0 h) (c : Cell) :
    Heap.Keeps h0 (h.alloc c).2 := by
  refine ⟨?_, fun a ha => ?_⟩
  · simp only [Heap.alloc, List.length_append, List.length_singleton]
    have := hk.1
    omega
  · simp only [Heap.alloc]
    rw [List.getElem?_append_left (lt_of_lt_of_le ha hk.1)]
    exact hk.2 a ha

/-- A write to an address that `h0` does not have keeps the memory of `h0`. -/
theorem Heap.Keeps.set {h0 h : Heap} (hk : Heap.Keeps h0 h) (a : Nat) (c : Cell)
    (ha : h0.length ≤ a) : Heap.Keeps h0 (List.set h a c) := by
  refine ⟨?_, fun b hb => ?_⟩
  · rw [List.length_set]
    exact hk.1
  · rw [List.getElem?_set_ne (by omega)]
    exact hk.2 b hb

theorem Heap.Keeps.setInt {h0 h h1 : Heap} (hk : Heap.Keeps h0 h) (a i : Nat) (v : Int)
    (ha : h0.length ≤ a) (hs : h.setInt a i v = .ok h1) : Heap.Keeps h0 h1 := by
  unfold Heap.setInt at hs
  obtain ⟨xs, -, hs⟩ := Res.bind_eq_ok hs
  split_ifs at hs
  simp only [Res.ok.injEq] at hs
  rw [← hs]
  exact hk.set a _ ha

theorem Heap.Keeps.setFloat {h0 h h1 : Heap} (hk : Heap.Keeps h0 h) (a i : Nat) (v : F64)
    (ha : h0.length ≤ a) (hs : h.setFloat a i v = .ok h1) : Heap.Keeps h0 h1 := by
  unfold Heap.setFloat at hs
  obtain ⟨xs, -, hs⟩ := Res.bind_eq_ok hs
  split_ifs at hs
  simp only [Res.ok.injEq] at hs
  rw [← hs]
  exact hk.set a _ ha

theorem findMedianTimeMem_keeps {h0 h : Heap} (hk : Heap.Keeps h0 h) (a : Nat)
    (ha : h0.length ≤ a) (m : Int) (h1 : Heap) (hs : findMedianTimeMem h a = .ok (m, h1)) :
    Heap.Keeps h0 h1 := by
  unfold findMedianTimeMem at hs
  obtain ⟨xs, -, hs⟩ := Res.bind_eq_ok hs
  obtain ⟨v, -, hs⟩ := Res.bind_eq_ok hs
  simp only [Res.ok.injEq, Prod.mk.injEq] at hs
  rw [← hs.2]
  exact hk.set a _ ha

theorem findMedianIntMem_keeps {h0 h : Heap} (hk : Heap.Keeps h0 h) (a : Nat)
    (ha : h0.length ≤ a) (m : Int) (h1 : Heap) (hs : findMedianIntMem h a = .ok (m, h1)) :
    Heap.Keeps h0 h1 := by
  unfold findMedianIntMem at hs
  obtain ⟨xs, -, hs⟩ := Res.bind_eq_ok hs
  obtain ⟨v, -, hs⟩ := Res.bind_eq_ok hs
  simp only [Res.ok.injEq, Prod.mk.injEq] at hs
  rw [← hs.2]
  exact hk.set a _ ha

theorem findMedianFloat64Mem_keeps {h0 h : Heap} (hk : Heap.Keeps h0 h) (a : Nat)
    (ha : h0.length ≤ a) (m : F64) (h1 : Heap)
    (hs : findMedianFloat64Mem h a = .ok (m, h1)) : Heap.Keeps h0 h1 := by
  unfold findMedianFloat64Mem at hs
  obtain ⟨xs, -, hs⟩ := Res.bind_eq_ok hs
  obtain ⟨v, -, hs⟩ := Res.bind_eq_ok hs
  simp only [Res.ok.injEq, Prod.mk.injEq] at hs
  rw [← hs.2]
  exact hk.set a _ ha

theorem fillLoop_keeps (h0 : Heap) (nResults libraryID ct dt sz rt : Nat)
    (hct : h0.length ≤ ct) (hdt : h0.length ≤ dt) (hsz : h0.length ≤ sz)
    (hrt : h0.length ≤ rt) (k : Nat) :
    ∀ (resultIndex : Nat) (h h1 : Heap), Heap.Keeps h0 h →
      fillLoop nResults libraryID ct dt sz rt k resultIndex h = .ok h1 → Heap.Keeps h0 h1 := by
  induction k with
  | zero =>
    intro resultIndex h h1 hk hs
    simp only [fillLoop, Res.ok.injEq] at hs
    rw [← hs]
    exact hk
  | succ k ih =>
    intro resultIndex h h1 hk hs
    unfold fillLoop at hs
    obtain ⟨outer, -, hs⟩ := Res.bind_eq_ok hs
    obtain ⟨results, -, hs⟩ := Res.bind_eq_ok hs
    obtain ⟨rs, -, hs⟩ := Res.bind_eq_ok hs
    obtain ⟨p, -, hs⟩ := Res.bind_eq_ok hs
    obtain ⟨result, -, hs⟩ := Res.bind_eq_ok hs
    obtain ⟨g1, e1, hs⟩ := Res.bind_eq_ok hs
    obtain ⟨g2, e2, hs⟩ := Res.bind_eq_ok hs
    obtain ⟨g3, e3, hs⟩ := Res.bind_eq_ok hs
    obtain ⟨g4, e4, hs⟩ := Res.bind_eq_ok hs
    have k1 := hk.setInt ct _ _ hct e1
    have k2 := k1.setInt dt _ _ hdt e2
    have k3 := k2.setInt sz _ _ hsz e3
    have k4 := k3.setFloat rt _ _ hrt e4
    exact ih _ _ _ k4 hs

theorem aggregateLibraryMem_keeps (h0 h : Heap) (hk : Heap.Keeps h0 h)
    (nResults n libraryID : Nat) (agg : Nat) (h1 : Heap)
    (hs : aggregateLibraryMem nResults n libraryID h = .ok (agg, h1)) :
    Heap.Keeps h0 h1 := by
  unfold aggregateLibraryMem at hs
  obtain ⟨outer, -, hs⟩ := Res.bind_eq_ok hs
  obtain ⟨first, -, hs⟩ := Res.bind_eq_ok hs
  obtain ⟨fs, -, hs⟩ := Res.bind_eq_ok hs
  obtain ⟨p, -, hs⟩ := Res.bind_eq_ok hs
  obtain ⟨named, -, hs⟩ := Res.bind_eq_ok hs
  simp only at hs
  obtain ⟨g1, e1, hs⟩ := Res.bind_eq_ok hs
  obtain ⟨⟨m1, g2⟩, e2, hs⟩ := Res.bind_eq_ok hs
  obtain ⟨⟨m2, g3⟩, e3, hs⟩ := Res.bind_eq_ok hs
  obtain ⟨⟨m3, g4⟩, e4, hs⟩ := Res.bind_eq_ok hs
  obtain ⟨⟨m4, g5⟩, e5, hs⟩ := Res.bind_eq_ok hs
  simp only [Res.ok.injEq] at hs
  have ka := (((hk.alloc (.ints (List.replicate n 0))).alloc
    (.ints (List.replicate n 0))).alloc (.ints (List.replicate n 0))).alloc
    (.floats (List.replicate n (F64.fin false 0 1)))
  have hlen := hk.1
  have a1 : h0.length ≤ (h.alloc (.ints (List.replicate n 0))).1 := hlen
  have a2 : h0.length ≤ ((h.alloc (.ints (List.replicate n 0))).2.alloc
      (.ints (List.replicate n 0))).1 := by
    simp only [Heap.alloc, List.length_append, List.length_singleton]; omega
  have a3 : h0.length ≤ (((h.alloc (.ints (List.replicate n 0))).2.alloc
      (.ints (List.replicate n 0))).2.alloc (.ints (List.replicate n 0))).1 := by
    simp only [Heap.alloc, List.length_append, List.length_singleton]; omega
  have a4 : h0.length ≤ ((((h.alloc (.ints (List.replicate n 0))).2.alloc
      (.ints (List.replicate n 0))).2.alloc (.ints (List.replicate n 0))).2.alloc
      (.floats (List.replicate n (F64.fin false 0 1)))).1 := by
    simp only [Heap.alloc, List.length_append, List.length_singleton]; omega
  have k1 := fillLoop_keeps h0 _ _ _ _ _ _ a1 a2 a3 a4 n 0 _ _ ka e1
  have k2 := findMedianTimeMem_keeps k1 _ a1 _ _ e2
  have k3 := findMedianTimeMem_keeps k2 _ a2 _ _ e3
  have k4 := findMedianIntMem_keeps k3 _ a3 _ _ e4
  have k5 := findMedianFloat64Mem_keeps k4 _ a4 _ _ e5
  have e := congrArg Prod.snd hs
  simp only at e
  rw [← e]
  exact k5.alloc _

theorem aggregateLoopMem_keeps (h0 : Heap) (nResults n : Nat) (ids : List Nat) :
    ∀ (final : List Nat) (h : Heap) (out : List Nat) (h1 : Heap), Heap.Keeps h0 h →
      aggregateLoopMem nResults n ids final h = .ok (out, h1) → Heap.Keeps h0 h1 := by
  induction ids with
  | nil =>
    intro final h out h1 hk hs
    simp only [aggregateLoopMem, Res.ok.injEq, Prod.mk.injEq] at hs
    rw [← hs.2]
    exact hk
  | cons id rest ih =>
    intro final h out h1 hk hs
    unfold aggregateLoopMem at hs
    obtain ⟨⟨agg, g⟩, e, hs⟩ := Res.bind_eq_ok hs
    exact ih _ _ _ _ (aggregateLibraryMem_keeps h0 h hk _ _ _ _ _ e) hs

/-- The memory after `aggregateResults` holds everything the memory before held. -/
theorem aggregateResultsMem_keeps (h : Heap) (nResults : Nat) (out : List Nat) (h1 : Heap)
    (hs : aggregateResultsMem h nResults = .ok (out, h1)) : Heap.Keeps h h1 := by
  unfold aggregateResultsMem at hs
  obtain ⟨outer, -, hs⟩ := Res.bind_eq_ok hs
  split_ifs at hs
  · simp only [Res.ok.injEq, Prod.mk.injEq] at hs
    rw [← hs.2]
    exact Heap.Keeps.refl h
  · obtain ⟨first, -, hs⟩ := Res.bind_eq_ok hs
    obtain ⟨fs, -, hs⟩ := Res.bind_eq_ok hs
    exact aggregateLoopMem_keeps h _ _ _ _ _ _ _ (Heap.Keeps.refl h) hs

/-- A read that succeeds in `h0` gives the same value in a memory that keeps `h0`. -/
theorem Heap.Keeps.ptrs {h0 h : Heap} (hk : Heap.Keeps h0 h) (a : Nat) (xs : List Nat)
    (hr : h0.ptrs a = .ok xs) : h.ptrs a = .ok xs := by
  unfold Heap.ptrs at hr ⊢
  have ha : a < h0.length := by
    by_contra hcon
    rw [List.getElem?_eq_none (by omega)] at hr
    simp at hr
  rw [hk.2 a ha]
  exact hr

theorem Heap.Keeps.result {h0 h : Heap} (hk : Heap.Keeps h0 h) (a : Nat)
    (r : BenchmarkResult) (hr : h0.result a = .ok r) : h.result a = .ok r := by
  unfold Heap.result at hr ⊢
  have ha : a < h0.length := by
    by_contra hcon
    rw [List.getElem?_eq_none (by omega)] at hr
    simp at hr
  rw [hk.2 a ha]
  exact hr

theorem Heap.Keeps.results {h0 h : Heap} (hk : Heap.Keeps h0 h) (ps : List Nat) :
    ∀ rs, h0.results ps = .ok rs → h.results ps = .ok rs := by
  induction ps with
  | nil => intro rs hr; exact hr
  | cons p ps ih =>
    intro rs hr
    unfold Heap.results at hr ⊢
    obtain ⟨r, e1, hr⟩ := Res.bind_eq_ok hr
    obtain ⟨rest, e2, hr⟩ := Res.bind_eq_ok hr
    rw [hk.result p r e1, ok_bind, ih rest e2, ok_bind]
    exact hr

theorem Heap.Keeps.trialList {h0 h : Heap} (hk : Heap.Keeps h0 h) (as : List Nat) :
    ∀ ts, h0.trialList as = .ok ts → h.trialList as = .ok ts := by
  induction as with
  | nil => intro ts hr; exact hr
  | cons a as ih =>
    intro ts hr
    unfold Heap.trialList at hr ⊢
    obtain ⟨ps, e1, hr⟩ := Res.bind_eq_ok hr
    obtain ⟨t, e2, hr⟩ := Res.bind_eq_ok hr
    obtain ⟨rest, e3, hr⟩ := Res.bind_eq_ok hr
    rw [hk.ptrs a ps e1, ok_bind, hk.results ps t e2, ok_bind, ih rest e3, ok_bind]
    exact hr

theorem Heap.Keeps.trials {h0 h : Heap} (hk : Heap.Keeps h0 h) (a : Nat)
    (ts : List (List BenchmarkResult)) (hr : h0.trials a = .ok ts) : h.trials a = .ok ts := by
  unfold Heap.trials at hr ⊢
  obtain ⟨outer, e1, hr⟩ := Res.bind_eq_ok hr
  rw [hk.ptrs a outer e1, ok_bind]
  exact hk.trialList outer ts hr

/-! ## Claim C24: the input of the aggregation is left unchanged -/

/-- Claim C24: `aggregateResults` leaves its input unchanged.  With the memory explicit,
where the median helpers sort the slice they are given in place, every cell that exists
before the call holds the same value after it, so the slice of trials at `nResults` still
holds the same `BenchmarkResult` values in the same order: the helpers only ever sort
the slices that `aggregateResults` has made itself. -/
theorem aggregateResultsMem_frame (h : Heap) (nResults : Nat) (out : List Nat) (h1 : Heap)
    (hs : aggregateResultsMem h nResults = .ok (out, h1)) :
    h.length ≤ h1.length ∧ (∀ a, a < h.length → h1[a]? = h[a]?) ∧
    ∀ ts, h.trials nResults = .ok ts → h1.trials nResults = .ok ts := by
  have hk := aggregateResultsMem_keeps h nResults out h1 hs
  exact ⟨hk.1, hk.2, fun ts hts => hk.trials nResults ts hts⟩

/-- C24 at the three trials of one library: the call returns, the slice of compress times
it made, at address 7, has been sorted in place from `10, 30, 20` to `10, 20, 30`, and
the three trials are as before. -/
theorem aggregateResultsMem_frame_witness :
    ∃ out h1, aggregateResultsMem threeTrialsHeap 6 = .ok (out, h1) ∧
      h1.ints 7 = .ok [10, 20, 30] ∧
      threeTrialsHeap.trials 6 = .ok threeTrials ∧ h1.trials 6 = .ok threeTrials ∧
      h1.results out = aggregateResults threeTrials := by
  have hs : ∃ out h1, aggregateResultsMem threeTrialsHeap 6 = .ok (out, h1) ∧
      h1.ints 7 = .ok [10, 20, 30] ∧ h1.results out = aggregateResults threeTrials := by
    refine ⟨_, _, rfl, ?_, ?_⟩
    · decide
    · decide
  obtain ⟨out, h1, hs, h7, hres⟩ := hs
  have ht : threeTrialsHeap.trials 6 = .ok threeTrials := by decide
  exact ⟨out, h1, hs, h7, ht, (aggregateResultsMem_frame threeTrialsHeap 6 out h1 hs).2.2 _ ht,
    hres⟩

/-! ## Theorems: the aggregation with explicit memory computes the aggregation -/

theorem Heap.results_length {h : Heap} : ∀ (ps : List Nat) (rs : List BenchmarkResult),
    h.results ps = .ok rs → rs.length = ps.length := by
  intro ps
  induction ps with
  | nil =>
    intro rs hr
    simp only [Heap.results, Res.ok.injEq] at hr
    rw [← hr]
    rfl
  | cons p ps ih =>
    intro rs hr
    unfold Heap.results at hr
    obtain ⟨r, -, hr⟩ := Res.bind_eq_ok hr
    obtain ⟨rest, e2, hr⟩ := Res.bind_eq_ok hr
    simp only [Res.ok.injEq] at hr
    rw [← hr, List.length_cons, List.length_cons, ih rest e2]

/-- The record at index `i` of a trial is behind the pointer at index `i`. -/
theorem Heap.results_get {h : Heap} : ∀ (ps : List Nat) (rs : List BenchmarkResult),
    h.results ps = .ok rs → ∀ (i : Nat) (r : BenchmarkResult), rs[i]? = some r →
      ∃ p, ps[i]? = some p ∧ h.result p = .ok r := by
  intro ps
  induction ps with
  | nil =>
    intro rs hr i r hi
    simp only [Heap.results, Res.ok.injEq] at hr
    rw [← hr] at hi
    simp at hi
  | cons p ps ih =>
    intro rs hr i r hi
    unfold Heap.results at hr
    obtain ⟨r0, e1, hr⟩ := Res.bind_eq_ok hr
    obtain ⟨rest, e2, hr⟩ := Res.bind_eq_ok hr
    simp only [Res.ok.injEq] at hr
    rw [← hr] at hi
    cases i with
    | zero =>
      simp only [List.getElem?_cons_zero, Option.some.injEq] at hi
      exact ⟨p, List.getElem?_cons_zero, by rw [← hi]; exact e1⟩
    | succ i =>
      simp only [List.getElem?_cons_succ] at hi
      obtain ⟨q, hq, hres⟩ := ih rest e2 i r hi
      exact ⟨q, by simp only [List.getElem?_cons_succ]; exact hq, hres⟩

theorem collectColumn_cons {i : Nat} {t : List BenchmarkResult}
    {ts : List (List BenchmarkResult)} {col : List BenchmarkResult}
    (h : collectColumn i (t :: ts) = .ok col) :
    ∃ r rest, index t i = .ok r ∧ collectColumn i ts = .ok rest ∧ col = r :: rest := by
  unfold collectColumn at h
  obtain ⟨r, e1, h⟩ := Res.bind_eq_ok h
  obtain ⟨rest, e2, h⟩ := Res.bind_eq_ok h
  simp only [pure_eq_ok, Res.ok.injEq] at h
  exact ⟨r, rest, e1, e2, h.symm⟩

theorem index_get {α : Type} {xs : List α} {i : Nat} {x : α} (h : index xs i = .ok x) :
    xs[i]? = some x := by
  unfold index at h
  split at h
  · rename_i y hy
    simp only [Res.ok.injEq] at h
    rw [hy, h]
  · simp at h

theorem index_of_get {α : Type} {xs : List α} {i : Nat} {x : α} (h : xs[i]? = some x) :
    index xs i = .ok x := by
  unfold index
  rw [h]

/-- What round `j` of the inner loop reads: the slice of trial `j`, in it the pointer of
library `i`, and behind it the entry `j` of the column. -/
theorem column_reads {h : Heap} (i : Nat) : ∀ (outer : List Nat)
    (ts : List (List BenchmarkResult)) (col : List BenchmarkResult),
    h.trialList outer = .ok ts → collectColumn i ts = .ok col →
    col.length = outer.length ∧
    ∀ j, j < col.length → ∃ aj rs p r, outer[j]? = some aj ∧ h.ptrs aj = .ok rs ∧
      rs[i]? = some p ∧ h.result p = .ok r ∧ col[j]? = some r := by
  intro outer
  induction outer with
  | nil =>
    intro ts col ht hc
    simp only [Heap.trialList, Res.ok.injEq] at ht
    rw [← ht] at hc
    simp only [collectColumn, Res.ok.injEq] at hc
    rw [← hc]
    exact ⟨rfl, fun j hj => absurd hj (by simp)⟩
  | cons a0 as ih =>
    intro ts col ht hc
    unfold Heap.trialList at ht
    obtain ⟨ps, e1, ht⟩ := Res.bind_eq_ok ht
    obtain ⟨t, e2, ht⟩ := Res.bind_eq_ok ht
    obtain ⟨rest, e3, ht⟩ := Res.bind_eq_ok ht
    simp only [Res.ok.injEq] at ht
    rw [← ht] at hc
    obtain ⟨r0, col', c1, c2, rfl⟩ := collectColumn_cons hc
    obtain ⟨hlen, hall⟩ := ih rest col' e3 c2
    refine ⟨by simp [hlen], ?_⟩
    intro j hj
    cases j with
    | zero =>
      obtain ⟨p, hp, hres⟩ := Heap.results_get ps t e2 i r0 (index_get c1)
      exact ⟨a0, ps, p, r0, List.getElem?_cons_zero, e1, hp, hres, List.getElem?_cons_zero⟩
    | succ j =>
      have hj' : j < col'.length := by simpa using hj
      obtain ⟨aj, rs, p, r, h1, h2, h3, h4, h5⟩ := hall j hj'
      exact ⟨aj, rs, p, r, by simp only [List.getElem?_cons_succ]; exact h1, h2, h3, h4,
        by simp only [List.getElem?_cons_succ]; exact h5⟩

/-- One more position of a slice filled: bookkeeping for the inner loop. -/
theorem fill_step {α : Type} (ys xs vals : List α) (j k : Nat) (v : α)
    (hv : vals[j]? = some v) (hj : j < xs.length)
    (h : ys.length = (xs.set j v).length ∧ (∀ idx, idx < j + 1 → ys[idx]? = (xs.set j v)[idx]?) ∧
      ∀ idx, j + 1 ≤ idx → idx < j + 1 + k → ys[idx]? = vals[idx]?) :
    ys.length = xs.length ∧ (∀ idx, idx < j → ys[idx]? = xs[idx]?) ∧
      ∀ idx, j ≤ idx → idx < j + (k + 1) → ys[idx]? = vals[idx]? := by
  obtain ⟨h1, h2, h3⟩ := h
  refine ⟨by rw [h1, List.length_set], ?_, ?_⟩
  · intro idx hidx
    rw [h2 idx (by omega), List.getElem?_set_ne (by omega)]
  · intro idx hlo hhi
    rcases Nat.eq_or_lt_of_le hlo with heq | hlt
    · rw [← heq, h2 j (by omega), List.getElem?_set_self hj, hv]
    · exact h3 idx (by omega) (by omega)

theorem heap_get0 (h : Heap) (c1 c2 c3 c4 : Cell) :
    (h ++ [c1, c2, c3, c4])[h.length]? = some c1 := by
  rw [List.getElem?_append_right (le_refl _), Nat.sub_self]
  rfl

theorem heap_get1 (h : Heap) (c1 c2 c3 c4 : Cell) :
    (h ++ [c1, c2, c3, c4])[h.length + 1]? = some c2 := by
  rw [List.getElem?_append_right (by omega), Nat.add_sub_cancel_left]
  rfl

theorem heap_get2 (h : Heap) (c1 c2 c3 c4 : Cell) :
    (h ++ [c1, c2, c3, c4])[h.length + 2]? = some c3 := by
  rw [List.getElem?_append_right (by omega), Nat.add_sub_cancel_left]
  rfl

theorem heap_get3 (h : Heap) (c1 c2 c3 c4 : Cell) :
    (h ++ [c1, c2, c3, c4])[h.length + 3]? = some c4 := by
  rw [List.getElem?_append_right (by omega), Nat.add_sub_cancel_left]
  rfl

theorem heap_set0 (h : Heap) (c1 c2 c3 c4 c : Cell) :
    List.set (h ++ [c1, c2, c3, c4]) h.length c = h ++ [c, c2, c3, c4] := by
  rw [List.set_append_right _ _ (le_refl _), Nat.sub_self]
  rfl

theorem heap_set1 (h : Heap) (c1 c2 c3 c4 c : Cell) :
    List.set (h ++ [c1, c2, c3, c4]) (h.length + 1) c = h ++ [c1, c, c3, c4] := by
  rw [List.set_append_right _ _ (by omega), Nat.add_sub_cancel_left]
  rfl

theorem heap_set2 (h : Heap) (c1 c2 c3 c4 c : Cell) :
    List.set (h ++ [c1, c2, c3, c4]) (h.length + 2) c = h ++ [c1, c2, c, c4] := by
  rw [List.set_append_right _ _ (by omega), Nat.add_sub_cancel_left]
  rfl

theorem heap_set3 (h : Heap) (c1 c2 c3 c4 c : Cell) :
    List.set (h ++ [c1, c2, c3, c4]) (h.length + 3) c = h ++ [c1, c2, c3, c] := by
  rw [List.set_append_right _ _ (by omega), Nat.add_sub_cancel_left]
  rfl

theorem Heap.Keeps.append {h0 h : Heap} (hk : Heap.Keeps h0 h) (cs : List Cell) :
    Heap.Keeps h0 (h ++ cs) := by
  refine ⟨?_, fun a ha => ?_⟩
  · rw [List.length_append]
    have := hk.1
    omega
  · rw [List.getElem?_append_left (lt_of_lt_of_le ha hk.1)]
    exact hk.2 a ha

theorem setInt0 (h : Heap) (xc : List Int) (c2 c3 c4 : Cell) (j : Nat) (v : Int)
    (hj : j < xc.length) :
    Heap.setInt (h ++ [.ints xc, c2, c3, c4]) h.length j v
      = .ok (h ++ [.ints (xc.set j v), c2, c3, c4]) := by
  unfold Heap.setInt Heap.ints
  rw [heap_get0]
  simp only
  rw [ok_bind, if_pos hj, heap_set0]

theorem setInt1 (h : Heap) (xd : List Int) (c1 c3 c4 : Cell) (j : Nat) (v : Int)
    (hj : j < xd.length) :
    Heap.setInt (h ++ [c1, .ints xd, c3, c4]) (h.length + 1) j v
      = .ok (h ++ [c1, .ints (xd.set j v), c3, c4]) := by
  unfold Heap.setInt Heap.ints
  rw [heap_get1]
  simp only
  rw [ok_bind, if_pos hj, heap_set1]

theorem setInt2 (h : Heap) (xs : List Int) (c1 c2 c4 : Cell) (j : Nat) (v : Int)
    (hj : j < xs.length) :
    Heap.setInt (h ++ [c1, c2, .ints xs, c4]) (h.length + 2) j v
      = .ok (h ++ [c1, c2, .ints (xs.set j v), c4]) := by
  unfold Heap.setInt Heap.ints
  rw [heap_get2]
  simp only
  rw [ok_bind, if_pos hj, heap_set2]

theorem setFloat3 (h : Heap) (xr : List F64) (c1 c2 c3 : Cell) (j : Nat) (v : F64)
    (hj : j < xr.length) :
    Heap.setFloat (h ++ [c1, c2, c3, .floats xr]) (h.length + 3) j v
      = .ok (h ++ [c1, c2, c3, .floats (xr.set j v)]) := by
  unfold Heap.setFloat Heap.floats
  rw [heap_get3]
  simp only
  rw [ok_bind, if_pos hj, heap_set3]

/-- The inner loop fills the four slices made for the library with the four metrics of
the column, position by position, and touches nothing else. -/
theorem fillLoop_fills (h0 h : Heap) (hk : Heap.Keeps h0 h) (a i : Nat) (outer : List Nat)
    (ts : List (List BenchmarkResult)) (col : List BenchmarkResult)
    (hptr : h0.ptrs a = .ok outer) (htl : h0.trialList outer = .ok ts)
    (hcol : collectColumn i ts = .ok col) (k : Nat) :
    ∀ (j : Nat) (xc xd xs : List Int) (xr : List F64), j + k = col.length →
      xc.length = col.length → xd.length = col.length → xs.length = col.length →
      xr.length = col.length →
      ∃ yc yd ys yr,
        fillLoop a i h.length (h.length + 1) (h.length + 2) (h.length + 3) k j
            (h ++ [.ints xc, .ints xd, .ints xs, .floats xr])
          = .ok (h ++ [.ints yc, .ints yd, .ints ys, .floats yr]) ∧
        (yc.length = xc.length ∧ (∀ idx, idx < j → yc[idx]? = xc[idx]?) ∧
          ∀ idx, j ≤ idx → idx < j + k → yc[idx]? = (col.map (·.CompressTime))[idx]?) ∧
        (yd.length = xd.length ∧ (∀ idx, idx < j → yd[idx]? = xd[idx]?) ∧
          ∀ idx, j ≤ idx → idx < j + k → yd[idx]? = (col.map (·.DecompressTime))[idx]?) ∧
        (ys.length = xs.length ∧ (∀ idx, idx < j → ys[idx]? = xs[idx]?) ∧
          ∀ idx, j ≤ idx → idx < j + k → ys[idx]? = (col.map (·.CompressedSize))[idx]?) ∧
        (yr.length = xr.length ∧ (∀ idx, idx < j → yr[idx]? = xr[idx]?) ∧
          ∀ idx, j ≤ idx → idx < j + k → yr[idx]? = (col.map (·.Ratio))[idx]?) := by
  induction k with
  | zero =>
    intro j xc xd xs xr _ _ _ _ _
    refine ⟨xc, xd, xs, xr, rfl, ?_, ?_, ?_, ?_⟩ <;>
      exact ⟨rfl, fun _ _ => rfl, fun idx h1 h2 => absurd h2 (by omega)⟩
  | succ k ih =>
    intro j xc xd xs xr hjk hc hd hs hr
    have hj : j < col.length := by omega
    obtain ⟨aj, rs, p, r, g1, g2, g3, g4, g5⟩ := (column_reads i outer ts col htl hcol).2 j hj
    have hkH := hk.append [.ints xc, .ints xd, .ints xs, .floats xr]
    obtain ⟨yc, yd, ys, yr, hrun, pc, pd, ps, pr⟩ := ih (j + 1) (xc.set j r.CompressTime)
      (xd.set j r.DecompressTime) (xs.set j r.CompressedSize) (xr.set j r.Ratio)
      (by omega) (by rw [List.length_set]; exact hc) (by rw [List.length_set]; exact hd)
      (by rw [List.length_set]; exact hs) (by rw [List.length_set]; exact hr)
    refine ⟨yc, yd, ys, yr, ?_, ?_, ?_, ?_, ?_⟩
    · unfold fillLoop
      rw [hkH.ptrs a outer hptr, ok_bind, index_of_get g1, ok_bind, hkH.ptrs aj rs g2, ok_bind,
        index_of_get g3, ok_bind, hkH.result p r g4, ok_bind,
        setInt0 h xc _ _ _ j _ (by omega), ok_bind,
        setInt1 h xd _ _ _ j _ (by omega), ok_bind,
        setInt2 h xs _ _ _ j _ (by omega), ok_bind,
        setFloat3 h xr _ _ _ j _ (by omega), ok_bind]
      exact hrun
    · exact fill_step yc xc _ j k r.CompressTime
        (by rw [List.getElem?_map, g5]; rfl) (by omega) pc
    · exact fill_step yd xd _ j k r.DecompressTime
        (by rw [List.getElem?_map, g5]; rfl) (by omega) pd
    · exact fill_step ys xs _ j k r.CompressedSize
        (by rw [List.getElem?_map, g5]; rfl) (by omega) ps
    · exact fill_step yr xr _ j k r.Ratio
        (by rw [List.getElem?_map, g5]; rfl) (by omega) pr

theorem eq_of_filled {α : Type} (ys xs vals : List α) (n : Nat) (hx : xs.length = n)
    (hv : vals.length = n)
    (h : ys.length = xs.length ∧ (∀ idx, idx < 0 → ys[idx]? = xs[idx]?) ∧
      ∀ idx, 0 ≤ idx → idx < 0 + n → ys[idx]? = vals[idx]?) : ys = vals := by
  obtain ⟨h1, -, h3⟩ := h
  apply List.ext_getElem?
  intro idx
  by_cases hi : idx < n
  · exact h3 idx (Nat.zero_le _) (by omega)
  · rw [List.getElem?_eq_none (by omega), List.getElem?_eq_none (by omega)]

/-- After the inner loop the four slices hold the four metrics of the column. -/
theorem fillLoop_column (h0 h : Heap) (hk : Heap.Keeps h0 h) (a i : Nat) (outer : List Nat)
    (ts : List (List BenchmarkResult)) (col : List BenchmarkResult)
    (hptr : h0.ptrs a = .ok outer) (htl : h0.trialList outer = .ok ts)
    (hcol : collectColumn i ts = .ok col) :
    fillLoop a i h.length (h.length + 1) (h.length + 2) (h.length + 3) outer.length 0
        (h ++ [.ints (List.replicate outer.length 0), .ints (List.replicate outer.length 0),
          .ints (List.replicate outer.length 0),
          .floats (List.replicate outer.length (F64.fin false 0 1))])
      = .ok (h ++ [.ints (col.map (·.CompressTime)), .ints (col.map (·.DecompressTime)),
          .ints (col.map (·.CompressedSize)), .floats (col.map (·.Ratio))]) := by
  have hlen := (column_reads i outer ts col htl hcol).1
  obtain ⟨yc, yd, ys, yr, hrun, pc, pd, ps, pr⟩ := fillLoop_fills h0 h hk a i outer ts col
    hptr htl hcol outer.length 0 (List.replicate outer.length 0)
    (List.replicate outer.length 0) (List.replicate outer.length 0)
    (List.replicate outer.length (F64.fin false 0 1)) (by omega) (by simp [hlen])
    (by simp [hlen]) (by simp [hlen]) (by simp [hlen])
  rw [hrun,
    eq_of_filled yc _ (col.map (·.CompressTime)) outer.length (by simp) (by simp [hlen]) pc,
    eq_of_filled yd _ (col.map (·.DecompressTime)) outer.length (by simp) (by simp [hlen]) pd,
    eq_of_filled ys _ (col.map (·.CompressedSize)) outer.length (by simp) (by simp [hlen]) ps,
    eq_of_filled yr _ (col.map (·.Ratio)) outer.length (by simp) (by simp [hlen]) pr]

theorem medTime0 (h : Heap) (xc : List Int) (c2 c3 c4 : Cell) (m : Int)
    (hm : findMedianTime xc = .ok m) :
    findMedianTimeMem (h ++ [.ints xc, c2, c3, c4]) h.length
      = .ok (m, h ++ [.ints (SortFunc xc (fun a b => wrap64 (a - b))), c2, c3, c4]) := by
  unfold findMedianTimeMem Heap.ints
  rw [heap_get0]
  simp only
  rw [ok_bind, hm, ok_bind, heap_set0]

theorem medTime1 (h : Heap) (xd : List Int) (c1 c3 c4 : Cell) (m : Int)
    (hm : findMedianTime xd = .ok m) :
    findMedianTimeMem (h ++ [c1, .ints xd, c3, c4]) (h.length + 1)
      = .ok (m, h ++ [c1, .ints (SortFunc xd (fun a b => wrap64 (a - b))), c3, c4]) := by
  unfold findMedianTimeMem Heap.ints
  rw [heap_get1]
  simp only
  rw [ok_bind, hm, ok_bind, heap_set1]

theorem medInt2 (h : Heap) (xs : List Int) (c1 c2 c4 : Cell) (m : Int)
    (hm : findMedianInt xs = .ok m) :
    findMedianIntMem (h ++ [c1, c2, .ints xs, c4]) (h.length + 2)
      = .ok (m, h ++ [c1, c2, .ints (SortFunc xs (fun a b => wrap64 (a - b))), c4]) := by
  unfold findMedianIntMem Heap.ints
  rw [heap_get2]
  simp only
  rw [ok_bind, hm, ok_bind, heap_set2]

theorem medFloat3 (h : Heap) (xr : List F64) (c1 c2 c3 : Cell) (m : F64)
    (hm : findMedianFloat64 xr = .ok m) :
    findMedianFloat64Mem (h ++ [c1, c2, c3, .floats xr]) (h.length + 3)
      = .ok (m, h ++ [c1, c2, c3,
          .floats (SortFunc xr (fun a b => (F64.sub a b).toInt64))]) := by
  unfold findMedianFloat64Mem Heap.floats
  rw [heap_get3]
  simp only
  rw [ok_bind, hm, ok_bind, heap_set3]

theorem alloc_four (h : Heap) (c1 c2 c3 c4 : Cell) :
    ((h.alloc c1).2.alloc c2).1 = h.length + 1 ∧
    (((h.alloc c1).2.alloc c2).2.alloc c3).1 = h.length + 2 ∧
    ((((h.alloc c1).2.alloc c2).2.alloc c3).2.alloc c4).1 = h.length + 3 ∧
    ((((h.alloc c1).2.alloc c2).2.alloc c3).2.alloc c4).2 = h ++ [c1, c2, c3, c4] := by
  simp [Heap.alloc]

theorem Heap.result_alloc (h : Heap) (r : BenchmarkResult) :
    Heap.result (h.alloc (.result r)).2 (h.alloc (.result r)).1 = .ok r := by
  unfold Heap.result Heap.alloc
  simp

/-- The body of the outer loop with explicit memory computes the aggregate of the
library, stores it in a new record, and keeps the memory it started from. -/
theorem aggregateLibraryMem_refines (h0 h : Heap) (hk : Heap.Keeps h0 h) (a i : Nat)
    (outer : List Nat) (ts : List (List BenchmarkResult)) (first : List BenchmarkResult)
    (r : BenchmarkResult) (hptr : h0.ptrs a = .ok outer) (htl : h0.trialList outer = .ok ts)
    (hfirst : ts.head? = some first) (hagg : aggregateLibrary ts first i = .ok r) :
    ∃ agg h1, aggregateLibraryMem a outer.length i h = .ok (agg, h1) ∧
      h1.result agg = .ok r ∧ Heap.Keeps h h1 := by
  unfold aggregateLibrary at hagg
  obtain ⟨named, e1, hagg⟩ := Res.bind_eq_ok hagg
  obtain ⟨col, e2, hagg⟩ := Res.bind_eq_ok hagg
  obtain ⟨m1, e3, hagg⟩ := Res.bind_eq_ok hagg
  obtain ⟨m2, e4, hagg⟩ := Res.bind_eq_ok hagg
  obtain ⟨m3, e5, hagg⟩ := Res.bind_eq_ok hagg
  obtain ⟨m4, e6, hagg⟩ := Res.bind_eq_ok hagg
  simp only [pure_eq_ok, Res.ok.injEq] at hagg
  subst hagg
  cases ts with
  | nil => simp at hfirst
  | cons t ts' =>
    simp only [List.head?_cons, Option.some.injEq] at hfirst
    subst hfirst
    cases outer with
    | nil => simp [Heap.trialList] at htl
    | cons a0 as =>
      have htl0 := htl
      unfold Heap.trialList at htl
      obtain ⟨fs, g1, htl⟩ := Res.bind_eq_ok htl
      obtain ⟨t0, g2, htl⟩ := Res.bind_eq_ok htl
      obtain ⟨rest, g3, htl⟩ := Res.bind_eq_ok htl
      simp only [Res.ok.injEq, List.cons.injEq] at htl
      obtain ⟨rfl, -⟩ := htl
      obtain ⟨p, hp, hres⟩ := Heap.results_get fs t0 g2 i named (index_get e1)
      obtain ⟨a1, a2, a3, a4⟩ := alloc_four h (.ints (List.replicate (a0 :: as).length 0))
        (.ints (List.replicate (a0 :: as).length 0))
        (.ints (List.replicate (a0 :: as).length 0))
        (.floats (List.replicate (a0 :: as).length (F64.fin false 0 1)))
      have hfill := fillLoop_column h0 h hk a i (a0 :: as) (t0 :: ts') col hptr htl0 e2
      refine ⟨(Heap.alloc (h ++ [.ints (SortFunc (col.map (·.CompressTime))
              (fun a b => wrap64 (a - b))),
            .ints (SortFunc (col.map (·.DecompressTime)) (fun a b => wrap64 (a - b))),
            .ints (SortFunc (col.map (·.CompressedSize)) (fun a b => wrap64 (a - b))),
            .floats (SortFunc (col.map (·.Ratio)) (fun a b => (F64.sub a b).toInt64))])
          (.result ⟨named.Name, m1, m2, m3, m4⟩)).1,
        (Heap.alloc (h ++ [.ints (SortFunc (col.map (·.CompressTime))
              (fun a b => wrap64 (a - b))),
            .ints (SortFunc (col.map (·.DecompressTime)) (fun a b => wrap64 (a - b))),
            .ints (SortFunc (col.map (·.CompressedSize)) (fun a b => wrap64 (a - b))),
            .floats (SortFunc (col.map (·.Ratio)) (fun a b => (F64.sub a b).toInt64))])
          (.result ⟨named.Name, m1, m2, m3, m4⟩)).2, ?_, Heap.result_alloc _ _,
        ((Heap.Keeps.refl h).append _).alloc _⟩
      unfold aggregateLibraryMem
      rw [hk.ptrs a _ hptr, ok_bind, index_of_get (List.getElem?_cons_zero), ok_bind,
        hk.ptrs a0 fs g1, ok_bind, index_of_get hp, ok_bind, hk.result p named hres, ok_bind]
      simp only
      rw [a1, a2, a3, a4]
      rw [show (h.alloc (Cell.ints (List.replicate (a0 :: as).length 0))).1 = h.length from rfl]
      rw [hfill, ok_bind, medTime0 h _ _ _ _ m1 e3, ok_bind]
      simp only
      rw [medTime1 h _ _ _ _ m2 e4, ok_bind]
      simp only
      rw [medInt2 h _ _ _ _ m3 e5, ok_bind]
      simp only
      rw [medFloat3 h _ _ _ _ m4 e6, ok_bind]

theorem Heap.results_append {h : Heap} (ps : List Nat) (rs : List BenchmarkResult) (p : Nat)
    (r : BenchmarkResult) (h1 : h.results ps = .ok rs) (h2 : h.result p = .ok r) :
    h.results (ps ++ [p]) = .ok (rs ++ [r]) := by
  induction ps generalizing rs with
  | nil =>
    simp only [Heap.results, Res.ok.injEq] at h1
    rw [← h1]
    simp only [List.nil_append]
    unfold Heap.results
    rw [h2, ok_bind]
    rfl
  | cons q qs ih =>
    unfold Heap.results at h1
    obtain ⟨r0, e1, h1⟩ := Res.bind_eq_ok h1
    obtain ⟨rest, e2, h1⟩ := Res.bind_eq_ok h1
    simp only [Res.ok.injEq] at h1
    rw [← h1]
    simp only [List.cons_append]
    unfold Heap.results
    rw [e1, ok_bind, ih rest e2, ok_bind]

/-- The outer loop with explicit memory appends to `final` pointers to the aggregates that
the loop on values returns. -/
theorem aggregateLoopMem_refines (h0 : Heap) (a : Nat) (outer : List Nat)
    (ts : List (List BenchmarkResult)) (first : List BenchmarkResult)
    (hptr : h0.ptrs a = .ok outer) (htl : h0.trialList outer = .ok ts)
    (hfirst : ts.head? = some first) (ids : List Nat) :
    ∀ (final : List Nat) (h : Heap) (done res : List BenchmarkResult), Heap.Keeps h0 h →
      h.results final = .ok done → aggregateLoop ts first ids = .ok res →
      ∃ out h1, aggregateLoopMem a outer.length ids final h = .ok (out, h1) ∧
        h1.results out = .ok (done ++ res) := by
  induction ids with
  | nil =>
    intro final h done res hk hdone hloop
    simp only [aggregateLoop, Res.ok.injEq] at hloop
    rw [← hloop, List.append_nil]
    exact ⟨final, h, rfl, hdone⟩
  | cons id rest ih =>
    intro final h done res hk hdone hloop
    unfold aggregateLoop at hloop
    obtain ⟨r, e1, hloop⟩ := Res.bind_eq_ok hloop
    obtain ⟨rs, e2, hloop⟩ := Res.bind_eq_ok hloop
    simp only [pure_eq_ok, Res.ok.injEq] at hloop
    obtain ⟨agg, g, hrun, hres, hkg⟩ := aggregateLibraryMem_refines h0 h hk a id outer ts first r
      hptr htl hfirst e1
    obtain ⟨out, h1, hrest, hout⟩ := ih (final ++ [agg]) g (done ++ [r]) rs (hk.trans hkg)
      (Heap.results_append final done agg r (hkg.results final done hdone) hres) e2
    refine ⟨out, h1, ?_, ?_⟩
    · unfold aggregateLoopMem
      rw [hrun, ok_bind]
      exact hrest
    · rw [hout, ← hloop, List.append_assoc]
      rfl

/-- The function `aggregateResults` with explicit memory computes what the function on
values computes: when the slice of trials at `nResults` reads as `ts` and the
aggregation of `ts` returns `res`, the call returns pointers to records that read as
`res`. -/
theorem aggregateResultsMem_refines (h : Heap) (nResults : Nat)
    (ts : List (List BenchmarkResult)) (res : List BenchmarkResult)
    (hts : h.trials nResults = .ok ts) (hres : aggregateResults ts = .ok res) :
    ∃ out h1, aggregateResultsMem h nResults = .ok (out, h1) ∧ h1.results out = .ok res := by
  unfold Heap.trials at hts
  obtain ⟨outer, hptr, htl⟩ := Res.bind_eq_ok hts
  cases outer with
  | nil =>
    simp only [Heap.trialList, Res.ok.injEq] at htl
    rw [← htl] at hres
    simp only [aggregateResults, Res.ok.injEq] at hres
    refine ⟨[], h, ?_, by rw [← hres]; rfl⟩
    unfold aggregateResultsMem
    rw [hptr, ok_bind]
    rfl
  | cons a0 as =>
    have htl0 := htl
    unfold Heap.trialList at htl
    obtain ⟨fs, g1, htl⟩ := Res.bind_eq_ok htl
    obtain ⟨t0, g2, htl⟩ := Res.bind_eq_ok htl
    obtain ⟨rest, g3, htl⟩ := Res.bind_eq_ok htl
    simp only [Res.ok.injEq] at htl
    subst htl
    have hloop : aggregateLoop (t0 :: rest) t0 (List.range t0.length) = .ok res := hres
    have hlen := Heap.results_length fs t0 g2
    obtain ⟨out, h1, hrun, hout⟩ := aggregateLoopMem_refines h nResults (a0 :: as)
      (t0 :: rest) t0 hptr htl0 rfl (List.range t0.length) [] h [] res (Heap.Keeps.refl h)
      rfl hloop
    refine ⟨out, h1, ?_, by simpa using hout⟩
    unfold aggregateResultsMem
    rw [hptr, ok_bind, if_neg (by simp), index_of_get (List.getElem?_cons_zero), ok_bind, g1,
      ok_bind, ← hlen]
    exact hrun

/-! ## Theorems: bounds on binary64 rounding -/

/-- Rounding to the nearest integer does not pass an integer bound from below. -/
theorem divRoundEven_le_of_le (n d C : Nat) (hd : 0 < d) (h : n ≤ C * d) :
    divRoundEven n d ≤ C := by
  have hdm := Nat.div_add_mod n d
  have hr := Nat.mod_lt n hd
  have hq : n / d ≤ C := by
    by_contra hc
    have : (C + 1) * d ≤ n / d * d := Nat.mul_le_mul_right d (by omega)
    have e : (C + 1) * d = C * d + d := by ring
    have e2 : n / d * d = d * (n / d) := Nat.mul_comm _ _
    omega
  rcases Nat.eq_or_lt_of_le hq with heq | hlt
  · have hr0 : n % d = 0 := by
      have e2 : d * (n / d) = C * d := by rw [heq, Nat.mul_comm]
      omega
    unfold divRoundEven
    simp only [hr0]
    rw [if_pos (by omega)]
    exact hq
  · have := divRoundEven_le n d
    omega

theorem divRoundEven_ge_of_le (n d C : Nat) (hd : 0 < d) (h : C * d ≤ n) :
    C ≤ divRoundEven n d :=
  le_trans ((Nat.le_div_iff_mul_le hd).mpr h) (divRoundEven_ge n d)

/-- The shape of a rounded fraction `num / den` between `1` and `2^64`: with `L` the
binary exponent of the fraction, the result is a multiple of `2^(L - 52)`; `e` and `j`
are the positive and the negative part of `L - 52`. -/
theorem round_fin (num den : Nat) (hden : 0 < den) (h1 : den ≤ num)
    (h64 : num < 2 ^ 64 * den) :
    ∃ e j : Nat, 52 + e = Nat.log 2 (num / den) + j ∧ (e = 0 ∨ j = 0) ∧
      F64.round false num den
        = .fin false (divRoundEven (num * 2 ^ j) (den * 2 ^ e) * 2 ^ e) (2 ^ j) := by
  have hnum : num ≠ 0 := by omega
  have hq64 : num / den < 2 ^ 64 := (Nat.div_lt_iff_lt_mul hden).mpr h64
  have hq0 : num / den ≠ 0 := by
    have : 0 < num / den := Nat.div_pos h1 hden
    omega
  have hL : Nat.log 2 (num / den) < 64 := Nat.log_lt_of_lt_pow hq0 hq64
  have hrat : ratLog2 num den = (Nat.log 2 (num / den) : Int) := by
    unfold ratLog2
    rw [if_pos h1, log2Floor_eq]
  unfold F64.round
  rw [if_neg hnum]
  simp only [hrat]
  set L := Nat.log 2 (num / den) with hLdef
  have he : max ((L : Int) - 52) (-1074) = (L : Int) - 52 := by omega
  simp only [he]
  by_cases hz : (0 : Int) ≤ (L : Int) - 52
  · refine ⟨L - 52, 0, by omega, Or.inr rfl, ?_⟩
    have hk : ((L : Int) - 52).toNat = L - 52 := by omega
    have hno : ¬ ((971 : Int) < (L : Int) - 52 ∨
        ((L : Int) - 52 = 971 ∧ 2 ^ 53 ≤ divRoundEven num (den * 2 ^ (L - 52)))) := by
      omega
    simp only [hz, if_true, hk, hno, if_false, pow_zero, Nat.mul_one]
  · refine ⟨0, 52 - L, by omega, Or.inl rfl, ?_⟩
    have hk : (-((L : Int) - 52)).toNat = 52 - L := by omega
    simp only [hz, if_false, hk, pow_zero, Nat.mul_one]

/-- A rounded fraction stays at or below a power of two that bounds the fraction. -/
theorem round_le_pow (num den a : Nat) (hden : 0 < den) (h1 : den ≤ num)
    (ha : a ≤ 63) (hle : num ≤ 2 ^ a * den) (lo : Nat) (hlo : lo ≤ 2 ^ 52)
    (hge : lo * den ≤ num) :
    (F64.round false num den).Within lo (2 ^ a) 1 := by
  have h64 : num < 2 ^ 64 * den := by
    have : 2 ^ a * den < 2 ^ 64 * den :=
      Nat.mul_lt_mul_of_pos_right (Nat.pow_lt_pow_right (by norm_num) (by omega)) hden
    omega
  obtain ⟨e, j, hej, hor, hround⟩ := round_fin num den hden h1 h64
  have hq0 : num / den ≠ 0 := by
    have : 0 < num / den := Nat.div_pos h1 hden
    omega
  have hpl : 2 ^ Nat.log 2 (num / den) ≤ num / den := Nat.pow_log_le_self 2 hq0
  have hLa : Nat.log 2 (num / den) ≤ a := by
    have hqa : num / den ≤ 2 ^ a := by
      have := (Nat.div_le_iff_le_mul_add_pred hden).mpr (by
        have : num ≤ den * 2 ^ a + (den - 1) := by rw [Nat.mul_comm]; omega
        exact this)
      exact this
    by_contra hc
    have : 2 ^ (a + 1) ≤ 2 ^ Nat.log 2 (num / den) :=
      Nat.pow_le_pow_right (by norm_num) (by omega)
    have e2 : 2 ^ (a + 1) = 2 * 2 ^ a := by rw [pow_succ]; ring
    have hpos : 0 < 2 ^ a := by positivity
    omega
  have hnum2L : 2 ^ Nat.log 2 (num / den) * den ≤ num := by
    have := Nat.mul_le_mul_right den hpl
    have h2 : num / den * den ≤ num := Nat.div_mul_le_self num den
    omega
  refine ⟨_, _, hround, by positivity, ?_, ?_⟩
  · -- lower bound
    rcases hor with he0 | hj0
    · subst he0
      simp only [pow_zero, Nat.mul_one]
      have : lo * 2 ^ j ≤ divRoundEven (num * 2 ^ j) den :=
        divRoundEven_ge_of_le _ _ _ hden (by
          calc lo * 2 ^ j * den = lo * den * 2 ^ j := by ring
            _ ≤ num * 2 ^ j := Nat.mul_le_mul_right _ hge)
      exact this
    · subst hj0
      simp only [pow_zero, Nat.mul_one]
      have hL : Nat.log 2 (num / den) = 52 + e := by omega
      rw [hL] at hnum2L
      have hm : 2 ^ 52 ≤ divRoundEven num (den * 2 ^ e) :=
        divRoundEven_ge_of_le _ _ _ (by positivity) (by
          calc 2 ^ 52 * (den * 2 ^ e) = 2 ^ (52 + e) * den := by rw [pow_add]; ring
            _ ≤ num := hnum2L)
      have hpe : 1 ≤ 2 ^ e := Nat.one_le_two_pow
      calc lo ≤ 2 ^ 52 := hlo
        _ ≤ divRoundEven num (den * 2 ^ e) := hm
        _ = divRoundEven num (den * 2 ^ e) * 1 := (Nat.mul_one _).symm
        _ ≤ divRoundEven num (den * 2 ^ e) * 2 ^ e := Nat.mul_le_mul_left _ hpe
  · -- upper bound
    have hea : e ≤ a + j := by omega
    have hm : divRoundEven (num * 2 ^ j) (den * 2 ^ e) ≤ 2 ^ (a + j - e) :=
      divRoundEven_le_of_le _ _ _ (by positivity) (by
        calc num * 2 ^ j ≤ 2 ^ a * den * 2 ^ j := Nat.mul_le_mul_right _ hle
          _ = 2 ^ (a + j - e + e) * den := by
            rw [Nat.sub_add_cancel hea, pow_add]; ring
          _ = 2 ^ (a + j - e) * (den * 2 ^ e) := by rw [pow_add]; ring)
    calc divRoundEven (num * 2 ^ j) (den * 2 ^ e) * 2 ^ e * 1
        = divRoundEven (num * 2 ^ j) (den * 2 ^ e) * 2 ^ e := Nat.mul_one _
      _ ≤ 2 ^ (a + j - e) * 2 ^ e := Nat.mul_le_mul_right _ hm
      _ = 2 ^ (a + j - e + e) := (pow_add 2 _ _).symm
      _ = 2 ^ a * 2 ^ j := by rw [Nat.sub_add_cancel hea, pow_add]

/-- A rounded fraction stays at or below a bound `c / 2^k` with `c < 2^53`: such a bound
lies on the grid of the result or on a coarser one. -/
theorem round_le_grid (num den c k : Nat) (hden : 0 < den) (h1 : den ≤ num)
    (hc : c < 2 ^ 53) (hle : num * 2 ^ k ≤ c * den) :
    (F64.round false num den).Within 1 c (2 ^ k) := by
  have hpk : 0 < 2 ^ k := by positivity
  have hnc : num < 2 ^ 53 * den := by
    have h2 : num * 1 ≤ num * 2 ^ k := Nat.mul_le_mul_left _ hpk
    have h3 : c * den < 2 ^ 53 * den := Nat.mul_lt_mul_of_pos_right hc hden
    omega
  have h64 : num < 2 ^ 64 * den := by
    have : 2 ^ 53 * den ≤ 2 ^ 64 * den := Nat.mul_le_mul_right _ (by norm_num)
    omega
  obtain ⟨e, j, hej, hor, hround⟩ := round_fin num den hden h1 h64
  have hq0 : num / den ≠ 0 := by
    have : 0 < num / den := Nat.div_pos h1 hden
    omega
  have hpl : 2 ^ Nat.log 2 (num / den) ≤ num / den := Nat.pow_log_le_self 2 hq0
  have hnum2L : 2 ^ Nat.log 2 (num / den) * den ≤ num := by
    have := Nat.mul_le_mul_right den hpl
    have h2 : num / den * den ≤ num := Nat.div_mul_le_self num den
    omega
  -- the exponent of the fraction is below `53 - k`
  have hLk : Nat.log 2 (num / den) + k < 53 := by
    by_contra hcon
    have h5 : 2 ^ 53 ≤ 2 ^ (Nat.log 2 (num / den) + k) :=
      Nat.pow_le_pow_right (by norm_num) (by omega)
    have h6 : 2 ^ (Nat.log 2 (num / den) + k) * den ≤ num * 2 ^ k := by
      calc 2 ^ (Nat.log 2 (num / den) + k) * den
          = 2 ^ Nat.log 2 (num / den) * den * 2 ^ k := by rw [pow_add]; ring
        _ ≤ num * 2 ^ k := Nat.mul_le_mul_right _ hnum2L
    have h7 : 2 ^ 53 * den ≤ 2 ^ (Nat.log 2 (num / den) + k) * den :=
      Nat.mul_le_mul_right _ h5
    have h8 : c * den < 2 ^ 53 * den := Nat.mul_lt_mul_of_pos_right hc hden
    omega
  have he0 : e = 0 := by omega
  subst he0
  have hkj : k ≤ j := by omega
  simp only [pow_zero, Nat.mul_one] at hround
  refine ⟨_, _, hround, by positivity, ?_, ?_⟩
  · have : 1 * 2 ^ j ≤ divRoundEven (num * 2 ^ j) den :=
      divRoundEven_ge_of_le _ _ _ hden (by
        calc 1 * 2 ^ j * den = den * 2 ^ j := by ring
          _ ≤ num * 2 ^ j := Nat.mul_le_mul_right _ h1)
    exact this
  · have hm : divRoundEven (num * 2 ^ j) den ≤ c * 2 ^ (j - k) :=
      divRoundEven_le_of_le _ _ _ hden (by
        calc num * 2 ^ j = num * 2 ^ k * 2 ^ (j - k) := by
              rw [Nat.mul_assoc, ← pow_add, Nat.add_sub_cancel' hkj]
          _ ≤ c * den * 2 ^ (j - k) := Nat.mul_le_mul_right _ hle
          _ = c * 2 ^ (j - k) * den := by ring)
    calc divRoundEven (num * 2 ^ j) den * 2 ^ k ≤ c * 2 ^ (j - k) * 2 ^ k :=
          Nat.mul_le_mul_right _ hm
      _ = c * 2 ^ j := by rw [Nat.mul_assoc, ← pow_add, Nat.sub_add_cancel hkj]

/-! ## Theorems: the loop of `formatBytes` -/

/-- The constant `1000` as a `float64`. -/
theorem ofNat_1000 : ∃ D, 0 < D ∧ F64.ofNat 1000 = .fin false (1000 * D) D := by
  obtain ⟨n, d, h, hd, hn⟩ := ofNat_isNat_small 1000 (by norm_num)
  exact ⟨d, hd, by rw [h, hn]⟩

theorem ge_1000 (n d : Nat) :
    F64.ge (.fin false n d) (F64.ofNat 1000) = true ↔ 1000 * d ≤ n := by
  obtain ⟨D, hD, h⟩ := ofNat_1000
  rw [h]
  simp only [F64.ge, signedNum_false, decide_eq_true_eq]
  constructor
  · intro hle
    have h2 : 1000 * D * d ≤ n * D := by exact_mod_cast hle
    have h3 : 1000 * d * D ≤ n * D := by
      calc 1000 * d * D = 1000 * D * d := by ring
        _ ≤ n * D := h2
    exact Nat.le_of_mul_le_mul_right h3 hD
  · intro hle
    have h3 : 1000 * D * d ≤ n * D := by
      calc 1000 * D * d = 1000 * d * D := by ring
        _ ≤ n * D := Nat.mul_le_mul_right _ hle
    exact_mod_cast h3

theorem div_1000 (n d : Nat) (hd : 0 < d) :
    F64.div (.fin false n d) (F64.ofNat 1000) = F64.round false n (d * 1000) := by
  obtain ⟨D, hD, h⟩ := ofNat_1000
  rw [h]
  have hm : 1000 * D ≠ 0 := by omega
  simp only [F64.div, hm, if_false, Bool.xor_false]
  exact round_congr false (n * D) (d * (1000 * D)) n (d * 1000)
    (Nat.mul_pos hd (by omega)) (by omega) (by ring)

theorem ge_of_within (x : F64) (lo p q : Nat) (hx : x.Within lo p q) (hlo : 1000 ≤ lo) :
    F64.ge x (F64.ofNat 1000) = true := by
  obtain ⟨n, d, rfl, hd, h1, -⟩ := hx
  rw [ge_1000]
  calc 1000 * d ≤ lo * d := Nat.mul_le_mul_right _ hlo
    _ ≤ n := h1

theorem not_ge_of_within (x : F64) (lo p q : Nat) (hx : x.Within lo p q)
    (hp : p < 1000 * q) : F64.ge x (F64.ofNat 1000) = false := by
  obtain ⟨n, d, rfl, hd, -, h2⟩ := hx
  rw [Bool.eq_false_iff]
  intro hge
  have h3 := (ge_1000 n d).mp hge
  have h4 : 1000 * d * q ≤ n * q := Nat.mul_le_mul_right _ h3
  have h5 : p * d < 1000 * q * d := Nat.mul_lt_mul_of_pos_right hp hd
  have e : 1000 * d * q = 1000 * q * d := by ring
  omega

/-- One division of the loop, with a power of two as the new upper bound. -/
theorem div_within_pow (x : F64) (lo a : Nat) (hx : x.Within lo (2 ^ (a + 9)) 1)
    (hge : F64.ge x (F64.ofNat 1000) = true) (ha : a ≤ 63) (lo' : Nat)
    (hlo' : lo' * 1000 ≤ lo) (h52 : lo' ≤ 2 ^ 52) :
    (F64.div x (F64.ofNat 1000)).Within lo' (2 ^ a) 1 := by
  obtain ⟨n, d, rfl, hd, h1, h2⟩ := hx
  have h3 := (ge_1000 n d).mp hge
  rw [div_1000 n d hd]
  apply round_le_pow n (d * 1000) a (by omega) (by omega) ha _ lo' h52
  · calc lo' * (d * 1000) = lo' * 1000 * d := by ring
      _ ≤ lo * d := Nat.mul_le_mul_right _ hlo'
      _ ≤ n := h1
  · have e : 2 ^ (a + 9) * d = 2 ^ a * (d * 512) := by rw [pow_add]; ring
    have h4 : 2 ^ a * (d * 512) ≤ 2 ^ a * (d * 1000) := Nat.mul_le_mul_left _ (by omega)
    omega

/-- One division of the loop, with a bound `c / 2^k` as the new upper bound. -/
theorem div_within_grid (x : F64) (lo p q c k : Nat) (hx : x.Within lo p q) (hq : 0 < q)
    (hge : F64.ge x (F64.ofNat 1000) = true) (hc : c < 2 ^ 53)
    (hpq : p * 2 ^ k ≤ c * q * 1000) :
    (F64.div x (F64.ofNat 1000)).Within 1 c (2 ^ k) := by
  obtain ⟨n, d, rfl, hd, -, h2⟩ := hx
  have h3 := (ge_1000 n d).mp hge
  rw [div_1000 n d hd]
  apply round_le_grid n (d * 1000) c k (by omega) (by omega) hc
  have h4 : n * 2 ^ k * q ≤ c * (d * 1000) * q := by
    calc n * 2 ^ k * q = n * q * 2 ^ k := by ring
      _ ≤ p * d * 2 ^ k := Nat.mul_le_mul_right _ h2
      _ = p * 2 ^ k * d := by ring
      _ ≤ c * q * 1000 * d := Nat.mul_le_mul_right _ hpq
      _ = c * (d * 1000) * q := by ring
  exact Nat.le_of_mul_le_mul_right h4 hq

theorem formatBytesLoop_succ (fuel : Nat) (f : F64) (unit : Int) :
    formatBytesLoop (fuel + 1) f unit
      = if F64.ge f (F64.ofNat 1000) then
          formatBytesLoop fuel (F64.div f (F64.ofNat 1000)) (wrap64 (unit + 1))
        else some (f, unit) := rfl

/-- A loop that has returned returns the same with more fuel. -/
theorem formatBytesLoop_more (fuel : Nat) : ∀ (f : F64) (unit : Int) (r : F64 × Int) (m : Nat),
    formatBytesLoop fuel f unit = some r → formatBytesLoop (fuel + m) f unit = some r := by
  induction fuel with
  | zero => intro f unit r m h; simp [formatBytesLoop] at h
  | succ fuel ih =>
    intro f unit r m h
    rw [show fuel + 1 + m = (fuel + m) + 1 by omega, formatBytesLoop_succ]
    rw [formatBytesLoop_succ] at h
    split_ifs at h ⊢ with hge
    · exact ih _ _ _ _ h
    · exact h

/-- A value of at most `2^(9 (k + 1))` is divided at most `k` times. -/
theorem formatBytesLoop_terminates (k : Nat) : ∀ (x : F64) (u : Int),
    x.Within 0 (2 ^ (9 * (k + 1))) 1 → k ≤ 6 → 0 ≤ u → u + (k : Int) < 2 ^ 63 →
    ∃ (f : F64) (i : Nat), i ≤ k ∧ formatBytesLoop (k + 1) x u = some (f, u + i) := by
  induction k with
  | zero =>
    intro x u hx _ _ _
    refine ⟨x, 0, le_refl _, ?_⟩
    rw [formatBytesLoop_succ, not_ge_of_within x 0 _ 1 hx (by norm_num)]
    simp
  | succ k ih =>
    intro x u hx hk hu0 hu1
    rw [formatBytesLoop_succ]
    by_cases hge : F64.ge x (F64.ofNat 1000) = true
    · rw [if_pos hge]
      have hw : wrap64 (u + 1) = u + 1 := wrap64_eq _ (by omega) (by omega)
      rw [hw]
      have hx' : x.Within 0 (2 ^ (9 * (k + 1) + 9)) 1 := by
        rw [show 9 * (k + 1) + 9 = 9 * (k + 1 + 1) by ring]
        exact hx
      have ha : 9 * (k + 1) ≤ 63 := by omega
      have hdiv := div_within_pow x 0 (9 * (k + 1)) hx' hge ha 0 (Nat.le_refl _)
        (Nat.zero_le _)
      obtain ⟨f, i, hi, hrun⟩ := ih _ (u + 1) hdiv (by omega) (by omega) (by push_cast at hu1; omega)
      refine ⟨f, i + 1, by omega, ?_⟩
      rw [hrun]
      congr 2
      push_cast
      ring
    · rw [if_neg hge]
      exact ⟨x, 0, Nat.zero_le _, by simp⟩

theorem ofInt_nonneg (size : Int) (h : 0 ≤ size) :
    F64.ofInt size = F64.round false size.toNat 1 := by
  unfold F64.ofInt
  have hneg : ¬ size < 0 := by omega
  have e : size.natAbs = size.toNat := by omega
  simp [hneg, e]

/-- The conversion `float64(size)` of a size below `2^53` is exact. -/
theorem ofInt_within_small (size : Int) (h0 : 0 ≤ size) (h : size < 2 ^ 53) :
    (F64.ofInt size).Within size.toNat size.toNat 1 := by
  have hs : size.toNat < 2 ^ 53 := by
    have : ((size.toNat : Nat) : Int) < 2 ^ 53 := by rw [Int.toNat_of_nonneg h0]; exact h
    exact_mod_cast this
  obtain ⟨n, d, hx, hd, hn⟩ := ofNat_isNat_small size.toNat hs
  rw [ofInt_nonneg size h0]
  unfold F64.ofNat at hx
  exact ⟨n, d, hx, hd, by rw [hn], by rw [hn]; omega⟩

/-- The conversion `float64(size)` of a positive 64-bit size keeps a lower bound `lo`
and does not exceed `2^63`. -/
theorem ofInt_within_large (size : Int) (lo : Nat) (hlo : lo ≤ 2 ^ 52) (h1 : 1 ≤ size)
    (hge : (lo : Int) ≤ size) (h : size < 2 ^ 63) : (F64.ofInt size).Within lo (2 ^ 63) 1 := by
  rw [ofInt_nonneg size (by omega)]
  have hs : size.toNat < 2 ^ 63 := by
    have : ((size.toNat : Nat) : Int) < 2 ^ 63 := by
      rw [Int.toNat_of_nonneg (by omega)]; exact h
    exact_mod_cast this
  have hlo' : lo ≤ size.toNat := by omega
  exact round_le_pow size.toNat 1 63 (by norm_num) (by omega) (le_refl _) (by omega) lo hlo
    (by omega)

/-- A size below `10^12` is divided at most three times: after the third division the
value is below 1000. -/
theorem formatBytesLoop_small (x : F64) (u : Int) (hx : x.Within 0 (10 ^ 12 - 1) 1)
    (hu0 : 0 ≤ u) (hu1 : u < 2 ^ 62) :
    ∃ (f : F64) (i : Nat), i ≤ 3 ∧ formatBytesLoop 4 x u = some (f, u + i) := by
  have hw : ∀ v : Int, 0 ≤ v → v < 2 ^ 62 + 3 → wrap64 (v + 1) = v + 1 := by
    intro v h1 h2
    exact wrap64_eq _ (by omega) (by omega)
  rw [formatBytesLoop_succ]
  by_cases h0 : F64.ge x (F64.ofNat 1000) = true
  · rw [if_pos h0, hw u hu0 (by omega)]
    have x1 := div_within_grid x 0 (10 ^ 12 - 1) 1 (10 ^ 9 * 2 ^ 23 - 1) 23 hx (by norm_num)
      h0 (by norm_num) (by norm_num)
    rw [formatBytesLoop_succ]
    by_cases h1 : F64.ge (F64.div x (F64.ofNat 1000)) (F64.ofNat 1000) = true
    · rw [if_pos h1, hw (u + 1) (by omega) (by omega)]
      have x2 := div_within_grid _ 1 (10 ^ 9 * 2 ^ 23 - 1) (2 ^ 23) (10 ^ 6 * 2 ^ 33 - 1) 33 x1
        (by norm_num) h1 (by norm_num) (by norm_num)
      rw [formatBytesLoop_succ]
      by_cases h2 : F64.ge (F64.div (F64.div x (F64.ofNat 1000)) (F64.ofNat 1000))
          (F64.ofNat 1000) = true
      · rw [if_pos h2, hw (u + 1 + 1) (by omega) (by omega)]
        have x3 := div_within_grid _ 1 (10 ^ 6 * 2 ^ 33 - 1) (2 ^ 33) (10 ^ 3 * 2 ^ 43 - 1) 43 x2
          (by norm_num) h2 (by norm_num) (by norm_num)
        have h3 := not_ge_of_within _ 1 (10 ^ 3 * 2 ^ 43 - 1) (2 ^ 43) x3 (by norm_num)
        rw [formatBytesLoop_succ, h3]
        simp only [Bool.false_eq_true, if_false]
        exact ⟨_, 3, le_refl _,
          by rw [show u + 1 + 1 + 1 = u + ((3 : Nat) : Int) by push_cast; ring]⟩
      · rw [if_neg h2]
        exact ⟨_, 2, by norm_num,
          by rw [show u + 1 + 1 = u + ((2 : Nat) : Int) by push_cast; ring]⟩
    · rw [if_neg h1]
      exact ⟨_, 1, by norm_num, by rw [show u + 1 = u + ((1 : Nat) : Int) by push_cast; ring]⟩
  · rw [if_neg h0]
    exact ⟨x, 0, Nat.zero_le _, by simp⟩

/-- A size of at least `10^12` is divided at least four times, and at most six times. -/
theorem formatBytesLoop_large (x : F64) (hx : x.Within (10 ^ 12) (2 ^ 63) 1) :
    ∃ (f : F64) (i : Nat), i ≤ 2 ∧ formatBytesLoop 7 x 0 = some (f, (4 : Int) + i) := by
  have h0 := ge_of_within x _ _ _ hx (by norm_num)
  have x1 := div_within_pow x (10 ^ 12) 54 hx h0 (by norm_num) (10 ^ 9) (by norm_num)
    (by norm_num)
  have h1 := ge_of_within _ _ _ _ x1 (by norm_num)
  have x2 := div_within_pow _ (10 ^ 9) 45 x1 h1 (by norm_num) (10 ^ 6) (by norm_num)
    (by norm_num)
  have h2 := ge_of_within _ _ _ _ x2 (by norm_num)
  have x3 := div_within_pow _ (10 ^ 6) 36 x2 h2 (by norm_num) (10 ^ 3) (by norm_num)
    (by norm_num)
  have h3 := ge_of_within _ _ _ _ x3 (by norm_num)
  have x4 := div_within_pow _ (10 ^ 3) 27 x3 h3 (by norm_num) 0 (by norm_num)
    (by norm_num)
  obtain ⟨f, i, hi, hrun⟩ := formatBytesLoop_terminates 2 _ 4 x4 (by norm_num) (by norm_num)
    (by norm_num)
  refine ⟨f, i, hi, ?_⟩
  rw [formatBytesLoop_succ, if_pos h0, formatBytesLoop_succ, if_pos h1, formatBytesLoop_succ,
    if_pos h2, formatBytesLoop_succ, if_pos h3]
  rw [show wrap64 (wrap64 (wrap64 (wrap64 (0 + 1) + 1) + 1) + 1) = 4 by decide]
  exact hrun

/-- A negative size is below 1000. -/
theorem round_true_ge (num den : Nat) :
    F64.ge (F64.round true num den) (F64.ofNat 1000) = false := by
  obtain ⟨D, hD, h⟩ := ofNat_1000
  rw [h]
  have key : ∀ n j : Nat, F64.ge (.fin true n (2 ^ j)) (.fin false (1000 * D) D) = false := by
    intro n j
    simp only [F64.ge, F64.signedNum, if_true, Bool.false_eq_true, if_false,
      decide_eq_false_iff_not, not_le]
    have h1 : (0 : Int) < ((1000 * D * 2 ^ j : Nat) : Int) := by
      have : 0 < 1000 * D * 2 ^ j := by positivity
      exact_mod_cast this
    have h2 : (0 : Int) ≤ ((n * D : Nat) : Int) := Int.natCast_nonneg _
    omega
  unfold F64.round
  simp only
  split_ifs
  · exact key 0 0
  · rfl
  · have := key (divRoundEven num (den * 2 ^ (max (ratLog2 num den - 52) (-1074)).toNat)
      * 2 ^ (max (ratLog2 num den - 52) (-1074)).toNat) 0
    simpa using this
  · exact key _ _

/-- The fuel of `formatBytes` is never exhausted: for every 64-bit size the loop has
returned after seven tests of its condition, and more fuel changes nothing. -/
theorem formatBytesLoop_fuel (size : Int) (h : size < 2 ^ 63) :
    ∃ r, formatBytesLoop 7 (F64.ofInt size) 0 = some r ∧
      ∀ m, formatBytesLoop (7 + m) (F64.ofInt size) 0 = some r := by
  have hmore : ∀ r, formatBytesLoop 7 (F64.ofInt size) 0 = some r →
      ∃ r, formatBytesLoop 7 (F64.ofInt size) 0 = some r ∧
        ∀ m, formatBytesLoop (7 + m) (F64.ofInt size) 0 = some r :=
    fun r hr => ⟨r, hr, fun m => formatBytesLoop_more 7 _ _ r m hr⟩
  rcases lt_trichotomy size 0 with hneg | hzero | hpos
  · apply hmore (F64.ofInt size, 0)
    rw [formatBytesLoop_succ]
    unfold F64.ofInt
    simp only [hneg, decide_True]
    rw [round_true_ge]
    simp
  · subst hzero
    exact hmore _ (by decide : formatBytesLoop 7 (F64.ofInt 0) 0 = some (F64.fin false 0 1, 0))
  · have hx := ofInt_within_large size 0 (by norm_num) (by omega) (by simp; omega) h
    obtain ⟨f, i, -, hrun⟩ := formatBytesLoop_terminates 6 _ 0 hx (le_refl _) (le_refl _)
      (by norm_num)
    exact hmore _ hrun

/-! ## Claim C31: the unit table of `formatBytes` -/

/-- Claim C31: for every size with `0 ≤ size < 10^12`, `formatBytes` leaves its loop after
at most three divisions by 1000 (four tests of the condition), with a unit index from 0
to 3, which is within the four entries of `unitLadder`, and returns the formatted string;
for every 64-bit size of at least `10^12` the loop ends with a unit index of at least 4,
the lookup in `unitLadder` is out of range, and the function panics. -/
theorem formatBytes_unit_index (formatFloat : F64 → GoString) (size : Int) :
    (0 ≤ size → size < 10 ^ 12 →
      ∃ f unit u, formatBytesLoop 4 (F64.ofInt size) 0 = some (f, unit) ∧
        formatBytesLoop 7 (F64.ofInt size) 0 = some (f, unit) ∧
        0 ≤ unit ∧ unit ≤ 3 ∧ index unitLadder unit.toNat = .ok u ∧
        formatBytes formatFloat size = .ok (formatFloat f ++ str " " ++ u)) ∧
    (10 ^ 12 ≤ size → size < 2 ^ 63 →
      ∃ f unit, formatBytesLoop 7 (F64.ofInt size) 0 = some (f, unit) ∧ 4 ≤ unit ∧
        index unitLadder unit.toNat = (Res.panic : Res GoString) ∧
        formatBytes formatFloat size = .panic) := by
  constructor
  · intro h0 h12
    obtain ⟨n, d, hx, hd, -, hn⟩ := ofInt_within_small size h0 (by omega)
    have hs : size.toNat ≤ 10 ^ 12 - 1 := by omega
    have hw : (F64.ofInt size).Within 0 (10 ^ 12 - 1) 1 :=
      ⟨n, d, hx, hd, by omega, le_trans hn (Nat.mul_le_mul_right _ hs)⟩
    obtain ⟨f, i, hi, hrun⟩ := formatBytesLoop_small _ 0 hw (le_refl _) (by norm_num)
    have h7 := formatBytesLoop_more 4 _ _ _ 3 hrun
    have hlen : i < unitLadder.length := by
      have : unitLadder.length = 4 := rfl
      omega
    have hidx : ((0 : Int) + (i : Int)).toNat = i := by omega
    have hu := index_lt unitLadder i [] hlen
    refine ⟨f, 0 + i, unitLadder.getD i [], hrun, h7, by omega, by omega, ?_, ?_⟩
    · rw [hidx]
      exact hu
    · unfold formatBytes
      rw [h7]
      simp only
      rw [if_neg (by omega : ¬ ((0 : Int) + (i : Int) < 0)), hidx, hu, ok_bind]
  · intro h12 h63
    have hx := ofInt_within_large size (10 ^ 12) (by norm_num) (by omega)
      (by push_cast; exact h12) h63
    obtain ⟨f, i, hi, hrun⟩ := formatBytesLoop_large _ hx
    have hidx : ((4 : Int) + (i : Int)).toNat = 4 + i := by omega
    have hp : index unitLadder (4 + i) = (Res.panic : Res GoString) := by
      unfold index
      rw [List.getElem?_eq_none (by
        have : unitLadder.length = 4 := rfl
        omega)]
    refine ⟨f, 4 + i, hrun, by omega, ?_, ?_⟩
    · rw [hidx]
      exact hp
    · unfold formatBytes
      rw [hrun]
      simp only
      rw [if_neg (by omega : ¬ ((4 : Int) + (i : Int) < 0)), hidx, hp]
      rfl

/-- C31 at the two sizes next to the limit: `10^12 - 1` bytes are formatted with a unit
index of at most 3, and `10^12` bytes make `formatBytes` panic. -/
theorem formatBytes_unit_index_witness :
    (∃ f unit u, formatBytesLoop 4 (F64.ofInt 999999999999) 0 = some (f, unit) ∧
        formatBytesLoop 7 (F64.ofInt 999999999999) 0 = some (f, unit) ∧
        0 ≤ unit ∧ unit ≤ 3 ∧ index unitLadder unit.toNat = .ok u ∧
        formatBytes (fun _ => str "x") 999999999999
          = .ok ((fun _ => str "x") f ++ str " " ++ u)) ∧
    (∃ f unit, formatBytesLoop 7 (F64.ofInt 1000000000000) 0 = some (f, unit) ∧ 4 ≤ unit ∧
        index unitLadder unit.toNat = (Res.panic : Res GoString) ∧
        formatBytes (fun _ => str "x") 1000000000000 = .panic) :=
  ⟨(formatBytes_unit_index (fun _ => str "x") 999999999999).1 (by decide) (by decide),
   (formatBytes_unit_index (fun _ => str "x") 1000000000000).2 (by decide) (by decide)⟩

/-! ## Claim C16: the unit of the network time -/

theorem toInt64_range (x : F64) : -2 ^ 63 ≤ x.toInt64 ∧ x.toInt64 < 2 ^ 63 := by
  cases x with
  | fin s n d =>
    simp only [F64.toInt64]
    split_ifs with h
    · exact h
    · constructor <;> norm_num
  | inf s => simp only [F64.toInt64]; constructor <;> norm_num
  | nan => simp only [F64.toInt64]; constructor <;> norm_num

/-- Claim C16 (amended): `GetBatchTime` takes the quotient `CompressedSize / speed` as a number
of units of `time.Duration`, nanoseconds.  For a result with `CompressTime` and
`DecompressTime` 0, one payload and a non-zero speed, the returned duration is the
`float64` quotient of size and speed truncated to an integer, and for a size
`0 ≤ s < 2^53` and a `uint64` speed it is `⌊s / speed⌋` nanoseconds. -/
theorem GetBatchTime_nanoseconds (br : BenchmarkResult) (speed : Nat)
    (hc : br.CompressTime = 0) (hd : br.DecompressTime = 0) (hp : 0 < speed) :
    br.GetBatchTime 1 speed = br.networkTime speed ∧
    (0 ≤ br.CompressedSize → br.CompressedSize < 2 ^ 53 → speed < 2 ^ 64 →
      br.GetBatchTime 1 speed = br.CompressedSize / (speed : Int)) := by
  have h1 : br.GetBatchTime 1 speed = br.networkTime speed := by
    rw [GetBatchTime_wrap br 1 speed hp.ne', hc, hd]
    have hr := toInt64_range (F64.div (F64.ofInt br.CompressedSize) (F64.ofNat speed))
    have e : (0 : Int) + br.networkTime speed + 0
        + (1 - 1) * max 0 (max (br.networkTime speed) 0) = br.networkTime speed := by ring
    rw [e]
    exact wrap64_eq _ hr.1 hr.2
  refine ⟨h1, fun hs0 hs53 hp64 => ?_⟩
  rw [h1]
  exact networkTime_eq br.CompressedSize speed hs0 hs53 hp hp64

/-- The network stage of `TestBatchTime`: 10000 bytes at speed 100 take 100 nanoseconds,
the compress time of its case `all times are equal`. -/
theorem GetBatchTime_nanoseconds_witness :
    (sample 0 0 10000 F64.nan).GetBatchTime 1 100
      = (sample 0 0 10000 F64.nan).networkTime 100 ∧
    (sample 0 0 10000 F64.nan).GetBatchTime 1 100 = 100 :=
  ⟨(GetBatchTime_nanoseconds (sample 0 0 10000 F64.nan) 100 rfl rfl (by decide)).1,
   ((GetBatchTime_nanoseconds (sample 0 0 10000 F64.nan) 100 rfl rfl (by decide)).2
      (by decide) (by decide) (by decide)).trans (by decide)⟩

/-- C16 as stated fails: for 10000 bytes at speed 100, without compress and decompress
time and for one payload, `GetBatchTime` returns 100 nanoseconds and not the
`10000 * 10^9 / 100` nanoseconds of a speed in bytes per second. -/
theorem GetBatchTime_nanoseconds_counterexample :
    (sample 0 0 10000 F64.nan).CompressTime = 0 ∧
    (sample 0 0 10000 F64.nan).DecompressTime = 0 ∧
    (sample 0 0 10000 F64.nan).GetBatchTime 1 100 = 100 ∧
    (sample 0 0 10000 F64.nan).GetBatchTime 1 100
      ≠ (sample 0 0 10000 F64.nan).CompressedSize * 10 ^ 9 / ((100 : Nat) : Int) := by
  refine ⟨rfl, rfl, by decide, by decide⟩

end Bencomp
